import Mathlib

/-!
# cpp-lazy: cursor adaptors

A shallow embedding of the cursor classes of the lazy-sequence library
(`FilterIterator`, `JoinIterator`, `SplitIterator`, `TakeEveryIterator`, the
Cartesian product, ChunkIf and GroupBy views), of the terminal methods of
`IterView`, and the properties they satisfy.

Conventions of the embedding.

* An underlying iterator over a container `xs` is the index of the element it
  points at; the past-the-end iterator of `xs` is `xs.length`.
* Dereferencing returns an `Option`: `none` stands for a dereference outside
  of the container, which the C++ code leaves undefined.
* A traversal is the loop `for (it = begin; it != end; ++it) out.push_back(*it)`.
  It is driven by a fuel counter and returns `none` when the fuel runs out or
  when a dereference is invalid; every result theorem shows that enough fuel
  gives `some` list.
-/

namespace Lz

/-! ## `std::find_if` -/

/-- The loop of `std::find_if(first, last, p)` with `n = last - first`
iterations left:
`for (; first != last; ++first) if (p(*first)) return first; return last;`.
An iterator outside of the container is not dereferenced: the loop gives
`last`. -/
def find_ifLoop {α : Type} (xs : List α) (p : α → Bool) : Nat → Nat → Nat
  | 0, first => first
  | n + 1, first =>
    match xs[first]? with
    | some x => if p x then first else find_ifLoop xs p n (first + 1)
    | none => first + (n + 1)

/-- Model of `std::find_if(first, last, p)` on index iterators over `xs`: the
first index in `[first, last)` whose element satisfies `p`, or `last`. -/
def find_if {α : Type} (xs : List α) (p : α → Bool) (first last : Nat) : Nat :=
  find_ifLoop xs p (last - first) first

/-! ## FilterIterator (include/Lz/detail/FilterIterator.hpp) -/

/-- State of a `FilterIterator`: the members `_iterator` and `_end`. The
member `_predicate` is the parameter `p` of the operations. -/
structure FilterIterator where
  _iterator : Nat
  _end : Nat
deriving DecidableEq, Repr

namespace FilterIterator

/-- Constructor `FilterIterator(begin, end, function)`:
`_iterator = std::find_if(_iterator, _end, _predicate)`. -/
def ctor {α : Type} (xs : List α) (p : α → Bool) (b e : Nat) : FilterIterator :=
  { _iterator := find_if xs p b e, _end := e }

/-- Dereference `operator*`: `*_iterator`. -/
def deref {α : Type} (xs : List α) (it : FilterIterator) : Option α :=
  xs[it._iterator]?

/-- Pre-increment `operator++`:
`if (_iterator != _end) _iterator = std::find_if(++_iterator, _end, _predicate);`. -/
def incr {α : Type} (xs : List α) (p : α → Bool) (it : FilterIterator) : FilterIterator :=
  if it._iterator ≠ it._end then
    { it with _iterator := find_if xs p (it._iterator + 1) it._end }
  else it

/-- Inequality `operator!=`: `_iterator != other._end`. -/
def ne (a b : FilterIterator) : Bool :=
  a._iterator != b._end

/-- Equality `operator==`: `!(*this != other)`. -/
def eq (a b : FilterIterator) : Bool :=
  !(ne a b)

/-- The traversal `for (; it != last; ++it) out.push_back(*it)`. -/
def traverse {α : Type} (xs : List α) (p : α → Bool) (last : FilterIterator) :
    Nat → FilterIterator → Option (List α)
  | 0, _ => none
  | fuel + 1, it =>
    if ne it last then
      match deref xs it with
      | some x => (traverse xs p last fuel (incr xs p it)).map (fun r => x :: r)
      | none => none
    else some []

/-- The filter view over `xs`: the traversal from the cursor constructed over
`[begin, end)` until it equals the cursor constructed at `(end, end)`. -/
def toList {α : Type} (xs : List α) (p : α → Bool) (fuel : Nat) : Option (List α) :=
  traverse xs p (ctor xs p xs.length xs.length) fuel (ctor xs p 0 xs.length)

end FilterIterator

/-! ## Text -/

/-- A `std::string`: its sequence of characters. -/
abbrev Text := List Char

/-! ## Conversions between `std::size_t` and `std::ptrdiff_t` -/

/-- Conversion of an integer to `std::size_t`: reduction modulo `2 ^ 64`. -/
def toSizeT (x : Int) : Nat :=
  (x % 2 ^ 64).toNat

/-- Conversion of a `std::size_t` value to `std::ptrdiff_t`: the two's
complement reading of the 64 bits. -/
def toPtrdiffT (x : Nat) : Int :=
  if x % 2 ^ 64 < 2 ^ 63 then ((x % 2 ^ 64 : Nat) : Int)
  else ((x % 2 ^ 64 : Nat) : Int) - 2 ^ 64

/-- The result of an arithmetic operation in `difference_type`
(`std::ptrdiff_t`, 64 bits, signed): the value `x` when the type holds it,
and `none` when the operation overflows, which has no defined behaviour. -/
def checkedPtrdiff (x : Int) : Option Int :=
  if -(2 ^ 63) ≤ x ∧ x < 2 ^ 63 then some x else none

/-! ## JoinIterator (include/Lz/detail/JoinIterator.hpp) -/

/-- Element of `xs` under an iterator at (signed) index `i`; `none` outside of
the container. -/
def elemAt {α : Type} (xs : List α) (i : Int) : Option α :=
  if 0 ≤ i then xs[i.toNat]? else none

/-- State of a `JoinIterator`: the members `_iterator` (index into the
source), `_delimiter`, `_isIteratorTurn` and `_distance`. -/
structure JoinIterator where
  _iterator : Int
  _delimiter : Text
  _isIteratorTurn : Bool
  _distance : Int
deriving DecidableEq

namespace JoinIterator

/-- Dereference `operator*`: the rendered source element on an element turn
(`std::format("{}", *_iterator)`, or `*_iterator` itself for a source of
strings), the delimiter otherwise. `fmt` is the rendering. -/
def deref {α : Type} (xs : List α) (fmt : α → Text) (it : JoinIterator) : Option Text :=
  if it._isIteratorTurn then (elemAt xs it._iterator).map fmt
  else some it._delimiter

/-- Pre-increment `operator++`:
`if (_isIteratorTurn) ++_iterator; _isIteratorTurn = !_isIteratorTurn;`. -/
def incr (it : JoinIterator) : JoinIterator :=
  { it with
    _iterator := if it._isIteratorTurn then it._iterator + 1 else it._iterator
    _isIteratorTurn := !it._isIteratorTurn }

/-- Equality `operator==`, a const member writing the mutable member
`_isIteratorTurn`:
`const bool end = _iterator == other._iterator; _isIteratorTurn = !end; return end;`.
Returns the result and the state of `*this` after the call. -/
def eq (a b : JoinIterator) : Bool × JoinIterator :=
  let e := decide (a._iterator = b._iterator)
  (e, { a with _isIteratorTurn := !e })

/-- Inequality `operator!=`: `!(*this == other)`. -/
def ne (a b : JoinIterator) : Bool × JoinIterator :=
  let r := eq a b
  (!r.1, r.2)

/-- Difference `operator-(const JoinIterator&)`:
`(_iterator - other._iterator) * 2 - 1`, computed in `difference_type`: the
result is `none` when the product or the difference overflows. -/
def sub (a b : JoinIterator) : Option Int :=
  (checkedPtrdiff ((a._iterator - b._iterator) * 2)).bind (fun t => checkedPtrdiff (t - 1))

/-- The traversal `for (; it != last; ++it) out.push_back(*it)`; the
comparison is evaluated on `it`, whose state it may change. -/
def traverse {α : Type} (xs : List α) (fmt : α → Text) (last : JoinIterator) :
    Nat → JoinIterator → Option (List Text)
  | 0, _ => none
  | fuel + 1, it =>
    let c := ne it last
    if c.1 then
      match deref xs fmt c.2 with
      | some v => (traverse xs fmt last fuel (incr c.2)).map (fun r => v :: r)
      | none => none
    else some []

/-- Stepping `n` times with `*` and `++` only, without comparing:
`for (; n > 0; --n, ++it) out.push_back(*it)`. -/
def steps {α : Type} (xs : List α) (fmt : α → Text) : Nat → JoinIterator → Option (List Text)
  | 0, _ => some []
  | n + 1, it =>
    match deref xs fmt it with
    | some v => (steps xs fmt n (incr it)).map (fun r => v :: r)
    | none => none

/-- The begin cursor of a join view: the cursor constructed at the source
begin on an element turn. -/
def viewBegin (d : Text) (dist : Int) : JoinIterator :=
  { _iterator := 0, _delimiter := d, _isIteratorTurn := true, _distance := dist }

/-- The end cursor of a join view: the cursor constructed at the source end,
with any turn flag. -/
def viewEnd {α : Type} (xs : List α) (d : Text) (turn : Bool) (dist : Int) : JoinIterator :=
  { _iterator := xs.length, _delimiter := d, _isIteratorTurn := turn, _distance := dist }

end JoinIterator

/-! ## SplitIterator (include/Lz/detail/SplitIterator.hpp) -/

/-- Subtraction of two `std::size_t` values, wrapping around modulo `2 ^ 64`. -/
def subSizeT (a b : Nat) : Nat :=
  if b ≤ a then a - b else 2 ^ 64 - (b - a)

/-- Search of `std::string::find` through the suffix `t` of the text, whose
first character has index `i`: the index of the first occurrence of `d`. -/
def findFrom (d : Text) : Text → Nat → Option Nat
  | [], i => if d.isPrefixOf [] then some i else none
  | c :: t, i => if d.isPrefixOf (c :: t) then some i else findFrom d t (i + 1)

/-- Model of `s.find(d, pos)`: the index of the first occurrence of `d` in `s`
that starts at `pos` or later; `none` stands for `std::string::npos`. -/
def find (s d : Text) (pos : Nat) : Option Nat :=
  if pos ≤ s.length then findFrom d (s.drop pos) pos else none

/-- The characters a `const char*` constructor of `std::string` or
`std::string_view` reads from the pointed-to characters `t`: those before the
first NUL character. -/
def cstr (t : Text) : Text :=
  t.takeWhile (fun c => c != Char.ofNat 0)

/-- State of a `SplitIterator`: the members `_currentPos` and `_last`, where
`none` stands for `std::string::npos`. The helper (`string`, `delimiter`) is
passed to the operations as `s` and `d`; `_substring` is the value returned by
the dereference. -/
structure SplitIterator where
  _currentPos : Nat
  _last : Option Nat
deriving DecidableEq

namespace SplitIterator

/-- Constructor `SplitIterator(startingPosition, helper)`: `_last` is searched
only `if (startingPosition == 0)` and keeps its initial value `0` otherwise. -/
def ctor (s d : Text) (startingPosition : Nat) : SplitIterator :=
  { _currentPos := startingPosition
    _last := if startingPosition = 0 then find s d startingPosition else some 0 }

/-- Dereference `operator*`: `SubString(&string[_currentPos], _last - _currentPos)`
if `_last != npos`, else `SubString(&string[_currentPos])`. The result is `none`
when the characters read are not all inside the text. -/
def deref (s : Text) (it : SplitIterator) : Option Text :=
  match it._last with
  | some l =>
    if it._currentPos + subSizeT l it._currentPos ≤ s.length then
      some ((s.drop it._currentPos).take (subSizeT l it._currentPos))
    else none
  | none =>
    if it._currentPos ≤ s.length then some (cstr (s.drop it._currentPos)) else none

/-- Inequality `operator!=`: `_currentPos != other._currentPos`. -/
def ne (a b : SplitIterator) : Bool :=
  a._currentPos != b._currentPos

/-- Equality `operator==`: `!(*this != other)`. -/
def eq (a b : SplitIterator) : Bool :=
  !(ne a b)

/-- Pre-increment `operator++`. -/
def incr (s d : Text) (it : SplitIterator) : SplitIterator :=
  let delimLen := d.length
  let stringLen := s.length
  match it._last with
  | none => { it with _currentPos := stringLen }
  | some l =>
    if l = subSizeT stringLen delimLen then
      { _currentPos := stringLen, _last := none }
    else
      { _currentPos := l + delimLen, _last := find s d (l + delimLen) }

/-- The traversal `for (; it != last; ++it) out.push_back(*it)`. -/
def traverse (s d : Text) (last : SplitIterator) : Nat → SplitIterator → Option (List Text)
  | 0, _ => none
  | fuel + 1, it =>
    if ne it last then
      match deref s it with
      | some v => (traverse s d last fuel (incr s d it)).map (fun r => v :: r)
      | none => none
    else some []

/-- The begin cursor of the string splitter: the cursor constructed at
position 0. -/
def viewBegin (s d : Text) : SplitIterator := ctor s d 0

/-- The end cursor of the string splitter: the cursor constructed at position
`length`. -/
def viewEnd (s d : Text) : SplitIterator := ctor s d s.length

/-- The whole split: traversal from position 0 to position `length`. -/
def split (s d : Text) (fuel : Nat) : Option (List Text) :=
  traverse s d (viewEnd s d) fuel (viewBegin s d)

end SplitIterator

/-- Modelled from the spec: the text of a join view over the strings `xs`
(`Lz/Join.hpp` and the conversion of a view to a string are not among the
sources), "join (sequence of value → delimited text)": the concatenation of
the values of the Join cursor, "element, delim, element — delimiter omitted
after the final element". The values are those of `operator*` and `operator++`
over the `2n - 1` positions of the view ("Join over `n` elements yields
`2n-1` positions") from begin. -/
def joinText (xs : List Text) (d : Text) : Option Text :=
  let b := JoinIterator.viewBegin d (2 * (xs.length : Int) - 1)
  (JoinIterator.steps xs id (2 * xs.length - 1) b).map List.flatten

/-! ## TakeEveryIterator (include/Lz/detail/TakeEveryIterator.hpp) -/

/-- State of a `TakeEveryIterator`: the members `_iterator` and `_end`
(source iterators, kept as indices into the source), and the `std::size_t`
members `_offset`, `_current` and `_distance`, natural numbers below
`2 ^ 64`. -/
structure TakeEveryIterator where
  _iterator : Nat
  _end : Nat
  _offset : Nat
  _current : Nat
  _distance : Nat
deriving DecidableEq

namespace TakeEveryIterator

/-- Constructor `TakeEveryIterator(iterator, end, offset, distance)`:
`_current(iterator == end ? distance : 0)`. -/
def ctor (iterator e offset distance : Nat) : TakeEveryIterator :=
  { _iterator := iterator, _end := e, _offset := offset,
    _current := if iterator = e then distance else 0, _distance := distance }

/-- The cursor over a source of length `n` with stride `s` whose source
iterator is at index `i` and whose counter is `c`. -/
def cursorAt (n s i c : Nat) : TakeEveryIterator :=
  { _iterator := i, _end := n, _offset := s, _current := c, _distance := n }

/-- Dereference `operator*`: `*_iterator`. -/
def deref {α : Type} (xs : List α) (it : TakeEveryIterator) : Option α :=
  xs[it._iterator]?

/-- Moving a source iterator by a signed number of places,
`next(iterator, n)`: the index is a counter of the width of `std::size_t`, as
the counter of `RepeatIterator` is; it wraps around modulo `2 ^ 64`. Inside a
source of fewer than `2 ^ 63` elements nothing wraps. -/
def nextIndex (i : Nat) (n : Int) : Nat :=
  toSizeT ((i : Int) + n)

/-- Pre-increment `operator++`:
`if (_current + _offset >= _distance) _iterator = _end;`
`else { _iterator = next(_iterator, static_cast<difference_type>(_offset));`
`_current += _offset; }`. The sum `_current + _offset` is one of
`std::size_t` values and wraps around modulo `2 ^ 64`. -/
def incr (it : TakeEveryIterator) : TakeEveryIterator :=
  if (it._current + it._offset) % 2 ^ 64 ≥ it._distance then
    { it with _iterator := it._end }
  else
    { it with _iterator := nextIndex it._iterator (toPtrdiffT it._offset),
              _current := (it._current + it._offset) % 2 ^ 64 }

/-- Inequality `operator!=`: `a._iterator != b._iterator`. -/
def ne (a b : TakeEveryIterator) : Bool :=
  a._iterator != b._iterator

/-- Equality `operator==`: `!(a != b)`. -/
def eq (a b : TakeEveryIterator) : Bool :=
  !(ne a b)

/-- The traversal `for (; it != last; ++it) out.push_back(*it)`. -/
def traverse {α : Type} (xs : List α) (last : TakeEveryIterator) :
    Nat → TakeEveryIterator → Option (List α)
  | 0, _ => none
  | fuel + 1, it =>
    if ne it last then
      match deref xs it with
      | some x => (traverse xs last fuel (incr it)).map (fun r => x :: r)
      | none => none
    else some []

/-- The begin cursor of the view over `xs` with stride `offset`: the cursor
constructed at the source begin with the distance `xs.length`. -/
def viewBegin {α : Type} (xs : List α) (offset : Nat) : TakeEveryIterator :=
  ctor 0 xs.length offset xs.length

/-- The end cursor of the view over `xs` with stride `offset`: the cursor
constructed at the source end. -/
def viewEnd {α : Type} (xs : List α) (offset : Nat) : TakeEveryIterator :=
  ctor xs.length xs.length offset xs.length

/-- The whole view: traversal from begin until the cursor equals end. -/
def toList {α : Type} (xs : List α) (offset : Nat) (fuel : Nat) : Option (List α) :=
  traverse xs (viewEnd xs offset) fuel (viewBegin xs offset)

end TakeEveryIterator

/-! ## Cartesian product of two sources -/

/-- Modelled from the spec: the cursor of the Cartesian product view
(`Lz/CartesianProduct.hpp` and its iterator are not among the sources), for two
sources. It "holds one live cursor per dimension": `_first` into the first
(outermost, slowest) source and `_second` into the last one. -/
structure CartesianProductIterator where
  _first : Nat
  _second : Nat
deriving DecidableEq

namespace CartesianProductIterator

/-- Modelled from the spec: the current element of the Cartesian product cursor,
"the same N-tuple shape as Zip": the pair of the current elements of the two
dimensions. Dereferencing a dimension that is at its end is invalid. -/
def deref {α β : Type} (as : List α) (bs : List β) (it : CartesianProductIterator) :
    Option (α × β) :=
  match as[it._first]?, bs[it._second]? with
  | some a, some b => some (a, b)
  | _, _ => none

/-- Modelled from the spec: the advance of the Cartesian product cursor, "like
an N-digit odometer - the last dimension advances every step, carrying into
the next-to-last when it wraps to its own begin". -/
def incr {β : Type} (bs : List β) (it : CartesianProductIterator) : CartesianProductIterator :=
  if it._second + 1 = bs.length then
    { _first := it._first + 1, _second := 0 }
  else
    { it with _second := it._second + 1 }

/-- Modelled from the spec: inequality of Cartesian product cursors. The view
"ends when the first (outermost/slowest) dimension would carry past its end":
the cursors are compared on the first dimension. -/
def ne (a b : CartesianProductIterator) : Bool :=
  a._first != b._first

/-- Modelled from the spec: the end cursor of the Cartesian product view, every
dimension at its end. -/
def viewEnd {α β : Type} (as : List α) (bs : List β) : CartesianProductIterator :=
  { _first := as.length, _second := bs.length }

/-- Modelled from the spec: the begin cursor of the Cartesian product view,
every dimension at its begin. The product "over sizes `(a,b)` yields `a*b`
positions" and "`end` is reachable from `begin` by zero or more advances":
when a dimension is empty the view has no position and begin is the end
cursor. -/
def viewBegin {α β : Type} (as : List α) (bs : List β) : CartesianProductIterator :=
  if as.isEmpty || bs.isEmpty then viewEnd as bs else { _first := 0, _second := 0 }

/-- The traversal `for (; it != last; ++it) out.push_back(*it)`. -/
def traverse {α β : Type} (as : List α) (bs : List β) (last : CartesianProductIterator) :
    Nat → CartesianProductIterator → Option (List (α × β))
  | 0, _ => none
  | fuel + 1, it =>
    if ne it last then
      match deref as bs it with
      | some x => (traverse as bs last fuel (incr bs it)).map (fun r => x :: r)
      | none => none
    else some []

/-- The count of `std::distance(it, last)` on a forward cursor:
`for (n = 0; it != last; ++it) ++n;`. -/
def distance {β : Type} (bs : List β) (last : CartesianProductIterator) :
    Nat → CartesianProductIterator → Option Nat
  | 0, _ => none
  | fuel + 1, it =>
    if ne it last then (distance bs last fuel (incr bs it)).map (fun n => n + 1)
    else some 0

/-- The whole view: traversal from begin until the cursor equals end. -/
def toList {α β : Type} (as : List α) (bs : List β) (fuel : Nat) : Option (List (α × β)) :=
  traverse as bs (viewEnd as bs) fuel (viewBegin as bs)

end CartesianProductIterator

/-! ## Shapes of texts -/

/-- No occurrence of the delimiter `d` starts inside `u` when `u` is followed
by `d`: the first occurrence of `d` in `u ++ d` is the one at the end. -/
def NoEarlyDelim (d u : Text) : Prop :=
  ∀ q, q < u.length → ¬ d <+: (u.drop q ++ d)

instance (d u : Text) : Decidable (NoEarlyDelim d u) := by
  unfold NoEarlyDelim; infer_instance

/-- The text `u1 ++ d ++ u2 ++ d ++ ... ++ un ++ d`: every segment of `us`
followed by the delimiter. -/
def delimited (us : List Text) (d : Text) : Text :=
  (us.map (fun u => u ++ d)).flatten

/-! ## Standard algorithms used by the terminal methods -/

/-- Model of `std::accumulate(first, last, init, op)` over the elements `xs` of
`[first, last)`: `for (; first != last; ++first) init = op(init, *first);`. -/
def accumulate {α β : Type} : List α → β → (β → α → β) → β
  | [], init, _ => init
  | x :: t, init, op => accumulate t (op init x) op

/-- Model of `std::all_of(first, last, p)` over the elements `xs` of
`[first, last)`: `for (; first != last; ++first) if (!p(*first)) return false;`
`return true;`. -/
def all_of {α : Type} : List α → (α → Bool) → Bool
  | [], _ => true
  | x :: t, p => if p x then all_of t p else false

/-- Model of `std::any_of(first, last, p)` over the elements `xs` of
`[first, last)`: `for (; first != last; ++first) if (p(*first)) return true;`
`return false;`. -/
def any_of {α : Type} : List α → (α → Bool) → Bool
  | [], _ => false
  | x :: t, p => if p x then true else any_of t p

/-- The values `GENERALIZED_NONCOMMUTATIVE_SUM(op, a1, ..., aN)` of the C++
standard: `a1` if `N = 1`, and otherwise `op` applied to such a sum of
`a1, ..., aK` and such a sum of `aK+1, ..., aN`, for any `1 ≤ K < N`. -/
inductive GeneralizedNoncommutativeSum {α : Type} (op : α → α → α) : List α → α → Prop
  | single (a : α) : GeneralizedNoncommutativeSum op [a] a
  | split (l r : List α) (x y : α) :
      GeneralizedNoncommutativeSum op l x → GeneralizedNoncommutativeSum op r y →
      GeneralizedNoncommutativeSum op (l ++ r) (op x y)

/-- The values `GENERALIZED_SUM(op, a1, ..., aN)` of the C++ standard: a
generalized noncommutative sum of any permutation of `a1, ..., aN`. -/
def GeneralizedSum {α : Type} (op : α → α → α) (as : List α) (r : α) : Prop :=
  ∃ bs, bs.Perm as ∧ GeneralizedNoncommutativeSum op bs r

/-- Model of `std::reduce(first, last, init, op)`, with or without an execution
policy, over the elements `xs` of `[first, last)`: the standard lets it return
any `GENERALIZED_SUM(op, init, *first, ...)`; `r` is a value it may return. -/
def reduce {α : Type} (xs : List α) (init : α) (op : α → α → α) (r : α) : Prop :=
  GeneralizedSum op (init :: xs) r

/-- The sequential `std::reduce(first, last, init, op)` of libstdc++ (header
`numeric`) on random access iterators, over the elements `xs` of
`[first, last)`:
`while ((last - first) >= 4) { v1 = op(first[0], first[1]); v2 = op(first[2], first[3]);`
`v3 = op(v1, v2); init = op(init, v3); first += 4; }`
`for (; first != last; ++first) init = op(init, *first); return init;`. -/
def reduce_libstdcxx {α : Type} : List α → α → (α → α → α) → α
  | a :: b :: c :: d :: t, init, op => reduce_libstdcxx t (op init (op (op a b) (op c d))) op
  | [a, b, c], init, op => op (op (op init a) b) c
  | [a, b], init, op => op (op init a) b
  | [a], init, op => op init a
  | [], init, _ => init

/-- The loop of `std::max_element(first, last, comp)` with `n` iterations left:
`for (; first != last; ++first) if (comp(*largest, *first)) largest = first;`. -/
def max_elementLoop {α : Type} (xs : List α) (comp : α → α → Bool) : Nat → Nat → Nat → Nat
  | 0, largest, _ => largest
  | n + 1, largest, first =>
    match xs[largest]?, xs[first]? with
    | some a, some b =>
      max_elementLoop xs comp n (if comp a b then first else largest) (first + 1)
    | _, _ => largest

/-- Model of `std::max_element(first, last, comp)` on index iterators over
`xs`: `if (first == last) return last; largest = first; ++first;` and the
loop. -/
def max_element {α : Type} (xs : List α) (comp : α → α → Bool) (first last : Nat) : Nat :=
  if first = last then last
  else max_elementLoop xs comp (last - (first + 1)) first (first + 1)

/-- The loop of `std::min_element(first, last, comp)` with `n` iterations left:
`for (; first != last; ++first) if (comp(*first, *smallest)) smallest = first;`. -/
def min_elementLoop {α : Type} (xs : List α) (comp : α → α → Bool) : Nat → Nat → Nat → Nat
  | 0, smallest, _ => smallest
  | n + 1, smallest, first =>
    match xs[smallest]?, xs[first]? with
    | some a, some b =>
      min_elementLoop xs comp n (if comp b a then first else smallest) (first + 1)
    | _, _ => smallest

/-- Model of `std::min_element(first, last, comp)` on index iterators over
`xs`: `if (first == last) return last; smallest = first; ++first;` and the
loop. -/
def min_element {α : Type} (xs : List α) (comp : α → α → Bool) (first last : Nat) : Nat :=
  if first = last then last
  else min_elementLoop xs comp (last - (first + 1)) first (first + 1)

/-! ## IterView (include/Lz/Lz.hpp): terminal methods -/

/-- What stops a call that does not return a value. -/
inductive Fault where
  | preconditionViolation (message : String)
  | invalidDereference
deriving DecidableEq

/-- Modelled from the spec: the macro `LZ_ASSERT(condition, message)`
(`Lz/detail/LzTools.hpp` is not among the sources). A broken precondition
"fails fast (debug assertion / fatal trap)": the call stops with a
precondition violation when the condition is false. -/
def LZ_ASSERT (condition : Bool) (message : String) : Except Fault Unit :=
  if condition then .ok () else .error (.preconditionViolation message)

/-- Modelled from the spec: `lz::isEmpty(view)` (`Lz/FunctionTools.hpp` is not
among the sources): the view has no element, its begin equals its end. -/
def isEmpty {α : Type} (xs : List α) : Bool :=
  xs.isEmpty

/-- Modelled from the spec: `lz::reverse(view)` (`Lz/FunctionTools.hpp` is not
among the sources): the view over the `std::reverse_iterator`s of the sequence,
its elements from the last to the first. -/
def reverse {α : Type} (xs : List α) : List α :=
  xs.reverse

namespace IterView

/-- Method `IterView::foldl(init, function)`, build without execution policies:
`std::accumulate(begin(), end(), init, function)`. -/
def foldl {α β : Type} (xs : List α) (init : β) (function : β → α → β) : β :=
  accumulate xs init function

/-- Method `IterView::foldl(init, function, exec)`, build with execution
policies: `std::reduce(begin(), end(), init, function)` or
`std::reduce(exec, begin(), end(), init, function)`; `r` is a value the call
may return. -/
def foldlExec {α : Type} (xs : List α) (init : α) (function : α → α → α) (r : α) : Prop :=
  reduce xs init function r

/-- Method `IterView::foldr(init, function)`, build without execution policies:
`std::accumulate(reverseView.begin(), reverseView.end(), init, function)` with
`reverseView = lz::reverse(*this)`. -/
def foldr {α β : Type} (xs : List α) (init : β) (function : β → α → β) : β :=
  accumulate (reverse xs) init function

/-- Method `IterView::foldr(init, function, exec)`, build with execution
policies: `std::reduce` over `lz::reverse(*this)`; `r` is a value the call may
return. -/
def foldrExec {α : Type} (xs : List α) (init : α) (function : α → α → α) (r : α) : Prop :=
  reduce (reverse xs) init function r

/-- Method `IterView::all(predicate)`: `std::all_of(begin(), end(), predicate)`,
in both builds. -/
def all {α : Type} (xs : List α) (predicate : α → Bool) : Bool :=
  all_of xs predicate

/-- Method `IterView::any(predicate)`: `std::any_of(begin(), end(), predicate)`,
in both builds. -/
def any {α : Type} (xs : List α) (predicate : α → Bool) : Bool :=
  any_of xs predicate

/-- Method `IterView::none(predicate)`: `return !this->all(predicate);`, in
both builds. -/
def none {α : Type} (xs : List α) (predicate : α → Bool) : Bool :=
  !(all xs predicate)

/-- Dereference of an iterator of the view. -/
def derefAt {α : Type} (xs : List α) (i : Nat) : Except Fault α :=
  match xs[i]? with
  | some x => .ok x
  | .none => .error .invalidDereference

/-- Method `IterView::max(cmp)`, in both builds:
`LZ_ASSERT(!lz::isEmpty(*this), ...); return *std::max_element(begin(), end(), cmp);`. -/
def max {α : Type} (xs : List α) (cmp : α → α → Bool) : Except Fault α := do
  LZ_ASSERT (!(isEmpty xs)) "sequence cannot be empty in order to get max element"
  derefAt xs (max_element xs cmp 0 xs.length)

/-- Method `IterView::min(cmp)`, in both builds:
`LZ_ASSERT(!lz::isEmpty(*this), ...); return *std::min_element(begin(), end(), cmp);`. -/
def min {α : Type} (xs : List α) (cmp : α → α → Bool) : Except Fault α := do
  LZ_ASSERT (!(isEmpty xs)) "sequence cannot be empty in order to get min element"
  derefAt xs (min_element xs cmp 0 xs.length)

end IterView

/-- A strict weak ordering in the sense of the C++ requirements on a comparer:
`cmp` is irreflexive and transitive, and the equivalence "neither is before the
other" is transitive. -/
structure StrictWeakOrdering {α : Type} (cmp : α → α → Bool) : Prop where
  irrefl : ∀ a, cmp a a = false
  trans : ∀ a b c, cmp a b = true → cmp b c = true → cmp a c = true
  equiv_trans : ∀ a b c, cmp a b = false → cmp b a = false → cmp b c = false →
    cmp c b = false → cmp a c = false ∧ cmp c a = false

/-- What the loop of `std::max_element` keeps true: the candidate at index `l`
is inside the scanned part `[0, m)`, no scanned element is after it in the
ordering, and every element scanned ahead of it is before it. -/
def MaxScanned {α : Type} (xs : List α) (cmp : α → α → Bool) (l m : Nat) : Prop :=
  l < m ∧ m ≤ xs.length ∧ ∃ a, xs[l]? = some a
    ∧ (∀ j b, j < m → xs[j]? = some b → cmp a b = false)
    ∧ (∀ j b, j < l → xs[j]? = some b → cmp b a = true)

/-! ## ChunkIf -/

/-- Modelled from the spec: the cursor of the ChunkIf view (`Lz/ChunkIf.hpp` and
its iterator are not among the sources). "Each yielded item is a Sub-View
`[runStart, runEnd)`" of the source; `sourceEnd` is the end of the source. -/
structure ChunkIfIterator where
  runStart : Nat
  runEnd : Nat
  sourceEnd : Nat
deriving DecidableEq

namespace ChunkIfIterator

/-- Modelled from the spec: construction of the ChunkIf cursor at `b`: the run
that starts at `b` ends at the first element satisfying the predicate, "the
current run's terminator", or at the end of the source. -/
def ctor {α : Type} (xs : List α) (p : α → Bool) (b e : Nat) : ChunkIfIterator :=
  { runStart := b, runEnd := find_if xs p b e, sourceEnd := e }

/-- Modelled from the spec: the current element of the ChunkIf cursor, the
Sub-View `[runStart, runEnd)` as the list of its elements. -/
def deref {α : Type} (xs : List α) (it : ChunkIfIterator) : Option (List α) :=
  if it.runStart ≤ it.runEnd ∧ it.runEnd ≤ xs.length then
    some ((xs.drop it.runStart).take (it.runEnd - it.runStart))
  else none

/-- Modelled from the spec: the advance of the ChunkIf cursor. "Advancing scans
forward past the current run's terminator to locate the next one (or
end-of-source)"; a run that ends at the end of the source has no terminator
and the cursor becomes the end cursor. -/
def incr {α : Type} (xs : List α) (p : α → Bool) (it : ChunkIfIterator) : ChunkIfIterator :=
  if it.runEnd = it.sourceEnd then
    { it with runStart := it.sourceEnd }
  else
    { it with runStart := it.runEnd + 1
              runEnd := find_if xs p (it.runEnd + 1) it.sourceEnd }

/-- Modelled from the spec: inequality of ChunkIf cursors, "logical position
only": the starts of the runs are compared. -/
def ne (a b : ChunkIfIterator) : Bool :=
  a.runStart != b.runStart

/-- The begin cursor of the ChunkIf view over `xs`. -/
def viewBegin {α : Type} (xs : List α) (p : α → Bool) : ChunkIfIterator :=
  ctor xs p 0 xs.length

/-- The end cursor of the ChunkIf view over `xs`. -/
def viewEnd {α : Type} (xs : List α) (p : α → Bool) : ChunkIfIterator :=
  ctor xs p xs.length xs.length

/-- The traversal `for (; it != last; ++it) out.push_back(*it)`. -/
def traverse {α : Type} (xs : List α) (p : α → Bool) (last : ChunkIfIterator) :
    Nat → ChunkIfIterator → Option (List (List α))
  | 0, _ => none
  | fuel + 1, it =>
    if ne it last then
      match deref xs it with
      | some c => (traverse xs p last fuel (incr xs p it)).map (fun r => c :: r)
      | none => none
    else some []

/-- The whole view `lz::chunkIf(xs, p)`: traversal from begin until the cursor
equals end. -/
def toList {α : Type} (xs : List α) (p : α → Bool) (fuel : Nat) : Option (List (List α)) :=
  traverse xs p (viewEnd xs p) fuel (viewBegin xs p)

end ChunkIfIterator

/-! ## GroupBy -/

/-- Modelled from the spec: the cursor of the GroupBy view (`Lz/GroupBy.hpp` and
its iterator are not among the sources). The current group is the Sub-View
`[runStart, runEnd)` of the source; `sourceEnd` is the end of the source. -/
structure GroupByIterator where
  runStart : Nat
  runEnd : Nat
  sourceEnd : Nat
deriving DecidableEq

namespace GroupByIterator

/-- Modelled from the spec: the end of the group that starts at `b`. The cursor
"scans forward while the key function's result is unchanged (per a supplied
equality comparer, default value-equality)". -/
def scan {α κ : Type} [DecidableEq κ] (xs : List α) (key : α → κ) (b e : Nat) : Nat :=
  match xs[b]? with
  | some x => find_if xs (fun y => !(decide (key y = key x))) b e
  | none => e

/-- Modelled from the spec: construction of the GroupBy cursor at `b`. -/
def ctor {α κ : Type} [DecidableEq κ] (xs : List α) (key : α → κ) (b e : Nat) :
    GroupByIterator :=
  { runStart := b, runEnd := scan xs key b e, sourceEnd := e }

/-- Modelled from the spec: the current element of the GroupBy cursor, "(key,
SubView)": the key of the first element of the group and the elements of
`[runStart, runEnd)`. -/
def deref {α κ : Type} (xs : List α) (key : α → κ) (it : GroupByIterator) :
    Option (κ × List α) :=
  match xs[it.runStart]? with
  | some x =>
    if it.runStart ≤ it.runEnd ∧ it.runEnd ≤ xs.length then
      some (key x, (xs.drop it.runStart).take (it.runEnd - it.runStart))
    else none
  | none => none

/-- Modelled from the spec: the advance of the GroupBy cursor: the next group
starts where the current one ends. -/
def incr {α κ : Type} [DecidableEq κ] (xs : List α) (key : α → κ) (it : GroupByIterator) :
    GroupByIterator :=
  { it with runStart := it.runEnd, runEnd := scan xs key it.runEnd it.sourceEnd }

/-- Modelled from the spec: inequality of GroupBy cursors, "logical position
only": the starts of the groups are compared. -/
def ne (a b : GroupByIterator) : Bool :=
  a.runStart != b.runStart

/-- The traversal `for (; it != last; ++it) out.push_back(*it)`. -/
def traverse {α κ : Type} [DecidableEq κ] (xs : List α) (key : α → κ) (last : GroupByIterator) :
    Nat → GroupByIterator → Option (List (κ × List α))
  | 0, _ => none
  | fuel + 1, it =>
    if ne it last then
      match deref xs key it with
      | some g => (traverse xs key last fuel (incr xs key it)).map (fun r => g :: r)
      | none => none
    else some []

/-- Modelled from the spec: the whole view `lz::groupBy(xs, key)`
(`Lz/GroupBy.hpp` is not among the sources): the traversal over the source
as it is, "it does *not* sort", from the cursor at the begin of the source
until the cursor equals the one at its end. -/
def toList {α κ : Type} [DecidableEq κ] (xs : List α) (key : α → κ) (fuel : Nat) :
    Option (List (κ × List α)) :=
  traverse xs key (ctor xs key xs.length xs.length) fuel (ctor xs key 0 xs.length)

end GroupByIterator

/-- No run is open at the end of the source: the source is empty or its last
element satisfies the predicate. -/
def noOpenRun {α : Type} (p : α → Bool) (xs : List α) : Bool :=
  match xs.getLast? with
  | none => true
  | some x => p x

/-! ## JoinIterator: arithmetic -/

/-- The helper `isEven`: `(value & 1) == 0`, for a two's complement integer
the test that the value is divisible by two. -/
def isEven (value : Int) : Bool :=
  decide (value % 2 = 0)

/-- The arithmetic shift `value >> 1` of a signed integer. -/
def shiftRight1 (value : Int) : Int :=
  Int.shiftRight value 1

namespace JoinIterator

/-- Compound addition `operator+=`:
`_iterator += offset == 1 ? 1 : offset == _distance ? (offset >> 1) + 1 : offset >> 1;`
`if (!isEven(offset)) _isIteratorTurn = !_isIteratorTurn;`. -/
def addAssign (it : JoinIterator) (offset : Int) : JoinIterator :=
  { it with
    _iterator := it._iterator +
      (if offset = 1 then 1 else if offset = it._distance then shiftRight1 offset + 1
        else shiftRight1 offset)
    _isIteratorTurn := if !isEven offset then !it._isIteratorTurn else it._isIteratorTurn }

end JoinIterator

/-! ## TakeEveryIterator: addition -/

namespace TakeEveryIterator

/-- Addition `operator+(offset)`:
`const auto dist = distance(_iterator, _end);`
`const auto diffOffset = static_cast<difference_type>(_offset) * offset;`
`if (diffOffset >= dist) return TakeEveryIterator(_end, _end, _offset, 0);`
`return TakeEveryIterator(next(_iterator, diffOffset), _end, _offset, dist);`.
The arithmetic is signed (`difference_type`). The result is `none` where the
source has no defined behaviour: when the product overflows, and when
`next` leaves the source at its front. -/
def add (it : TakeEveryIterator) (offset : Int) : Option TakeEveryIterator :=
  let dist : Int := (it._end : Int) - (it._iterator : Int)
  let diffOffset : Int := toPtrdiffT it._offset * offset
  if diffOffset < -(2 ^ 63) ∨ 2 ^ 63 ≤ diffOffset then none
  else if diffOffset ≥ dist then some (ctor it._end it._end it._offset 0)
  else if (it._iterator : Int) + diffOffset < 0 then none
  else some (ctor ((it._iterator : Int) + diffOffset).toNat it._end it._offset dist.toNat)

end TakeEveryIterator

/-! ## RepeatIterator (include/Lz/detail/RepeatIterator.hpp) -/

/-- The shared helper `RepeatIteratorHelper`: the members `toRepeat` and
`isWhileTrueLoop`. -/
structure RepeatIteratorHelper (α : Type) where
  toRepeat : α
  isWhileTrueLoop : Bool

/-- State of a `RepeatIterator`: the counter `_iterator`, a `std::size_t`
(a natural number below `2 ^ 64`). The member `_iterHelper` points to the
helper of the view, which the operations below take as their first
argument. -/
structure RepeatIterator where
  _iterator : Nat
deriving DecidableEq

namespace RepeatIterator

/-- Dereference `operator*`: `_iterHelper->toRepeat`. -/
def deref {α : Type} (h : RepeatIteratorHelper α) (_it : RepeatIterator) : α :=
  h.toRepeat

/-- Pre-increment `operator++`:
`if (!_iterHelper->isWhileTrueLoop) ++_iterator;`. -/
def incr {α : Type} (h : RepeatIteratorHelper α) (it : RepeatIterator) : RepeatIterator :=
  if !h.isWhileTrueLoop then { _iterator := toSizeT ((it._iterator : Int) + 1) } else it

/-- Pre-decrement `operator--`:
`if (!_iterHelper->isWhileTrueLoop) --_iterator;`. -/
def decr {α : Type} (h : RepeatIteratorHelper α) (it : RepeatIterator) : RepeatIterator :=
  if !h.isWhileTrueLoop then { _iterator := toSizeT ((it._iterator : Int) - 1) } else it

/-- Compound addition `operator+=`:
`if (!_iterHelper->isWhileTrueLoop) _iterator += offset;`. -/
def addAssign {α : Type} (h : RepeatIteratorHelper α) (it : RepeatIterator) (offset : Int) :
    RepeatIterator :=
  if !h.isWhileTrueLoop then { _iterator := toSizeT ((it._iterator : Int) + offset) } else it

/-- Compound subtraction `operator-=`:
`if (!_iterHelper->isWhileTrueLoop) _iterator -= offset;`. -/
def subAssign {α : Type} (h : RepeatIteratorHelper α) (it : RepeatIterator) (offset : Int) :
    RepeatIterator :=
  if !h.isWhileTrueLoop then { _iterator := toSizeT ((it._iterator : Int) - offset) } else it

/-- Difference `operator-(const RepeatIterator&)`:
`return _iterator - other._iterator;`, a `std::size_t` difference returned as
`difference_type`. -/
def sub (a b : RepeatIterator) : Int :=
  toPtrdiffT (subSizeT a._iterator b._iterator)

/-- Inequality `operator!=`: `_iterator != other._iterator`. -/
def ne (a b : RepeatIterator) : Bool :=
  a._iterator != b._iterator

/-- Equality `operator==`: `!(*this != other)`. -/
def eq (a b : RepeatIterator) : Bool :=
  !(ne a b)

/-- The traversal `for (; it != last; ++it) out.push_back(*it)`. -/
def traverse {α : Type} (h : RepeatIteratorHelper α) (last : RepeatIterator) :
    Nat → RepeatIterator → Option (List α)
  | 0, _ => none
  | fuel + 1, it =>
    if ne it last then (traverse h last fuel (incr h it)).map (fun r => deref h it :: r)
    else some []

end RepeatIterator

/-- One mutating operation applied to a `RepeatIterator`: `++`, `--`,
`+= offset` or `-= offset`. -/
inductive RepeatStep where
  | incr
  | decr
  | addAssign (offset : Int)
  | subAssign (offset : Int)

namespace RepeatIterator

/-- The cursor after one mutating operation. -/
def step {α : Type} (h : RepeatIteratorHelper α) (it : RepeatIterator) : RepeatStep → RepeatIterator
  | RepeatStep.incr => incr h it
  | RepeatStep.decr => decr h it
  | RepeatStep.addAssign offset => addAssign h it offset
  | RepeatStep.subAssign offset => subAssign h it offset

/-- The cursor after a sequence of mutating operations, applied from left
to right. -/
def run {α : Type} (h : RepeatIteratorHelper α) (it : RepeatIterator) (steps : List RepeatStep) :
    RepeatIterator :=
  steps.foldl (step h) it

end RepeatIterator

/-! ## FilterIterator: the calls of the predicate -/

/-- The loop of `std::find_if` (`find_ifLoop`) together with the record of
its predicate calls: the result, and the indices of the elements on which
`p` was called, in the order of the calls. -/
def find_ifLoopLog {α : Type} (xs : List α) (p : α → Bool) : Nat → Nat → Nat × List Nat
  | 0, first => (first, [])
  | n + 1, first =>
    match xs[first]? with
    | some x =>
      if p x then (first, [first])
      else
        let r := find_ifLoopLog xs p n (first + 1)
        (r.1, first :: r.2)
    | none => (first + (n + 1), [])

/-- Model of `std::find_if(first, last, p)` with the record of its predicate
calls. -/
def find_ifLog {α : Type} (xs : List α) (p : α → Bool) (first last : Nat) : Nat × List Nat :=
  find_ifLoopLog xs p (last - first) first

namespace FilterIterator

/-- Constructor `FilterIterator(begin, end, function)` with the record of
the predicate calls made by its `std::find_if`. -/
def ctorLog {α : Type} (xs : List α) (p : α → Bool) (b e : Nat) : FilterIterator × List Nat :=
  let r := find_ifLog xs p b e
  ({ _iterator := r.1, _end := e }, r.2)

/-- Pre-increment `operator++` with the record of the predicate calls made
by its `std::find_if`; no call is made when `_iterator == _end`. -/
def incrLog {α : Type} (xs : List α) (p : α → Bool) (it : FilterIterator) :
    FilterIterator × List Nat :=
  if it._iterator ≠ it._end then
    let r := find_ifLog xs p (it._iterator + 1) it._end
    ({ it with _iterator := r.1 }, r.2)
  else (it, [])

/-- The traversal `for (; it != last; ++it) out.push_back(*it)` with the
record of the predicate calls: `operator!=` and `operator*` call no
predicate, `operator++` adds its calls. -/
def traverseLog {α : Type} (xs : List α) (p : α → Bool) (last : FilterIterator) :
    Nat → FilterIterator → Option (List α × List Nat)
  | 0, _ => none
  | fuel + 1, it =>
    if ne it last then
      match deref xs it with
      | some x =>
        let s := incrLog xs p it
        (traverseLog xs p last fuel s.1).map (fun r => (x :: r.1, s.2 ++ r.2))
      | none => none
    else some ([], [])

/-- The filter view over `xs` with the record of all predicate calls: those
of the construction of the begin cursor, of the end cursor, and of the
traversal. -/
def toListLog {α : Type} (xs : List α) (p : α → Bool) (fuel : Nat) :
    Option (List α × List Nat) :=
  let b := ctorLog xs p 0 xs.length
  let e := ctorLog xs p xs.length xs.length
  (traverseLog xs p e.1 fuel b.1).map (fun r => (r.1, b.2 ++ e.2 ++ r.2))

end FilterIterator

/-! ## Map over Filter: `filterMap` -/

/-- Modelled from the spec: `internal::MapIterator` and `lz::filterMap` are
not in src/ (`IterView::filterMap` in include/Lz/Lz.hpp only forwards to
`lz::filterMap` and names the result type
`MapIterator<FilterIterator<Iterator, UnaryFilterFunc>, UnaryMapFunc>`).
A Map cursor wraps one cursor and a function: its dereference applies the
function to the element under the wrapped cursor, its increment and
comparison are those of the wrapped cursor. Here the wrapped cursor is the
`FilterIterator` of the source. -/
structure MapIterator where
  _iterator : FilterIterator
deriving DecidableEq

namespace MapIterator

/-- Modelled from the spec: dereference of the Map cursor, the function
applied to the element under the wrapped cursor ("applies the function
lazily on each dereference"). -/
def deref {α β : Type} (xs : List α) (f : α → β) (it : MapIterator) : Option β :=
  (FilterIterator.deref xs it._iterator).map f

/-- Modelled from the spec: increment of the Map cursor, the increment of the
wrapped cursor. -/
def incr {α : Type} (xs : List α) (p : α → Bool) (it : MapIterator) : MapIterator :=
  { _iterator := FilterIterator.incr xs p it._iterator }

/-- Modelled from the spec: inequality of Map cursors, the inequality of the
wrapped cursors. -/
def ne (a b : MapIterator) : Bool :=
  FilterIterator.ne a._iterator b._iterator

/-- Modelled from the spec: the traversal
`for (; it != last; ++it) out.push_back(*it)` of Map cursors. -/
def traverse {α β : Type} (xs : List α) (p : α → Bool) (f : α → β) (last : MapIterator) :
    Nat → MapIterator → Option (List β)
  | 0, _ => none
  | fuel + 1, it =>
    if ne it last then
      match deref xs f it with
      | some y => (traverse xs p f last fuel (incr xs p it)).map (fun r => y :: r)
      | none => none
    else some []

end MapIterator

/-- Modelled from the spec: the view `filterMap(filterFunc, mapFunc)` of
`lz::filterMap`, which is not in src/: the Map cursors over the
Filter cursors constructed over `[begin, end)` and at `(end, end)`,
traversed from begin to end. -/
def IterView.filterMap {α β : Type} (xs : List α) (p : α → Bool) (f : α → β) (fuel : Nat) :
    Option (List β) :=
  MapIterator.traverse xs p f { _iterator := FilterIterator.ctor xs p xs.length xs.length } fuel
    { _iterator := FilterIterator.ctor xs p 0 xs.length }

/-- The filter function of the example in examples/FunctionTools.cpp:
`static_cast<bool>(std::isdigit(c))`. -/
def exampleIsDigit (c : Char) : Bool :=
  c.isDigit

/-- The map function of the example in examples/FunctionTools.cpp:
`static_cast<int>(c - '0')`. -/
def exampleDigitValue (c : Char) : Int :=
  (c.toNat : Int) - ('0'.toNat : Int)

/-! ## Zip and Pairwise -/

/-- Modelled from the spec: `internal::ZipIterator` and `lz::pairwise` are
not in src/ (`IterView::pairwise` in include/Lz/Lz.hpp only forwards to
`lz::pairwise` and names the result type `ZipIterator<Iterator, Iterator>`).
A Zip cursor wraps the cursors of its sources, here two cursors into the
same source, kept as indices; it advances all of them in lock-step, yields
the tuple of their elements, and ends when the first of them reaches its
end. -/
structure ZipIterator where
  _first : Nat
  _second : Nat
deriving DecidableEq

namespace ZipIterator

/-- Modelled from the spec: dereference of the Zip cursor, the tuple of the
elements under the two cursors. -/
def deref {α : Type} (xs : List α) (it : ZipIterator) : Option (α × α) :=
  match xs[it._first]?, xs[it._second]? with
  | some a, some b => some (a, b)
  | _, _ => none

/-- Modelled from the spec: increment of the Zip cursor, both cursors advance
("advances all N in lock-step"). -/
def incr (it : ZipIterator) : ZipIterator :=
  { _first := it._first + 1, _second := it._second + 1 }

/-- Modelled from the spec: inequality of Zip cursors. No cursor has reached
the cursor of the other side, so the traversal "ends when the first of the N
sources ends". -/
def ne (a b : ZipIterator) : Bool :=
  a._first != b._first && a._second != b._second

/-- Modelled from the spec: the traversal
`for (; it != last; ++it) out.push_back(*it)` of Zip cursors. -/
def traverse {α : Type} (xs : List α) (last : ZipIterator) :
    Nat → ZipIterator → Option (List (α × α))
  | 0, _ => none
  | fuel + 1, it =>
    if ne it last then
      match deref xs it with
      | some v => (traverse xs last fuel (incr it)).map (fun r => v :: r)
      | none => none
    else some []

end ZipIterator

/-- Modelled from the spec: the view `pairwise()` of `lz::pairwise`, which is
not in src/: the Zip of the source with itself from its second element on,
from the cursors `(begin, next(begin))` to `(end, end)`. -/
def IterView.pairwise {α : Type} (xs : List α) (fuel : Nat) : Option (List (α × α)) :=
  ZipIterator.traverse xs { _first := xs.length, _second := xs.length } fuel
    { _first := 0, _second := 1 }

/-! ## The earlier splitter: ConstSplitIterator and SplitObject (src/SplitIterator.hpp) -/

/-- Model of `std::find(first, last, value)` on index iterators over `s`:
`for (; first != last; ++first) if (*first == value) return first; return last;`,
the loop of `std::find_if` with the test `*first == value`. -/
def std_find (s : Text) (value : Char) (first last : Nat) : Nat :=
  find_if s (fun c => c == value) first last

/-- State of a `detail::ConstSplitIterator`: the members `_begin`, `_end` and
`_current` (indices into the text) and `_substring`. The members
`_delimiterBegin` and `_delimiterEnd` are the begin and the end of the
delimiter `d`, which the operations take as a parameter. -/
structure ConstSplitIterator where
  _begin : Nat
  _end : Nat
  _current : Nat
  _substring : Text
deriving DecidableEq

namespace ConstSplitIterator

/-- Constructor `ConstSplitIterator(begin, end, delimiterBegin, delimiterEnd)`:
`_current = std::find(_begin, _end, *_delimiterBegin);`
`_substring = std::string(_begin, _current);`.
The result is `none` when `*_delimiterBegin` dereferences the end of an empty
delimiter or when `_begin` is behind `_end`. -/
def ctor (s d : Text) (b e : Nat) : Option ConstSplitIterator :=
  match d.head? with
  | none => none
  | some c =>
    if b ≤ e then
      let current := std_find s c b e
      some { _begin := b, _end := e, _current := current,
             _substring := (s.drop b).take (current - b) }
    else none

/-- Dereference `operator*`: `_substring`. -/
def deref (it : ConstSplitIterator) : Text :=
  it._substring

/-- Inequality `operator!=`: `_begin != other._end`. -/
def ne (a b : ConstSplitIterator) : Bool :=
  a._begin != b._end

/-- Equality `operator==`: `!(*this != other)`. -/
def eq (a b : ConstSplitIterator) : Bool :=
  !(ne a b)

/-- Pre-increment `operator++`:
`_begin = _current == _end ? _end : _current + std::distance(_delimiterBegin, _delimiterEnd);`
`_current = std::find(_begin, _end, *_delimiterBegin);`
`_substring = std::string(_begin, _current);`.
The result is `none` when the new `_begin` is behind `_end`, where
`std::find` would run over an invalid range. -/
def incr (s d : Text) (it : ConstSplitIterator) : Option ConstSplitIterator :=
  match d.head? with
  | none => none
  | some c =>
    let b := if it._current = it._end then it._end else it._current + d.length
    if b ≤ it._end then
      let current := std_find s c b it._end
      some { it with _begin := b, _current := current,
                     _substring := (s.drop b).take (current - b) }
    else none

/-- The traversal `for (; it != last; ++it) out.push_back(*it)`. -/
def traverse (s d : Text) (last : ConstSplitIterator) :
    Nat → ConstSplitIterator → Option (List Text)
  | 0, _ => none
  | fuel + 1, it =>
    if ne it last then
      match incr s d it with
      | some next => (traverse s d last fuel next).map (fun r => deref it :: r)
      | none => none
    else some []

end ConstSplitIterator

namespace SplitObject

/-- The member `begin()` of `lz::SplitObject`:
`const_iterator(_string.begin(), _string.end(), _delimiter.begin(), _delimiter.end())`. -/
def viewBegin (s d : Text) : Option ConstSplitIterator :=
  ConstSplitIterator.ctor s d 0 s.length

/-- The member `end()` of `lz::SplitObject`, constructed as `begin()` is:
`const_iterator(_string.begin(), _string.end(), _delimiter.begin(), _delimiter.end())`. -/
def viewEnd (s d : Text) : Option ConstSplitIterator :=
  ConstSplitIterator.ctor s d 0 s.length

/-- The member `toVector()` of the object returned by `lz::split(string, delimiter)`:
`Container(begin(), end())`, the traversal from `begin()` while the cursor
differs from `end()`. -/
def toVector (s d : Text) (fuel : Nat) : Option (List Text) :=
  match viewBegin s d, viewEnd s d with
  | some b, some e => ConstSplitIterator.traverse s d e fuel b
  | _, _ => none

end SplitObject

/-! ## TakeEveryIterator: difference, computed in `float` -/

/-- The loop of `floorLog2`, with `fuel` halvings left. -/
def floorLog2Loop : Nat → Nat → Nat
  | 0, _ => 0
  | fuel + 1, n => if n < 2 then 0 else floorLog2Loop fuel (n / 2) + 1

/-- The position of the leading bit of `n > 0`: the `e` with
`2 ^ e ≤ n < 2 ^ (e + 1)`. -/
def floorLog2 (n : Nat) : Nat :=
  floorLog2Loop n n

/-- The exponent `e` of a positive quotient `p / q`:
`2 ^ e ≤ p / q < 2 ^ (e + 1)`. -/
def quotientExponent (p q : Nat) : Int :=
  let e0 : Int := (floorLog2 p : Int) - (floorLog2 q : Int)
  if q * 2 ^ e0.toNat ≤ p * 2 ^ (-e0).toNat then e0 else e0 - 1

/-- Rounding of the non-negative quotient `p / q` (`q > 0`) to the nearest
`float`, an IEEE 754 binary32 number with a significand of 24 bits, ties to
the even significand (the default rounding of a conversion and of a
division). The result is the fraction `r.1 / r.2` with `r.2` a power of two.
Quotients of values of `std::ptrdiff_t` and `std::size_t` lie between
`2 ^ (-64)` and `2 ^ 64`, inside the normal range of `float`. -/
def roundToFloat (p q : Nat) : Nat × Nat :=
  if p = 0 then (0, 1)
  else
    let shift : Int := 23 - quotientExponent p q
    let num := p * 2 ^ shift.toNat
    let den := q * 2 ^ (-shift).toNat
    let m0 := num / den
    let r := num % den
    let m := if 2 * r < den then m0
      else if den < 2 * r then m0 + 1
      else if m0 % 2 = 0 then m0 else m0 + 1
    (m * 2 ^ (-shift).toNat, 2 ^ shift.toNat)

/-- Conversion of a non-negative integer to `float`: `static_cast<float>(k)`. -/
def toFloat (k : Nat) : Nat × Nat :=
  roundToFloat k 1

/-- Division `x / y` of two non-negative `float` values, `y` not zero. -/
def floatDiv (x y : Nat × Nat) : Nat × Nat :=
  roundToFloat (x.1 * y.2) (x.2 * y.1)

/-- The function `std::ceil` on a non-negative `float`, as an integer. -/
def floatCeil (x : Nat × Nat) : Nat :=
  (x.1 + x.2 - 1) / x.2

/-- The integer part of a non-negative `float`, which is `-std::ceil(-x)`. -/
def floatFloor (x : Nat × Nat) : Nat :=
  x.1 / x.2

namespace TakeEveryIterator

/-- Difference `operator-(a, b)`:
`const auto dist = distance(b._iterator, a._iterator) / static_cast<float>(a._offset);`
`return static_cast<difference_type>(std::ceil(dist));`.
The distance of the source iterators is converted to `float` and divided in
`float`. The result is `none` for `_offset == 0`, where the quotient is not
a number that `difference_type` holds. -/
def sub (a b : TakeEveryIterator) : Option Int :=
  if a._offset = 0 then none
  else if b._iterator ≤ a._iterator then
    some (floatCeil (floatDiv (toFloat (a._iterator - b._iterator)) (toFloat a._offset)) : Nat)
  else
    some (-((floatFloor (floatDiv (toFloat (b._iterator - a._iterator)) (toFloat a._offset))
      : Nat) : Int))

/-- The function `lz::distance(a, b)` on `TakeEveryIterator`: `b - a`. -/
def distance (a b : TakeEveryIterator) : Option Int :=
  sub b a

end TakeEveryIterator

/-! ## JoinIterator: decrement and `operator+` -/

namespace JoinIterator

/-- Pre-decrement `operator--`:
`_isIteratorTurn = !_isIteratorTurn; if (_isIteratorTurn) --_iterator;`. -/
def decr (it : JoinIterator) : JoinIterator :=
  { it with
    _iterator := if !it._isIteratorTurn then it._iterator - 1 else it._iterator
    _isIteratorTurn := !it._isIteratorTurn }

/-- Addition `operator+(offset)`: `JoinIterator tmp(*this); tmp += offset; return tmp;`. -/
def add (it : JoinIterator) (offset : Int) : JoinIterator :=
  addAssign it offset

end JoinIterator

/-! ## ConstWhereIterator and WhereObject (src/WhereIterator.hpp) -/

/-- State of a `detail::ConstWhereIterator`: the members `_iterator` and
`_end`. The member `_function` is the parameter `p` of the constructor. -/
structure ConstWhereIterator where
  _iterator : Nat
  _end : Nat
deriving DecidableEq

namespace ConstWhereIterator

/-- Constructor `ConstWhereIterator(begin, end, function, isEndIterator)`:
`if (isEndIterator) return; _iterator = std::find_if(_iterator, _end, _function);`. -/
def ctor {α : Type} (xs : List α) (p : α → Bool) (b e : Nat) (isEndIterator : Bool) :
    ConstWhereIterator :=
  if isEndIterator then { _iterator := b, _end := e }
  else { _iterator := find_if xs p b e, _end := e }

/-- Inequality `operator!=`: `return _iterator != other._end;`. -/
def ne (a b : ConstWhereIterator) : Bool :=
  a._iterator != b._end

/-- Equality `operator==`: `return !(*this == other);`. The body calls
`operator==` itself on the same arguments; `depth` bounds the nested calls,
and `none` says that the call has not returned within them. -/
def eq : Nat → ConstWhereIterator → ConstWhereIterator → Option Bool
  | 0, _, _ => none
  | depth + 1, a, b => (eq depth a b).map (fun r => !r)

end ConstWhereIterator

namespace WhereObject

/-- The member `begin()` of `lz::WhereObject`:
`const_iterator(_container.begin(), _container.end(), _function, false)`. -/
def viewBegin {α : Type} (xs : List α) (p : α → Bool) : ConstWhereIterator :=
  ConstWhereIterator.ctor xs p 0 xs.length false

/-- The member `end()` of `lz::WhereObject`:
`const_iterator(_container.begin(), _container.end(), _function, true)`. -/
def viewEnd {α : Type} (xs : List α) (p : α → Bool) : ConstWhereIterator :=
  ConstWhereIterator.ctor xs p 0 xs.length true

end WhereObject

/-! ## Filter: proofs -/

theorem getElem?_append_cons {α : Type} (pre : List α) (x : α) (t : List α) :
    (pre ++ x :: t)[pre.length]? = some x := by
  rw [List.getElem?_append_right (le_refl _)]
  simp

theorem takeWhile_length_spec {α : Type} (q : α → Bool) (xs : List α) :
    (∀ j x, j < (xs.takeWhile q).length → xs[j]? = some x → q x = true)
    ∧ ((xs.takeWhile q).length = xs.length
        ∨ ∃ x, xs[(xs.takeWhile q).length]? = some x ∧ q x = false) := by
  induction xs with
  | nil => simp
  | cons y t ih =>
    by_cases hq : q y = true
    · simp only [List.takeWhile_cons, hq, ↓reduceIte, List.length_cons]
      constructor
      · intro j x hj hx
        cases j with
        | zero => simp at hx; rw [← hx]; exact hq
        | succ j =>
          simp only [List.getElem?_cons_succ] at hx
          exact ih.1 j x (by omega) hx
      · rcases ih.2 with h | ⟨x, hx, hqx⟩
        · left; omega
        · right; exact ⟨x, by simpa using hx, hqx⟩
    · have hqf : q y = false := by simpa using hq
      simp only [List.takeWhile_cons, hqf, Bool.false_eq_true, ↓reduceIte, List.length_nil]
      constructor
      · intro j x hj; omega
      · right; exact ⟨y, by simp, hqf⟩

theorem find_ifLoop_append {α : Type} (p : α → Bool) (suf pre : List α) :
    find_ifLoop (pre ++ suf) p suf.length pre.length
      = pre.length + (suf.takeWhile (fun x => !p x)).length := by
  induction suf generalizing pre with
  | nil => simp [find_ifLoop]
  | cons x t ih =>
    have hx : (pre ++ x :: t)[pre.length]? = some x := getElem?_append_cons pre x t
    have ht := ih (pre ++ [x])
    simp only [List.append_assoc, List.singleton_append, List.length_append,
      List.length_singleton] at ht
    simp only [List.length_cons, find_ifLoop, hx]
    by_cases hp : p x = true
    · simp [hp, List.takeWhile_cons]
    · simp only [hp, Bool.false_eq_true, ↓reduceIte, ht, List.takeWhile_cons]
      simp [hp]
      omega

theorem find_if_append {α : Type} (p : α → Bool) (suf pre : List α) :
    find_if (pre ++ suf) p pre.length (pre ++ suf).length
      = pre.length + (suf.takeWhile (fun x => !p x)).length := by
  have h : (pre ++ suf).length - pre.length = suf.length := by simp
  rw [find_if, h, find_ifLoop_append]

theorem find_if_cons_true {α : Type} (p : α → Bool) (x : α) (t pre : List α)
    (hp : p x = true) :
    find_if (pre ++ x :: t) p pre.length (pre ++ x :: t).length = pre.length := by
  rw [find_if_append]; simp [List.takeWhile_cons, hp]

theorem find_if_cons_false {α : Type} (p : α → Bool) (x : α) (t pre : List α)
    (hp : p x = false) :
    find_if (pre ++ x :: t) p pre.length (pre ++ x :: t).length
      = find_if (pre ++ x :: t) p (pre.length + 1) (pre ++ x :: t).length := by
  have h := find_if_append p t (pre ++ [x])
  simp only [List.append_assoc, List.singleton_append, List.length_append,
    List.length_singleton] at h
  rw [find_if_append]
  simp only [List.length_append] at h ⊢
  rw [h]
  simp [List.takeWhile_cons, hp]
  omega

namespace FilterIterator

theorem filter_traverse_suffix {α : Type} (p : α → Bool) (suf pre : List α) (e : FilterIterator)
    (he : e._end = (pre ++ suf).length) (fuel : Nat) (hf : suf.length < fuel) :
    traverse (pre ++ suf) p e fuel
        { _iterator := find_if (pre ++ suf) p pre.length (pre ++ suf).length,
          _end := (pre ++ suf).length }
      = some (suf.filter p) := by
  induction suf generalizing pre fuel with
  | nil =>
    cases fuel with
    | zero => simp at hf
    | succ f => simp [traverse, ne, he, find_if, find_ifLoop]
  | cons x t ih =>
    cases fuel with
    | zero => simp at hf
    | succ f =>
      have hf2 : t.length < f := by simp at hf; omega
      have hxs : pre ++ x :: t = (pre ++ [x]) ++ t := by simp
      have hlen : (pre ++ [x]).length = pre.length + 1 := by simp
      by_cases hp : p x = true
      · have ih2 := ih (pre ++ [x]) (by rw [← hxs]; exact he) f hf2
        rw [← hxs, hlen] at ih2
        have hne : pre.length ≠ (pre ++ x :: t).length := by simp
        rw [find_if_cons_true p x t pre hp]
        simp only [traverse, ne, he, bne_iff_ne, ne_eq, hne, not_false_eq_true, ↓reduceIte,
          deref]
        have hx : (pre ++ x :: t)[pre.length]? = some x := getElem?_append_cons pre x t
        simp only [hx, incr, ne_eq, hne, not_false_eq_true, ↓reduceIte, ih2, Option.map_some',
          List.filter_cons, hp]
      · have hpf : p x = false := by simpa using hp
        have ih2 := ih (pre ++ [x]) (by rw [← hxs]; exact he) (f + 1) (by omega)
        rw [← hxs, hlen] at ih2
        rw [find_if_cons_false p x t pre hpf, ih2]
        simp [List.filter_cons, hpf]

end FilterIterator

/-- C1. Traversing the Filter cursor constructed over `[begin, end)` up to the
cursor constructed at `(end, end)` yields exactly the elements of the source
that satisfy the predicate, in source order. Construction lands on the first
satisfying element or on end (every earlier element fails the predicate), and
an empty source yields nothing. -/
theorem filter_traversal_yields_filter {α : Type} (xs : List α) (p : α → Bool) :
    (∀ fuel, xs.length < fuel → FilterIterator.toList xs p fuel = some (xs.filter p))
    ∧ (let k := (FilterIterator.ctor xs p 0 xs.length)._iterator
       (∀ j x, j < k → xs[j]? = some x → p x = false)
        ∧ (k = xs.length ∨ ∃ x, xs[k]? = some x ∧ p x = true))
    ∧ (∀ fuel, 0 < fuel → FilterIterator.toList ([] : List α) p fuel = some []) := by
  have main : ∀ (ys : List α) fuel, ys.length < fuel →
      FilterIterator.toList ys p fuel = some (ys.filter p) := by
    intro ys fuel hf
    have h := FilterIterator.filter_traverse_suffix p ys []
      (FilterIterator.ctor ([] ++ ys) p ([] ++ ys).length ([] ++ ys).length)
      (by simp [FilterIterator.ctor]) fuel hf
    simpa [FilterIterator.toList, FilterIterator.ctor] using h
  refine ⟨main xs, ?_, ?_⟩
  · have hk : (FilterIterator.ctor xs p 0 xs.length)._iterator
        = (xs.takeWhile (fun x => !p x)).length := by
      have h := find_if_append p xs []
      simpa [FilterIterator.ctor] using h
    simp only [hk]
    have hs := takeWhile_length_spec (fun x => !p x) xs
    constructor
    · intro j x hj hx
      simpa using hs.1 j x hj hx
    · rcases hs.2 with h | ⟨x, hx, hqx⟩
      · exact Or.inl h
      · exact Or.inr ⟨x, hx, by simpa using hqx⟩
  · intro fuel hf
    have := main [] fuel (by simpa using hf)
    simpa using this

/-- Witness for C1 on `[1, 2, 3, 4, 5, 6]` with the predicate "is even". -/
theorem filter_traversal_yields_filter_witness :
    FilterIterator.toList [1, 2, 3, 4, 5, 6] (fun n => n % 2 == 0) 7 = some [2, 4, 6] :=
  (filter_traversal_yields_filter [1, 2, 3, 4, 5, 6] (fun n => n % 2 == 0)).1 7 (by decide)

/-! ## Join: proofs -/

namespace JoinIterator

theorem join_elemAt_append_cons {α : Type} (pre : List α) (x : α) (t : List α) :
    elemAt (pre ++ x :: t) (pre.length : Int) = some x := by
  have h := getElem?_append_cons pre x t
  simp only [elemAt, Int.toNat_ofNat, Int.natCast_nonneg, ↓reduceIte, h]

/-- Whatever the turn flag of the cursor, the comparison-driven traversal from
source position `pre.length` yields the rendered remaining elements only: each
`it != last` puts the cursor back on an element turn. -/
theorem join_traverse_suffix {α : Type} (fmt : α → Text) (suf pre : List α) (last : JoinIterator)
    (hl : last._iterator = ((pre ++ suf).length : Int)) (d : Text) (turn : Bool) (dist : Int)
    (fuel : Nat) (hf : suf.length < fuel) :
    traverse (pre ++ suf) fmt last fuel
        { _iterator := pre.length, _delimiter := d, _isIteratorTurn := turn, _distance := dist }
      = some (suf.map fmt) := by
  induction suf generalizing pre fuel turn with
  | nil =>
    cases fuel with
    | zero => simp at hf
    | succ f => simp [traverse, ne, eq, hl]
  | cons x t ih =>
    cases fuel with
    | zero => simp at hf
    | succ f =>
      have hf2 : t.length < f := by simp at hf; omega
      have hxs : pre ++ x :: t = (pre ++ [x]) ++ t := by simp
      have ih2 := ih (pre ++ [x]) (by rw [← hxs]; exact hl) false f hf2
      rw [← hxs] at ih2
      have hne : ¬ ((pre.length : Int) = last._iterator) := by
        rw [hl]; simp; omega
      have hcast : ((pre ++ [x]).length : Int) = (pre.length : Int) + 1 := by simp
      rw [hcast] at ih2
      simp only [traverse, ne, eq, hne, decide_False, Bool.not_false, ↓reduceIte, deref,
        join_elemAt_append_cons, Option.map_some', incr, Bool.not_true, ih2, List.map_cons]

end JoinIterator

/-- C2 (code evaluated at the failing input). Over the two-element source
`["a", "b"]` with delimiter `","`, stepping the Join cursor from begin with
`++` until `it != end` is false yields the two values `"a", "b"`: no delimiter
is yielded, and the count is 2, not `2 * 2 - 1 = 3`. Stepping `end - begin = 3`
times without comparing yields `"a", ",", "b"`. -/
theorem join_traversal_drops_delimiters :
    (∀ turn fuel, 2 < fuel →
      JoinIterator.traverse ["a".toList, "b".toList] id
          (JoinIterator.viewEnd ["a".toList, "b".toList] ",".toList turn 3) fuel
          (JoinIterator.viewBegin ",".toList 3)
        = some ["a".toList, "b".toList])
    ∧ JoinIterator.steps ["a".toList, "b".toList] id 3 (JoinIterator.viewBegin ",".toList 3)
        = some ["a".toList, ",".toList, "b".toList] := by
  constructor
  · intro turn fuel hf
    have h := JoinIterator.join_traverse_suffix id ["a".toList, "b".toList] []
      (JoinIterator.viewEnd ["a".toList, "b".toList] ",".toList turn 3) rfl ",".toList true 3
      fuel (by simpa using hf)
    simpa [JoinIterator.viewBegin] using h
  · decide

/-! ## Split: the search -/

theorem findFrom_of_isPrefix (d t : Text) (i : Nat) (h : d <+: t) :
    findFrom d t i = some i := by
  have hb : d.isPrefixOf t = true := List.isPrefixOf_iff_prefix.mpr h
  cases t with
  | nil => simp [findFrom, hb]
  | cons c t => simp [findFrom, hb]

theorem findFrom_cons_of_not (d : Text) (c : Char) (t : Text) (i : Nat)
    (h : ¬ d <+: c :: t) : findFrom d (c :: t) i = findFrom d t (i + 1) := by
  have hb : d.isPrefixOf (c :: t) = false := by
    rw [Bool.eq_false_iff]; intro hb; exact h (List.isPrefixOf_iff_prefix.mp hb)
  simp [findFrom, hb]

theorem isPrefix_of_append_right (d a b : Text) (hlen : d.length ≤ a.length)
    (h : d <+: a ++ b) : d <+: a :=
  List.prefix_of_prefix_length_le h (List.prefix_append a b) hlen

/-- The search finds the delimiter that follows `u` when none starts inside `u`. -/
theorem findFrom_found (d u : Text) (rest : Text) (i : Nat) (hu : NoEarlyDelim d u) :
    findFrom d (u ++ (d ++ rest)) i = some (i + u.length) := by
  induction u generalizing i with
  | nil => simpa using findFrom_of_isPrefix d (d ++ rest) i (List.prefix_append d rest)
  | cons c u ih =>
    have h0 : ¬ d <+: (c :: u) ++ d := by simpa using hu 0 (by simp)
    have h1 : ¬ d <+: c :: (u ++ (d ++ rest)) := by
      intro h
      apply h0
      apply isPrefix_of_append_right d ((c :: u) ++ d) rest (by simp; omega)
      simpa using h
    have hu2 : NoEarlyDelim d u := by
      intro q hq
      have := hu (q + 1) (by simpa using hq)
      simpa using this
    rw [List.cons_append, findFrom_cons_of_not d c _ i h1, ih (i + 1) hu2]
    simp; omega

/-- The search fails on a text that does not contain the delimiter. -/
theorem findFrom_none (d t : Text) (i : Nat) (h : ¬ d <:+: t) : findFrom d t i = none := by
  induction t generalizing i with
  | nil =>
    have : d.isPrefixOf [] = false := by
      rw [Bool.eq_false_iff]; intro hb
      exact h (List.isPrefixOf_iff_prefix.mp hb).isInfix
    simp [findFrom, this]
  | cons c t ih =>
    have h1 : ¬ d <+: c :: t := fun hp => h hp.isInfix
    have h2 : ¬ d <:+: t := fun hi => h (hi.trans (List.suffix_cons c t).isInfix)
    rw [findFrom_cons_of_not d c t i h1, ih (i + 1) h2]

/-- A found position lies at or after the start of the search and leaves room
for the whole delimiter. -/
theorem findFrom_bounds (d t : Text) (i p : Nat) (h : findFrom d t i = some p) :
    i ≤ p ∧ p + d.length ≤ i + t.length := by
  induction t generalizing i with
  | nil =>
    by_cases hb : d.isPrefixOf [] = true
    · have hd : d = [] := by
        have := List.isPrefixOf_iff_prefix.mp hb
        simpa using this
      simp [findFrom, hd] at h
      subst h; simp [hd]
    · simp [findFrom, hb] at h
  | cons c t ih =>
    by_cases hb : d.isPrefixOf (c :: t) = true
    · have hp := List.isPrefixOf_iff_prefix.mp hb
      have hl := hp.length_le
      simp only [findFrom, hb, ↓reduceIte, Option.some.injEq] at h
      subst h; omega
    · simp only [findFrom, hb, Bool.false_eq_true, ↓reduceIte] at h
      have := ih (i + 1) h
      simp only [List.length_cons]; omega

theorem find_append (pre rest d : Text) :
    find (pre ++ rest) d pre.length = findFrom d rest pre.length := by
  simp [find]

/-! ## Split: delimited texts -/

theorem delimited_cons (u : Text) (us : List Text) (d : Text) :
    delimited (u :: us) d = u ++ (d ++ delimited us d) := by
  simp [delimited]

theorem delimited_eq_nil (us : List Text) (d : Text) (hd : d ≠ [])
    (h : delimited us d = []) : us = [] := by
  cases us with
  | nil => rfl
  | cons u us => rw [delimited_cons] at h; simp [hd] at h

theorem length_le_delimited (us : List Text) (d : Text) (hd : d ≠ []) :
    us.length ≤ (delimited us d).length := by
  induction us with
  | nil => simp
  | cons u us ih =>
    have hdl : 0 < d.length := List.length_pos.mpr hd
    rw [delimited_cons]; simp; omega

/-! ## Split: single steps of the traversal -/

namespace SplitIterator

theorem split_traverse_succ (s d : Text) (last it : SplitIterator) (fuel : Nat) :
    traverse s d last (fuel + 1) it
      = if ne it last then
          match deref s it with
          | some v => (traverse s d last fuel (incr s d it)).map (fun r => v :: r)
          | none => none
        else some [] := rfl

theorem split_traverse_at_end (s d : Text) (last it : SplitIterator)
    (h : it._currentPos = last._currentPos) (fuel : Nat) :
    traverse s d last (fuel + 1) it = some [] := by
  simp [traverse, ne, h]

/-- One step over a segment `u` followed by a delimiter that is not the end of
the text: `u` is yielded and the cursor moves behind the delimiter. -/
theorem split_traverse_found (s pre u d rest : Text) (hs : s = pre ++ (u ++ (d ++ rest)))
    (hu : NoEarlyDelim d u) (hr : rest ≠ []) (last : SplitIterator)
    (hl : last._currentPos = s.length) (fuel : Nat) :
    traverse s d last (fuel + 1) { _currentPos := pre.length, _last := find s d pre.length }
      = (traverse s d last fuel
          { _currentPos := pre.length + u.length + d.length,
            _last := find s d (pre.length + u.length + d.length) }).map (fun r => u :: r) := by
  have hfind : find s d pre.length = some (pre.length + u.length) := by
    rw [hs, find_append, findFrom_found d u rest pre.length hu]
  have hlen : s.length = pre.length + u.length + d.length + rest.length := by
    rw [hs]; simp; omega
  have hrl : 0 < rest.length := List.length_pos.mpr hr
  have hne : pre.length ≠ s.length := by omega
  have hsub : subSizeT (pre.length + u.length) pre.length = u.length := by
    simp [subSizeT]
  have hsub2 : subSizeT s.length d.length = pre.length + u.length + rest.length := by
    have : d.length ≤ s.length := by omega
    simp only [subSizeT, this, ↓reduceIte]; omega
  have hseg : List.take u.length (List.drop pre.length s) = u := by
    rw [hs, List.drop_left, List.take_left]
  have hle : pre.length + u.length ≤ s.length := by omega
  have hne2 : pre.length + u.length ≠ pre.length + u.length + rest.length := by omega
  simp only [traverse, ne, hl, bne_iff_ne, ne_eq, hne, not_false_eq_true, ↓reduceIte, deref,
    hfind, hsub, hle, hseg, incr, hsub2, hne2]

/-- One step over a segment `u` followed by the delimiter that ends the text:
`u` is yielded and the cursor moves to the end. -/
theorem split_traverse_found_end (s pre u d : Text) (hs : s = pre ++ (u ++ d)) (hd : d ≠ [])
    (hu : NoEarlyDelim d u) (last : SplitIterator)
    (hl : last._currentPos = s.length) (fuel : Nat) :
    traverse s d last (fuel + 2) { _currentPos := pre.length, _last := find s d pre.length }
      = some [u] := by
  have hfind : find s d pre.length = some (pre.length + u.length) := by
    have := findFrom_found d u [] pre.length hu
    rw [hs, find_append]
    simpa using this
  have hlen : s.length = pre.length + u.length + d.length := by
    rw [hs]; simp; omega
  have hdl : 0 < d.length := List.length_pos.mpr hd
  have hne : pre.length ≠ s.length := by omega
  have hsub : subSizeT (pre.length + u.length) pre.length = u.length := by
    simp [subSizeT]
  have hsub2 : subSizeT s.length d.length = pre.length + u.length := by
    have : d.length ≤ s.length := by omega
    simp only [subSizeT, this, ↓reduceIte]; omega
  have hseg : List.take u.length (List.drop pre.length s) = u := by
    rw [hs, List.drop_left, List.take_left]
  have hle : pre.length + u.length ≤ s.length := by omega
  simp only [traverse, ne, hl, bne_iff_ne, ne_eq, hne, not_false_eq_true, ↓reduceIte, deref,
    hfind, hsub, hle, hseg, incr, hsub2, not_true_eq_false, Option.map_some']

/-- One step over a non-empty rest of the text without delimiter: what the
`const char*` constructor reads of it is yielded and the cursor moves to the
end. -/
theorem split_traverse_tail (s pre tail d : Text) (hs : s = pre ++ tail) (ht : tail ≠ [])
    (hno : ¬ d <:+: tail) (last : SplitIterator)
    (hl : last._currentPos = s.length) (fuel : Nat) :
    traverse s d last (fuel + 2) { _currentPos := pre.length, _last := find s d pre.length }
      = some [cstr tail] := by
  have hfind : find s d pre.length = none := by
    rw [hs, find_append, findFrom_none d tail pre.length hno]
  have hlen : s.length = pre.length + tail.length := by rw [hs]; simp
  have htl : 0 < tail.length := List.length_pos.mpr ht
  have hne : pre.length ≠ s.length := by omega
  have hle : pre.length ≤ s.length := by omega
  have hseg : List.drop pre.length s = tail := by rw [hs, List.drop_left]
  simp only [traverse, ne, hl, bne_iff_ne, ne_eq, hne, not_false_eq_true, ↓reduceIte, deref,
    hfind, hle, hseg, incr, not_true_eq_false, Option.map_some']

/-- The traversal from the start of `u1 d u2 d ... un d tail`, where no
delimiter starts inside a `ui` and `tail` holds none, yields `u1, ..., un` and
then, if `tail` is not empty, what is read of `tail`. -/
theorem split_traverse_segments (d : Text) (hd : d ≠ []) (us : List Text)
    (hus : ∀ u ∈ us, NoEarlyDelim d u) (tail : Text) (hno : ¬ d <:+: tail)
    (s pre : Text) (hs : s = pre ++ (delimited us d ++ tail)) (last : SplitIterator)
    (hl : last._currentPos = s.length) (fuel : Nat) (hf : us.length + 1 < fuel) :
    traverse s d last fuel { _currentPos := pre.length, _last := find s d pre.length }
      = some (us ++ (if tail = [] then [] else [cstr tail])) := by
  induction us generalizing pre fuel with
  | nil =>
    obtain ⟨f, rfl⟩ : ∃ f, fuel = f + 2 := ⟨fuel - 2, by simp at hf; omega⟩
    have hs2 : s = pre ++ tail := by simpa [delimited] using hs
    by_cases ht : tail = []
    · have hlen : pre.length = s.length := by rw [hs2, ht]; simp
      simpa [ht] using split_traverse_at_end s d last ⟨pre.length, find s d pre.length⟩
        (by simp [hl, hlen]) (f + 1)
    · simpa [ht] using split_traverse_tail s pre tail d hs2 ht hno last hl f
  | cons u us ih =>
    obtain ⟨f, rfl⟩ : ∃ f, fuel = f + 2 := ⟨fuel - 2, by simp at hf; omega⟩
    have hu : NoEarlyDelim d u := hus u (by simp)
    have hus2 : ∀ v ∈ us, NoEarlyDelim d v := fun v hv => hus v (by simp [hv])
    have hs2 : s = pre ++ (u ++ (d ++ (delimited us d ++ tail))) := by
      rw [hs, delimited_cons]; simp
    by_cases hr : delimited us d ++ tail = []
    · have h1 : delimited us d = [] := (List.append_eq_nil.mp hr).1
      have h2 : tail = [] := (List.append_eq_nil.mp hr).2
      have h3 : us = [] := delimited_eq_nil us d hd h1
      have hs3 : s = pre ++ (u ++ d) := by rw [hs2, hr]; simp
      simpa [h2, h3] using split_traverse_found_end s pre u d hs3 hd hu last hl f
    · rw [split_traverse_found s pre u d (delimited us d ++ tail) hs2 hu hr last hl (f + 1)]
      have hs4 : s = (pre ++ (u ++ d)) ++ (delimited us d ++ tail) := by rw [hs2]; simp
      have := ih hus2 (pre ++ (u ++ d)) hs4 (f + 1) (by simp at hf ⊢; omega)
      have hlen : (pre ++ (u ++ d)).length = pre.length + u.length + d.length := by
        simp; omega
      rw [hlen] at this
      rw [this]; simp

/-- With a non-empty delimiter the traversal from any position reached by the
search ends and every dereference on the way is valid; its first segment, if
the position is not the end, starts at that position. -/
theorem split_traverse_total (s d : Text) (hd : d ≠ []) (last : SplitIterator)
    (hl : last._currentPos = s.length) (n : Nat) :
    ∀ pos, pos ≤ s.length → s.length - pos ≤ n → ∀ fuel, n < fuel →
      ∃ segs, traverse s d last fuel { _currentPos := pos, _last := find s d pos } = some segs
        ∧ (pos < s.length → ∃ w r, segs = w :: r ∧ w <+: s.drop pos) := by
  have hdl : 0 < d.length := List.length_pos.mpr hd
  induction n with
  | zero =>
    intro pos hpos hn fuel hf
    obtain ⟨f, rfl⟩ : ∃ f, fuel = f + 1 := ⟨fuel - 1, by omega⟩
    have hlen : pos = s.length := by omega
    exact ⟨[], split_traverse_at_end s d last _ (by simp [hl, hlen]) f, fun h => by omega⟩
  | succ n ih =>
    intro pos hpos hn fuel hf
    obtain ⟨f, rfl⟩ : ∃ f, fuel = f + 2 := ⟨fuel - 2, by omega⟩
    by_cases hend : pos = s.length
    · exact ⟨[], split_traverse_at_end s d last _ (by simp [hl, hend]) (f + 1), fun h => by omega⟩
    · cases hfind : find s d pos with
      | none =>
        refine ⟨[cstr (s.drop pos)], ?_, fun _ => ⟨_, [], rfl, List.takeWhile_prefix _⟩⟩
        simp only [traverse, ne, hl, bne_iff_ne, ne_eq, hend, not_false_eq_true, ↓reduceIte,
          deref, hpos, incr, not_true_eq_false, Option.map_some']
      | some l =>
        have hb : pos ≤ l ∧ l + d.length ≤ s.length := by
          have hf2 : findFrom d (s.drop pos) pos = some l := by
            simpa [find, hpos] using hfind
          have := findFrom_bounds d (s.drop pos) pos l hf2
          simp only [List.length_drop] at this
          omega
        have hsub : subSizeT l pos = l - pos := by simp [subSizeT, hb.1]
        have hsub2 : subSizeT s.length d.length = s.length - d.length := by
          have : d.length ≤ s.length := by omega
          simp [subSizeT, this]
        have hle : pos + (l - pos) ≤ s.length := by omega
        have hderef : deref s { _currentPos := pos, _last := some l }
            = some ((s.drop pos).take (l - pos)) := by
          simp only [deref, hsub, hle, ↓reduceIte]
        have hne : ne { _currentPos := pos, _last := some l } last = true := by
          simp [ne, hl, hend]
        by_cases hlast : l = s.length - d.length
        · have hincr : incr s d { _currentPos := pos, _last := some l }
              = { _currentPos := s.length, _last := none } := by
            simp only [incr, hsub2]; rw [if_pos hlast]
          refine ⟨[(s.drop pos).take (l - pos)], ?_,
            fun _ => ⟨_, [], rfl, List.take_prefix _ _⟩⟩
          rw [split_traverse_succ, hne, hderef, hincr,
            split_traverse_at_end s d last _ (by simp [hl]) f]
          rfl
        · have hincr : incr s d { _currentPos := pos, _last := some l }
              = { _currentPos := l + d.length, _last := find s d (l + d.length) } := by
            simp only [incr, hsub2]; rw [if_neg hlast]
          obtain ⟨segs, hsegs, _⟩ := ih (l + d.length) (by omega) (by omega) (f + 1) (by omega)
          refine ⟨(s.drop pos).take (l - pos) :: segs, ?_,
            fun _ => ⟨_, segs, rfl, List.take_prefix _ _⟩⟩
          rw [split_traverse_succ, hne, hderef, hincr, hsegs]
          rfl

/-- The traversal over the leading segments `u1 d ... un d` of a text that
goes on with a non-empty `rest` yields `u1, ..., un` and continues behind the
last of these delimiters. -/
theorem split_traverse_leading_segments (d : Text) (us : List Text)
    (hus : ∀ u ∈ us, NoEarlyDelim d u) (rest : Text) (hr : rest ≠ [])
    (s pre : Text) (hs : s = pre ++ (delimited us d ++ rest)) (last : SplitIterator)
    (hl : last._currentPos = s.length) (fuel : Nat) :
    traverse s d last (us.length + fuel)
        { _currentPos := pre.length, _last := find s d pre.length }
      = (traverse s d last fuel
          { _currentPos := pre.length + (delimited us d).length,
            _last := find s d (pre.length + (delimited us d).length) }).map
          (fun r => us ++ r) := by
  induction us generalizing pre with
  | nil => simp [delimited]
  | cons u us ih =>
    have hu : NoEarlyDelim d u := hus u (by simp)
    have hus2 : ∀ v ∈ us, NoEarlyDelim d v := fun v hv => hus v (by simp [hv])
    have hs2 : s = pre ++ (u ++ (d ++ (delimited us d ++ rest))) := by
      rw [hs, delimited_cons]; simp
    have hr2 : delimited us d ++ rest ≠ [] := by simp [hr]
    have hfuel : (u :: us).length + fuel = (us.length + fuel) + 1 := by simp; omega
    rw [hfuel, split_traverse_found s pre u d (delimited us d ++ rest) hs2 hu hr2 last hl]
    have hs4 : s = (pre ++ (u ++ d)) ++ (delimited us d ++ rest) := by rw [hs2]; simp
    have h := ih hus2 (pre ++ (u ++ d)) hs4
    have hlen : (pre ++ (u ++ d)).length = pre.length + u.length + d.length := by
      simp; omega
    have hlen2 : pre.length + (delimited (u :: us) d).length
        = pre.length + u.length + d.length + (delimited us d).length := by
      rw [delimited_cons]; simp; omega
    rw [hlen] at h
    rw [h, hlen2, Option.map_map]
    rfl

theorem split_viewEnd_currentPos (s d : Text) : (viewEnd s d)._currentPos = s.length := rfl

theorem split_viewBegin_eq (s d : Text) :
    viewBegin s d = { _currentPos := ([] : Text).length, _last := find s d ([] : Text).length } := by
  simp [viewBegin, ctor]

theorem split_cstr_eq_self (t : Text) (h : Char.ofNat 0 ∉ t) : cstr t = t := by
  rw [cstr, List.takeWhile_eq_self_iff]
  intro c hc
  simp only [bne_iff_ne, ne_eq]
  intro h0
  exact h (h0 ▸ hc)

end SplitIterator

/-! ## Join: the joined text -/

namespace JoinIterator

theorem join_steps_succ {α : Type} (xs : List α) (fmt : α → Text) (n : Nat) (it : JoinIterator) :
    steps xs fmt (n + 1) it
      = match deref xs fmt it with
        | some v => (steps xs fmt n (incr it)).map (fun r => v :: r)
        | none => none := rfl

/-- Stepping with `*` and `++` from an element turn over the remaining
elements `us ++ [x]` of a source of strings yields them with the delimiter
between each adjacent pair. -/
theorem join_steps_flatten (d : Text) (dist : Int) (us : List Text) (x : Text) (pre : List Text) :
    (steps (pre ++ (us ++ [x])) id (2 * us.length + 1)
        { _iterator := pre.length, _delimiter := d, _isIteratorTurn := true,
          _distance := dist }).map List.flatten
      = some (delimited us d ++ x) := by
  induction us generalizing pre with
  | nil =>
    have h := join_elemAt_append_cons pre x []
    simp [steps, deref, h, delimited]
  | cons u us ih =>
    have h := join_elemAt_append_cons pre u (us ++ [x])
    have hxs : pre ++ (u :: us ++ [x]) = (pre ++ [u]) ++ (us ++ [x]) := by simp
    have ih2 := ih (pre ++ [u])
    rw [← hxs] at ih2
    have hcast : ((pre ++ [u]).length : Int) = (pre.length : Int) + 1 := by simp
    rw [hcast] at ih2
    have hn : 2 * (u :: us).length + 1 = (2 * us.length + 1) + 1 + 1 := by simp; omega
    have hd1 : deref (pre ++ u :: (us ++ [x])) id
        { _iterator := pre.length, _delimiter := d, _isIteratorTurn := true, _distance := dist }
          = some u := by
      simp [deref, h]
    have hd2 : deref (pre ++ u :: (us ++ [x])) id
        { _iterator := (pre.length : Int) + 1, _delimiter := d, _isIteratorTurn := false,
          _distance := dist } = some d := by
      simp [deref]
    simp only [List.cons_append] at ih2 hd1 hd2 ⊢
    rw [hn, join_steps_succ, hd1]
    simp only [incr, ↓reduceIte, Bool.not_true]
    rw [join_steps_succ, hd2]
    simp only [incr, Bool.false_eq_true, ↓reduceIte, Bool.not_false, delimited_cons]
    cases hst : steps (pre ++ u :: (us ++ [x])) id (2 * us.length + 1)
        { _iterator := (pre.length : Int) + 1, _delimiter := d, _isIteratorTurn := true,
          _distance := dist } with
    | none => rw [hst] at ih2; simp at ih2
    | some r =>
      rw [hst] at ih2
      simp only [Option.map_some', Option.some.injEq] at ih2
      simp [ih2]

end JoinIterator

theorem joinText_nil (d : Text) : joinText [] d = some [] := by
  simp [joinText, JoinIterator.viewBegin, JoinIterator.steps]

theorem joinText_concat (us : List Text) (x d : Text) :
    joinText (us ++ [x]) d = some (delimited us d ++ x) := by
  have h := JoinIterator.join_steps_flatten d (2 * ((us ++ [x]).length : Int) - 1) us x []
  have hn : 2 * (us ++ [x]).length - 1 = 2 * us.length + 1 := by
    simp only [List.length_append, List.length_singleton]
    omega
  simp only [joinText, hn]
  simpa [JoinIterator.viewBegin] using h

/-! ## Split: the result does not depend on the fuel -/

namespace SplitIterator

theorem split_traverse_fuel_mono (s d : Text) (last : SplitIterator) (f : Nat) :
    ∀ it r, traverse s d last f it = some r → ∀ k, traverse s d last (f + k) it = some r := by
  induction f with
  | zero => intro it r h; simp [traverse] at h
  | succ f ih =>
    intro it r h k
    have hk : f + 1 + k = (f + k) + 1 := by omega
    rw [hk, split_traverse_succ]
    rw [split_traverse_succ] at h
    by_cases hne : ne it last = true
    · simp only [hne, ↓reduceIte] at h ⊢
      cases hd : deref s it with
      | none => simp [hd] at h
      | some v =>
        simp only [hd] at h ⊢
        cases ht : traverse s d last f (incr s d it) with
        | none => simp [ht] at h
        | some r2 => rw [ih _ r2 ht k]; rw [ht] at h; exact h
    · simp only [hne] at h ⊢; exact h

/-- Two runs of the traversal that both end give the same segments. -/
theorem split_traverse_fuel_unique (s d : Text) (last it : SplitIterator) (f1 f2 : Nat)
    (r1 r2 : List Text) (h1 : traverse s d last f1 it = some r1)
    (h2 : traverse s d last f2 it = some r2) : r1 = r2 := by
  have a := split_traverse_fuel_mono s d last f1 it r1 h1 f2
  have b := split_traverse_fuel_mono s d last f2 it r2 h2 f1
  rw [Nat.add_comm] at b
  rw [a] at b
  exact Option.some.inj b

/-- With the empty delimiter the cursor over `"ab"` does not move: every search
finds the delimiter at the current position 0, so no run of the traversal ends. -/
theorem split_traverse_empty_delimiter (last : SplitIterator) (hl : last._currentPos ≠ 0)
    (fuel : Nat) :
    traverse "ab".toList [] last fuel { _currentPos := 0, _last := some 0 } = none := by
  induction fuel with
  | zero => rfl
  | succ f ih =>
    have hne : ne { _currentPos := 0, _last := some 0 } last = true := by
      simp [ne]; exact fun h => hl h.symm
    have hincr : incr "ab".toList [] { _currentPos := 0, _last := some 0 }
        = { _currentPos := 0, _last := some 0 } := by decide
    rw [split_traverse_succ, hne, hincr, ih]
    rfl

theorem split_empty_delimiter (fuel : Nat) : split "ab".toList [] fuel = none := by
  have hb : viewBegin "ab".toList [] = { _currentPos := 0, _last := some 0 } := by decide
  rw [split, hb]
  exact split_traverse_empty_delimiter _ (by decide) fuel

end SplitIterator

/-! ## Split: the claims -/

/-- C3 (counterexamples). The round trip fails on `["a", ""]` with `","` (the
joined text `"a,"` splits into `"a"` alone), on `[""]` with `","` (the joined
text is empty and splits into nothing) and on `["a", "a"]` with `"aa"` (the
joined text `"aaaa"` splits into two empty strings), although no element
contains the delimiter. -/
theorem split_join_roundtrip_counterexample :
    ((∀ x ∈ ["a".toList, "".toList], ¬ ",".toList <:+: x)
      ∧ joinText ["a".toList, "".toList] ",".toList = some "a,".toList
      ∧ ∀ fuel, SplitIterator.split "a,".toList ",".toList fuel
          ≠ some ["a".toList, "".toList])
    ∧ ((∀ x ∈ ["".toList], ¬ ",".toList <:+: x)
      ∧ joinText ["".toList] ",".toList = some "".toList
      ∧ ∀ fuel, SplitIterator.split "".toList ",".toList fuel ≠ some ["".toList])
    ∧ ((∀ x ∈ ["a".toList, "a".toList], ¬ "aa".toList <:+: x)
      ∧ joinText ["a".toList, "a".toList] "aa".toList = some "aaaa".toList
      ∧ ∀ fuel, SplitIterator.split "aaaa".toList "aa".toList fuel
          ≠ some ["a".toList, "a".toList]) := by
  refine ⟨⟨by decide, by decide, ?_⟩, ⟨by decide, by decide, ?_⟩, ⟨by decide, by decide, ?_⟩⟩
  · intro fuel h
    have h5 : SplitIterator.split "a,".toList ",".toList 5 = some ["a".toList] := by decide
    have := SplitIterator.split_traverse_fuel_unique _ _ _ _ _ _ _ _ h h5
    exact absurd this (by decide)
  · intro fuel h
    have h5 : SplitIterator.split "".toList ",".toList 5 = some [] := by decide
    have := SplitIterator.split_traverse_fuel_unique _ _ _ _ _ _ _ _ h h5
    exact absurd this (by decide)
  · intro fuel h
    have h5 : SplitIterator.split "aaaa".toList "aa".toList 5
        = some ["".toList, "".toList] := by decide
    have := SplitIterator.split_traverse_fuel_unique _ _ _ _ _ _ _ _ h h5
    exact absurd this (by decide)

/-- C3 (amended). Let no element of `xs` contain the delimiter `d`, let no
occurrence of `d` start inside an element that is followed by `d` in the joined
text (every element but the last), and let the last element be non-empty and
free of NUL characters. Then the text obtained by joining `xs` with `d` exists
and splitting it on `d` yields exactly `xs`. -/
theorem split_join_roundtrip (xs : List Text) (d : Text)
    (h1 : ∀ x ∈ xs, ¬ d <:+: x)
    (h2 : ∀ x ∈ xs.dropLast, NoEarlyDelim d x)
    (h3 : ∀ x ∈ xs.getLast?, x ≠ [] ∧ Char.ofNat 0 ∉ x) :
    ∃ t, joinText xs d = some t
      ∧ ∀ fuel, t.length + 1 < fuel → SplitIterator.split t d fuel = some xs := by
  rcases List.eq_nil_or_concat xs with hnil | ⟨us, x, hxs⟩
  · subst hnil
    refine ⟨[], joinText_nil d, ?_⟩
    intro fuel hf
    obtain ⟨f, rfl⟩ : ∃ f, fuel = f + 1 := ⟨fuel - 1, by omega⟩
    exact SplitIterator.split_traverse_at_end [] d _ _ rfl f
  · rw [List.concat_eq_append] at hxs
    subst hxs
    have hx : x ≠ [] ∧ Char.ofNat 0 ∉ x := h3 x (by simp)
    have hno : ¬ d <:+: x := h1 x (by simp)
    have hd : d ≠ [] := by
      intro hd; apply hno; rw [hd]; exact List.nil_infix
    have hus : ∀ u ∈ us, NoEarlyDelim d u := by
      intro u hu; exact h2 u (by simpa using hu)
    refine ⟨delimited us d ++ x, joinText_concat us x d, ?_⟩
    intro fuel hf
    have hlen := length_le_delimited us d hd
    have hf2 : us.length + 1 < fuel := by
      simp only [List.length_append] at hf; omega
    have h := SplitIterator.split_traverse_segments d hd us hus x hno (delimited us d ++ x) []
      (by simp) (SplitIterator.viewEnd (delimited us d ++ x) d)
      (SplitIterator.split_viewEnd_currentPos _ _) fuel hf2
    rw [SplitIterator.split, SplitIterator.split_viewBegin_eq, h]
    simp [hx.1, SplitIterator.split_cstr_eq_self x hx.2]

/-- Witness for C3 (amended): `["hello", "", "world"]` joined with `", "` is
`"hello, , world"`, which splits back into the three strings. -/
theorem split_join_roundtrip_witness :
    joinText ["hello".toList, "".toList, "world".toList] ", ".toList
        = some "hello, , world".toList
      ∧ SplitIterator.split "hello, , world".toList ", ".toList 20
        = some ["hello".toList, "".toList, "world".toList] := by
  obtain ⟨t, ht, h⟩ := split_join_roundtrip ["hello".toList, "".toList, "world".toList]
    ", ".toList (by decide) (by decide) (by decide)
  have e : joinText ["hello".toList, "".toList, "world".toList] ", ".toList
      = some "hello, , world".toList := by decide
  have ht2 : t = "hello, , world".toList := by
    rw [e] at ht; exact (Option.some.inj ht).symm
  subst ht2
  exact ⟨e, h 20 (by decide)⟩

/-- C4 (counterexample). The text `"a,"` ends with the delimiter `","`, and
the splitter yields the single segment `"a"`: its final segment is not empty.
The text `"ab"` ends with the empty delimiter, and no run of the traversal
ends. -/
theorem split_trailing_delimiter_counterexample :
    (",".toList <:+ "a,".toList
      ∧ SplitIterator.split "a,".toList ",".toList 5 = some ["a".toList]
      ∧ ∀ fuel segs, SplitIterator.split "a,".toList ",".toList fuel = some segs →
          segs.getLast? ≠ some [])
    ∧ (([] : Text) <:+ "ab".toList
      ∧ ∀ fuel, SplitIterator.split "ab".toList [] fuel = none) := by
  refine ⟨⟨by decide, by decide, ?_⟩, by decide, SplitIterator.split_empty_delimiter⟩
  intro fuel segs h
  have h5 : SplitIterator.split "a,".toList ",".toList 5 = some ["a".toList] := by decide
  have := SplitIterator.split_traverse_fuel_unique _ _ _ _ _ _ _ _ h h5
  subst this
  decide

/-- C4 (amended). For every text that ends with the non-empty delimiter, written
`u1 d u2 d ... un d` with `n ≥ 1` and no occurrence of `d` starting inside a
`ui` (the scan finds these `n` delimiters, the last of them at the end of the
text), the splitter yields exactly `u1, ..., un`: the traversal ends at the
final delimiter, the final segment is `un`, the text before that delimiter,
and no empty segment is yielded for the end of the text behind it. -/
theorem split_trailing_delimiter (d : Text) (us : List Text) (hd : d ≠ []) (hne : us ≠ [])
    (hus : ∀ u ∈ us, NoEarlyDelim d u) (fuel : Nat)
    (hf : (delimited us d).length + 1 < fuel) :
    d <:+ delimited us d
      ∧ SplitIterator.split (delimited us d) d fuel = some us
      ∧ ∃ segs, SplitIterator.split (delimited us d) d fuel = some segs
          ∧ segs.getLast? = us.getLast? := by
  have hlen := length_le_delimited us d hd
  have h := SplitIterator.split_traverse_segments d hd us hus [] (by simpa using hd)
    (delimited us d) [] (by simp) (SplitIterator.viewEnd (delimited us d) d)
    (SplitIterator.split_viewEnd_currentPos _ _) fuel (by omega)
  have hsplit : SplitIterator.split (delimited us d) d fuel = some us := by
    rw [SplitIterator.split, SplitIterator.split_viewBegin_eq, h]; simp
  refine ⟨?_, hsplit, us, hsplit, rfl⟩
  obtain ⟨vs, v, rfl⟩ : ∃ vs v, us = vs ++ [v] := by
    rcases List.eq_nil_or_concat us with h0 | ⟨vs, v, h1⟩
    · exact absurd h0 hne
    · exact ⟨vs, v, by simpa using h1⟩
  refine ⟨delimited vs d ++ v, ?_⟩
  simp [delimited]

/-- Witness for C4 (amended): `"a,b,"` split on `","` yields `"a", "b"`. -/
theorem split_trailing_delimiter_witness :
    ",".toList <:+ "a,b,".toList
      ∧ SplitIterator.split "a,b,".toList ",".toList 6 = some ["a".toList, "b".toList] := by
  have h := split_trailing_delimiter ",".toList ["a".toList, "b".toList] (by decide)
    (by decide) (by decide) 6 (by decide)
  exact ⟨h.1, h.2.1⟩

/-- C5. For every text that starts with the non-empty delimiter, the cursor
constructed at position 0 is not the end cursor and dereferences to the empty
string, so the first segment the splitter yields is the empty string. -/
theorem split_leading_delimiter (s d : Text) (hd : d ≠ []) (hp : d <+: s) :
    SplitIterator.ne (SplitIterator.viewBegin s d) (SplitIterator.viewEnd s d) = true
      ∧ SplitIterator.deref s (SplitIterator.viewBegin s d) = some []
      ∧ ∀ fuel, s.length < fuel → ∃ r, SplitIterator.split s d fuel = some ([] :: r) := by
  obtain ⟨v, rfl⟩ := hp
  have hdl : 0 < d.length := List.length_pos.mpr hd
  have hfind : find (d ++ v) d 0 = some 0 := by
    have := findFrom_of_isPrefix d (d ++ v) 0 (List.prefix_append d v)
    simpa [find] using this
  have hb : SplitIterator.viewBegin (d ++ v) d = { _currentPos := 0, _last := some 0 } := by
    simp [SplitIterator.viewBegin, SplitIterator.ctor, hfind]
  refine ⟨?_, ?_, ?_⟩
  · simp [hb, SplitIterator.ne, SplitIterator.viewEnd, SplitIterator.ctor]; omega
  · simp [hb, SplitIterator.deref, subSizeT]
  · intro fuel hf
    have hnone : NoEarlyDelim d [] := by intro q hq; simp at hq
    by_cases hv : v = []
    · subst hv
      obtain ⟨f, rfl⟩ : ∃ f, fuel = f + 2 := ⟨fuel - 2, by simp at hf; omega⟩
      have h := SplitIterator.split_traverse_found_end (d ++ []) [] [] d (by simp) hd hnone
        (SplitIterator.viewEnd (d ++ []) d) (SplitIterator.split_viewEnd_currentPos _ _) f
      exact ⟨[], by rw [SplitIterator.split, SplitIterator.split_viewBegin_eq, h]⟩
    · obtain ⟨f, rfl⟩ : ∃ f, fuel = f + 1 := ⟨fuel - 1, by omega⟩
      have h := SplitIterator.split_traverse_found (d ++ v) [] [] d v (by simp) hnone hv
        (SplitIterator.viewEnd (d ++ v) d) (SplitIterator.split_viewEnd_currentPos _ _) f
      obtain ⟨segs, hsegs, _⟩ := SplitIterator.split_traverse_total (d ++ v) d hd
        (SplitIterator.viewEnd (d ++ v) d) (SplitIterator.split_viewEnd_currentPos _ _)
        ((d ++ v).length - d.length) d.length (by simp) (le_refl _) f
        (by simp at hf ⊢; omega)
      refine ⟨segs, ?_⟩
      rw [SplitIterator.split, SplitIterator.split_viewBegin_eq, h]
      simp only [List.length_nil, Nat.zero_add]
      rw [hsegs]; rfl

/-- Witness for C5: `",a,b"` split on `","` starts with the empty string. -/
theorem split_leading_delimiter_witness :
    SplitIterator.deref ",a,b".toList (SplitIterator.viewBegin ",a,b".toList ",".toList)
        = some []
      ∧ ∃ r, SplitIterator.split ",a,b".toList ",".toList 6 = some ([] :: r) := by
  have h := split_leading_delimiter ",a,b".toList ",".toList (by decide) (by decide)
  exact ⟨h.2.1, h.2.2 6 (by decide)⟩

theorem delimited_append (us vs : List Text) (d : Text) :
    delimited (us ++ vs) d = delimited us d ++ delimited vs d := by
  simp [delimited]

/-- C6 (counterexample). In `"a,,"` two delimiters `","` follow each other and
the splitter yields `"a", ""`: the empty segment is the last one, no segment
behind the second delimiter follows it. With the empty delimiter, of which two
occurrences follow each other in `"ab"`, no run of the traversal ends. -/
theorem split_consecutive_delimiters_counterexample :
    ("a,,".toList = "a".toList ++ ",".toList ++ ",".toList ++ []
      ∧ SplitIterator.split "a,,".toList ",".toList 5 = some ["a".toList, []]
      ∧ ∀ fuel segs x, SplitIterator.split "a,,".toList ",".toList fuel = some segs →
          segs ≠ ["a".toList, [], x])
    ∧ ("ab".toList = "ab".toList ++ [] ++ [] ++ []
      ∧ ∀ fuel, SplitIterator.split "ab".toList [] fuel = none) := by
  refine ⟨⟨by decide, by decide, ?_⟩, by decide, SplitIterator.split_empty_delimiter⟩
  intro fuel segs x h
  have h5 : SplitIterator.split "a,,".toList ",".toList 5 = some ["a".toList, []] := by
    decide
  have := SplitIterator.split_traverse_fuel_unique _ _ _ _ _ _ _ _ h h5
  subst this
  simp

/-- C6 (amended). Let the text be `u ++ d ++ d ++ v` with a non-empty delimiter
`d`, where `u = u1 d ... uk d w` and no occurrence of `d` starts inside
`u1, ..., uk` or `w`, so that the left-to-right scan finds the first of the two
adjacent delimiters. Then the splitter yields `u1, ..., uk`, then `w` (the
segment before the first `d`), then an empty segment, and then the segments of
what follows the second `d`: if `v` is not empty, a list that starts with a
segment beginning right behind the second `d`; if `v` is empty, nothing, so
that the empty segment is the final one. -/
theorem split_consecutive_delimiters (d : Text) (us : List Text) (w v : Text) (hd : d ≠ [])
    (hus : ∀ u ∈ us, NoEarlyDelim d u) (hw : NoEarlyDelim d w) (fuel : Nat)
    (hf : (delimited us d ++ (w ++ (d ++ (d ++ v)))).length + 1 < fuel) :
    ∃ r, SplitIterator.split (delimited us d ++ (w ++ (d ++ (d ++ v)))) d fuel
          = some (us ++ w :: [] :: r)
      ∧ (v = [] → r = [])
      ∧ (v ≠ [] → ∃ x r2, r = x :: r2 ∧ x <+: v) := by
  have hnone : NoEarlyDelim d [] := by intro q hq; simp at hq
  have hus2 : ∀ u ∈ us ++ [w, []], NoEarlyDelim d u := by
    intro u hu
    simp only [List.mem_append, List.mem_cons, List.mem_singleton, List.not_mem_nil,
      or_false] at hu
    rcases hu with h | h | h
    · exact hus u h
    · exact h ▸ hw
    · exact h ▸ hnone
  have hs : delimited us d ++ (w ++ (d ++ (d ++ v))) = delimited (us ++ [w, []]) d ++ v := by
    rw [delimited_append]; simp [delimited]
  have hlen := length_le_delimited (us ++ [w, []]) d hd
  rw [hs] at hf ⊢
  have hlast := SplitIterator.split_viewEnd_currentPos (delimited (us ++ [w, []]) d ++ v) d
  by_cases hv : v = []
  · subst hv
    have h := SplitIterator.split_traverse_segments d hd (us ++ [w, []]) hus2 []
      (by simpa using hd) (delimited (us ++ [w, []]) d ++ []) [] (by simp)
      (SplitIterator.viewEnd (delimited (us ++ [w, []]) d ++ []) d) hlast fuel
      (by simp only [List.length_append, List.length_nil] at hf hlen ⊢; omega)
    refine ⟨[], ?_, fun _ => rfl, fun h0 => absurd rfl h0⟩
    rw [SplitIterator.split, SplitIterator.split_viewBegin_eq, h]; simp
  · obtain ⟨f, rfl⟩ : ∃ f, fuel = (us ++ [w, []]).length + f :=
      ⟨fuel - (us ++ [w, []]).length, by
        simp only [List.length_append] at hf hlen ⊢; omega⟩
    have h := SplitIterator.split_traverse_leading_segments d (us ++ [w, []]) hus2 v hv
      (delimited (us ++ [w, []]) d ++ v) [] (by simp)
      (SplitIterator.viewEnd (delimited (us ++ [w, []]) d ++ v) d) hlast f
    obtain ⟨segs, hsegs, hhead⟩ := SplitIterator.split_traverse_total
      (delimited (us ++ [w, []]) d ++ v) d hd
      (SplitIterator.viewEnd (delimited (us ++ [w, []]) d ++ v) d) hlast v.length
      (([] : Text).length + (delimited (us ++ [w, []]) d).length) (by simp) (by simp) f
      (by simp only [List.length_append] at hf hlen ⊢; omega)
    have hvl : 0 < v.length := List.length_pos.mpr hv
    obtain ⟨x, r2, hx, hpre⟩ := hhead (by simp; omega)
    refine ⟨segs, ?_, fun h0 => absurd h0 hv, fun _ => ⟨x, r2, hx, ?_⟩⟩
    · rw [SplitIterator.split, SplitIterator.split_viewBegin_eq, h, hsegs]; simp
    · simpa using hpre

/-- Witness for C6 (amended): `"a,b,,c,d"` split on `","` yields `"a", "b", "", ...` and
the list goes on with a segment that starts at `"c,d"`. -/
theorem split_consecutive_delimiters_witness :
    ∃ r, SplitIterator.split "a,b,,c,d".toList ",".toList 10
          = some (["a".toList] ++ "b".toList :: [] :: r)
      ∧ ("c,d".toList = [] → r = [])
      ∧ ("c,d".toList ≠ [] → ∃ x r2, r = x :: r2 ∧ x <+: "c,d".toList) :=
  split_consecutive_delimiters ",".toList ["a".toList] "b".toList "c,d".toList (by decide)
    (by decide) (by decide) 10 (by decide)

/-- C7 (code evaluated at the failing input, and the claim on the other
texts). The text `a NUL b` does not contain the delimiter `","`, and the
splitter yields the single segment `"a"`, not the text: the segment behind the
last delimiter is read up to the first NUL character. For every non-empty text
without NUL character that does not contain the delimiter the splitter yields
exactly one segment, the text itself, and `"aa\nbb\nbb"` split on the newline
gives `"aa", "bb", "bb"`. -/
theorem split_undelimited_text :
    (¬ ",".toList <:+: ['a', Char.ofNat 0, 'b']
      ∧ SplitIterator.split ['a', Char.ofNat 0, 'b'] ",".toList 5 = some [['a']]
      ∧ ∀ fuel, SplitIterator.split ['a', Char.ofNat 0, 'b'] ",".toList fuel
          ≠ some [['a', Char.ofNat 0, 'b']])
    ∧ (∀ s d : Text, s ≠ [] → ¬ d <:+: s → Char.ofNat 0 ∉ s →
        ∀ fuel, 1 < fuel → SplitIterator.split s d fuel = some [s])
    ∧ SplitIterator.split "aa\nbb\nbb".toList "\n".toList 9
        = some ["aa".toList, "bb".toList, "bb".toList] := by
  refine ⟨⟨by decide, by decide, ?_⟩, ?_, by decide⟩
  · intro fuel h
    have h5 : SplitIterator.split ['a', Char.ofNat 0, 'b'] ",".toList 5 = some [['a']] := by
      decide
    have := SplitIterator.split_traverse_fuel_unique _ _ _ _ _ _ _ _ h h5
    exact absurd this (by decide)
  · intro s d hs hno hnul fuel hf
    obtain ⟨f, rfl⟩ : ∃ f, fuel = f + 2 := ⟨fuel - 2, by omega⟩
    have h := SplitIterator.split_traverse_tail s [] s d (by simp) hs hno
      (SplitIterator.viewEnd s d) (SplitIterator.split_viewEnd_currentPos _ _) f
    rw [SplitIterator.split, SplitIterator.split_viewBegin_eq, h,
      SplitIterator.split_cstr_eq_self s hnul]

/-- C8. For the empty text and every delimiter the begin cursor (position 0)
equals the end cursor (position `length = 0`), and the traversal yields no
segment without dereferencing or advancing a cursor. -/
theorem split_empty_text (d : Text) :
    SplitIterator.eq (SplitIterator.viewBegin [] d) (SplitIterator.viewEnd [] d) = true
      ∧ ∀ fuel, 0 < fuel → SplitIterator.split [] d fuel = some [] := by
  constructor
  · simp [SplitIterator.eq, SplitIterator.ne, SplitIterator.viewBegin, SplitIterator.viewEnd,
      SplitIterator.ctor]
  · intro fuel hf
    obtain ⟨f, rfl⟩ : ∃ f, fuel = f + 1 := ⟨fuel - 1, by omega⟩
    exact SplitIterator.split_traverse_at_end [] d _ _ rfl f

/-! ## TakeEvery: proofs -/

namespace TakeEveryIterator

theorem takeEvery_traverse_succ {α : Type} (xs : List α) (last it : TakeEveryIterator) (fuel : Nat) :
    traverse xs last (fuel + 1) it
      = if ne it last then
          match deref xs it with
          | some x => (traverse xs last fuel (incr it)).map (fun r => x :: r)
          | none => none
        else some [] := rfl

theorem toPtrdiffT_of_lt (s : Nat) (h : s < 2 ^ 63) : toPtrdiffT s = (s : Int) := by
  unfold toPtrdiffT
  rw [Nat.mod_eq_of_lt (by omega), if_pos h]

/-- One `++` on the cursor at index `i` that has counted `i`, in a source of
fewer than `2 ^ 63` elements: to the end when `i + s` reaches the length, by
the stride otherwise. The cursor is the begin cursor or at least one stride
into the source, so that no sum wraps around. -/
theorem takeEvery_incr_cursorAt (n s i : Nat) (hn : n < 2 ^ 63) (hs64 : s < 2 ^ 64)
    (hi : i < n) (his : i = 0 ∨ s ≤ i) :
    incr (cursorAt n s i i)
      = if i + s ≥ n then cursorAt n s n i else cursorAt n s (i + s) (i + s) := by
  have hsum : (i + s) % 2 ^ 64 = i + s := Nat.mod_eq_of_lt (by omega)
  unfold incr
  simp only [cursorAt, hsum, ge_iff_le]
  by_cases h : n ≤ i + s
  · rw [if_pos h, if_pos h]
  · rw [if_neg h, if_neg h]
    have hidx : nextIndex i (toPtrdiffT s) = i + s := by
      rw [toPtrdiffT_of_lt s (by omega)]
      unfold nextIndex toSizeT
      omega
    rw [hidx]

/-- From a cursor at source index `i` that has counted `i`, the traversal
yields the elements at `i, i + s, i + 2 s, ...` below the length. -/
theorem takeEvery_traverse_from {α : Type} (xs : List α) (s : Nat) (hs : 0 < s)
    (hn : xs.length < 2 ^ 63) (hs64 : s < 2 ^ 64)
    (last : TakeEveryIterator) (hl : last._iterator = xs.length) (m : Nat) :
    ∀ i, i < xs.length → (i = 0 ∨ s ≤ i) → xs.length - i ≤ m → ∀ fuel, m < fuel →
      ∃ ys, traverse xs last fuel
            (cursorAt xs.length s i i) = some ys
        ∧ ys.length = (xs.length - i + s - 1) / s
        ∧ ∀ k, k < ys.length → ys[k]? = xs[i + k * s]? := by
  induction m with
  | zero => intro i hi _ hm; omega
  | succ m ih =>
    intro i hi his hm fuel hf
    obtain ⟨f, rfl⟩ : ∃ f, fuel = f + 2 := ⟨fuel - 2, by omega⟩
    have hne : ne (cursorAt xs.length s i i) last = true := by
      simp [ne, cursorAt, hl]; omega
    have hderef : deref xs (cursorAt xs.length s i i) = some xs[i] := by
      simp [deref, cursorAt, hi]
    have hstepc := takeEvery_incr_cursorAt xs.length s i hn hs64 hi his
    by_cases hstep : i + s ≥ xs.length
    · have hincr : incr (cursorAt xs.length s i i)
          = (cursorAt xs.length s xs.length i) := by
        rw [hstepc, if_pos hstep]
      have hend : traverse xs last (f + 1)
          (cursorAt xs.length s xs.length i) = some [] := by
        simp [takeEvery_traverse_succ, ne, cursorAt, hl]
      refine ⟨[xs[i]], ?_, ?_, ?_⟩
      · rw [takeEvery_traverse_succ, hne, hderef, hincr, hend]; rfl
      · have : (xs.length - i + s - 1) / s = 1 :=
          Nat.div_eq_of_lt_le (by omega) (by omega)
        simp [this]
      · intro k hk
        have hk0 : k = 0 := by simpa using hk
        subst hk0
        simp [hi]
    · have hincr : incr (cursorAt xs.length s i i)
          = (cursorAt xs.length s (i + s) (i + s)) := by
        rw [hstepc, if_neg hstep]
      obtain ⟨ys, hys, hlen, hpt⟩ := ih (i + s) (by omega) (Or.inr (by omega)) (by omega)
        (f + 1) (by omega)
      refine ⟨xs[i] :: ys, ?_, ?_, ?_⟩
      · rw [takeEvery_traverse_succ, hne, hderef, hincr, hys]; rfl
      · have h1 : xs.length - i + s - 1 = (xs.length - (i + s) + s - 1) + s := by omega
        rw [h1, Nat.add_div_right _ hs, List.length_cons, hlen]
      · intro k hk
        cases k with
        | zero => simp [hi]
        | succ k =>
          have hk2 : k < ys.length := by simpa using hk
          have h2 : i + (k + 1) * s = i + s + k * s := by rw [Nat.succ_mul]; omega
          rw [List.getElem?_cons_succ, hpt k hk2, h2]

end TakeEveryIterator

/-- C9 (counterexample). Over a source of `n = 2 ^ 64 - 2` elements (a value
repeated that often) with stride `s = 2 ^ 63 + 5`, the indices `0, s, 2 s, ...`
below `n` are `0` and `s`. The second `++` forms `s + s` in `std::size_t`,
which wraps around to `10`, below the distance `n`: the cursor does not go to
the end but to index `10`, where it differs from end and yields a third
value. -/
theorem takeEvery_wraparound_counterexample :
    (TakeEveryIterator.incr (TakeEveryIterator.viewBegin
        (List.replicate (2 ^ 64 - 2) 'x') (2 ^ 63 + 5)))._iterator = 2 ^ 63 + 5
    ∧ (TakeEveryIterator.incr (TakeEveryIterator.incr (TakeEveryIterator.viewBegin
        (List.replicate (2 ^ 64 - 2) 'x') (2 ^ 63 + 5))))._iterator = 10
    ∧ TakeEveryIterator.ne
        (TakeEveryIterator.incr (TakeEveryIterator.incr (TakeEveryIterator.viewBegin
          (List.replicate (2 ^ 64 - 2) 'x') (2 ^ 63 + 5))))
        (TakeEveryIterator.viewEnd (List.replicate (2 ^ 64 - 2) 'x') (2 ^ 63 + 5)) = true
    ∧ TakeEveryIterator.deref (List.replicate (2 ^ 64 - 2) 'x')
        (TakeEveryIterator.incr (TakeEveryIterator.incr (TakeEveryIterator.viewBegin
          (List.replicate (2 ^ 64 - 2) 'x') (2 ^ 63 + 5)))) = some 'x'
    ∧ ¬ (2 * (2 ^ 63 + 5) < (List.replicate (2 ^ 64 - 2) 'x').length) := by
  have hb : TakeEveryIterator.viewBegin (List.replicate (2 ^ 64 - 2) 'x') (2 ^ 63 + 5)
      = TakeEveryIterator.ctor 0 (2 ^ 64 - 2) (2 ^ 63 + 5) (2 ^ 64 - 2) := by
    simp only [TakeEveryIterator.viewBegin, List.length_replicate]
  have he : TakeEveryIterator.viewEnd (List.replicate (2 ^ 64 - 2) 'x') (2 ^ 63 + 5)
      = TakeEveryIterator.ctor (2 ^ 64 - 2) (2 ^ 64 - 2) (2 ^ 63 + 5) (2 ^ 64 - 2) := by
    simp only [TakeEveryIterator.viewEnd, List.length_replicate]
  have h2 : TakeEveryIterator.incr (TakeEveryIterator.incr
      (TakeEveryIterator.ctor 0 (2 ^ 64 - 2) (2 ^ 63 + 5) (2 ^ 64 - 2)))
      = TakeEveryIterator.cursorAt (2 ^ 64 - 2) (2 ^ 63 + 5) 10 10 := by decide
  rw [hb, he, h2]
  refine ⟨by decide, by decide, by decide, ?_, ?_⟩
  · simp only [TakeEveryIterator.deref, TakeEveryIterator.cursorAt]
    rw [List.getElem?_replicate]
    simp
  · rw [List.length_replicate]
    decide

/-- C9 (amended). For every source `xs` of fewer than `2 ^ 63` elements, the
range of `difference_type`, and every stride `s > 0` (a `std::size_t`),
traversing the TakeEvery cursor from begin (constructed with distance
`xs.length`) until it equals end yields a list `ys` whose `k`-th value is the
source element at index `k * s`, for exactly the `k` with `k * s < xs.length`:
the elements at the indices `0, s, 2 s, ...` below the length, in order. -/
theorem takeEvery_traversal {α : Type} (xs : List α) (s : Nat) (hs : 0 < s)
    (hn : xs.length < 2 ^ 63) (hs64 : s < 2 ^ 64) (fuel : Nat)
    (hf : xs.length < fuel) :
    ∃ ys, TakeEveryIterator.toList xs s fuel = some ys
      ∧ ys.length = (xs.length + s - 1) / s
      ∧ (∀ k, k < ys.length ↔ k * s < xs.length)
      ∧ (∀ k, k < ys.length → ys[k]? = xs[k * s]?) := by
  have hcount : ∀ k, k < (xs.length + s - 1) / s ↔ k * s < xs.length := by
    intro k
    rw [Nat.lt_iff_add_one_le, Nat.le_div_iff_mul_le hs, Nat.succ_mul]
    omega
  by_cases hn0 : xs.length = 0
  · obtain ⟨f, rfl⟩ : ∃ f, fuel = f + 1 := ⟨fuel - 1, by omega⟩
    have h0 : (xs.length + s - 1) / s = 0 := by
      rw [hn0]; exact Nat.div_eq_of_lt (by omega)
    refine ⟨[], ?_, by simp [h0], ?_, fun k hk => by simp at hk⟩
    · simp [TakeEveryIterator.toList, TakeEveryIterator.takeEvery_traverse_succ, TakeEveryIterator.ne,
        TakeEveryIterator.viewBegin, TakeEveryIterator.viewEnd, TakeEveryIterator.ctor, hn0]
    · intro k; simp [hn0]
  · have hpos : 0 < xs.length := Nat.pos_of_ne_zero hn0
    have hb : TakeEveryIterator.viewBegin xs s
        = TakeEveryIterator.cursorAt xs.length s 0 0 := by
      simp [TakeEveryIterator.viewBegin, TakeEveryIterator.ctor, TakeEveryIterator.cursorAt]
      intro h; omega
    obtain ⟨ys, hys, hlen, hpt⟩ := TakeEveryIterator.takeEvery_traverse_from xs s hs hn hs64
      (TakeEveryIterator.viewEnd xs s) (by simp [TakeEveryIterator.viewEnd,
        TakeEveryIterator.ctor]) xs.length 0 hpos (Or.inl rfl) (by omega) fuel hf
    simp only [Nat.sub_zero, Nat.zero_add] at hlen hpt
    refine ⟨ys, ?_, hlen, ?_, hpt⟩
    · rw [TakeEveryIterator.toList, hb, hys]
    · intro k; rw [hlen]; exact hcount k

/-- Witness for C9 (amended): the source `[0, ..., 9]` with stride 3 yields
`[0, 3, 6, 9]`. -/
theorem takeEvery_traversal_witness :
    TakeEveryIterator.toList [0, 1, 2, 3, 4, 5, 6, 7, 8, 9] 3 11 = some [0, 3, 6, 9]
      ∧ ∃ ys, TakeEveryIterator.toList [0, 1, 2, 3, 4, 5, 6, 7, 8, 9] 3 11 = some ys
          ∧ ys.length = ([0, 1, 2, 3, 4, 5, 6, 7, 8, 9].length + 3 - 1) / 3
          ∧ (∀ k, k < ys.length ↔ k * 3 < [0, 1, 2, 3, 4, 5, 6, 7, 8, 9].length)
          ∧ (∀ k, k < ys.length → ys[k]? = [0, 1, 2, 3, 4, 5, 6, 7, 8, 9][k * 3]?) :=
  ⟨by decide, takeEvery_traversal [0, 1, 2, 3, 4, 5, 6, 7, 8, 9] 3 (by decide) (by decide)
    (by decide) 11 (by decide)⟩

/-! ## Cartesian product: proofs -/

/-- The pair of `as[i]` and `bs[j]` stands at index `i * bs.length + j` of the
product list. -/
theorem cartesian_product_getElem? {α β : Type} (as : List α) (bs : List β) (i j : Nat)
    (a : α) (b : β) (hi : as[i]? = some a) (hj : bs[j]? = some b) :
    (as ×ˢ bs)[i * bs.length + j]? = some (a, b) := by
  have hjl : j < bs.length := (List.getElem?_eq_some_iff.mp hj).1
  induction as generalizing i with
  | nil => simp at hi
  | cons x t ih =>
    rw [List.product_cons]
    cases i with
    | zero =>
      simp only [List.getElem?_cons_zero, Option.some.injEq] at hi
      subst hi
      rw [Nat.zero_mul, Nat.zero_add, List.getElem?_append_left (by simpa using hjl)]
      simp [hj]
    | succ i =>
      simp only [List.getElem?_cons_succ] at hi
      have hlen : (List.map (fun b => (x, b)) bs).length = bs.length := by simp
      rw [List.getElem?_append_right (by rw [hlen, Nat.succ_mul]; omega)]
      have hidx : (i + 1) * bs.length + j - (List.map (fun b => (x, b)) bs).length
          = i * bs.length + j := by
        rw [hlen, Nat.succ_mul]; omega
      rw [hidx]
      exact ih i hi

namespace CartesianProductIterator

theorem cartesian_traverse_succ {α β : Type} (as : List α) (bs : List β)
    (last it : CartesianProductIterator) (fuel : Nat) :
    traverse as bs last (fuel + 1) it
      = if ne it last then
          match deref as bs it with
          | some x => (traverse as bs last fuel (incr bs it)).map (fun r => x :: r)
          | none => none
        else some [] := rfl

/-- One turn of the last dimension: from the element `a` of the first source and
the rest `sufB` of the second, the pairs of `a` with `sufB` are yielded and the
cursor carries into the first dimension. -/
theorem cartesian_traverse_row {α β : Type} (preA : List α) (a : α) (sufA : List α)
    (sufB preB : List β) (hB : sufB ≠ []) (last : CartesianProductIterator)
    (hl : last._first = (preA ++ a :: sufA).length) (fuel : Nat) :
    traverse (preA ++ a :: sufA) (preB ++ sufB) last (sufB.length + fuel)
        { _first := preA.length, _second := preB.length }
      = (traverse (preA ++ a :: sufA) (preB ++ sufB) last fuel
          { _first := preA.length + 1, _second := 0 }).map
          (fun r => sufB.map (fun b => (a, b)) ++ r) := by
  induction sufB generalizing preB with
  | nil => exact absurd rfl hB
  | cons b t ih =>
    have hne : ne { _first := preA.length, _second := preB.length } last = true := by
      simp [ne, hl]
    have hderef : deref (preA ++ a :: sufA) (preB ++ b :: t)
        { _first := preA.length, _second := preB.length } = some (a, b) := by
      have h1 := getElem?_append_cons preA a sufA
      have h2 := getElem?_append_cons preB b t
      simp only [deref, h1, h2]
    have hfuel : (b :: t).length + fuel = (t.length + fuel) + 1 := by simp; omega
    rw [hfuel, cartesian_traverse_succ, hne, hderef]
    by_cases ht : t = []
    · subst ht
      have hincr : incr (preB ++ [b]) { _first := preA.length, _second := preB.length }
          = { _first := preA.length + 1, _second := 0 } := by
        simp [incr]
      simp only [↓reduceIte, hincr, List.length_nil, Nat.zero_add, List.map_cons, List.map_nil,
        List.singleton_append]
    · have htl : 0 < t.length := List.length_pos.mpr ht
      have hincr : incr (preB ++ b :: t) { _first := preA.length, _second := preB.length }
          = { _first := preA.length, _second := preB.length + 1 } := by
        have hlt : preB.length + 1 ≠ (preB ++ b :: t).length := by
          rw [List.length_append, List.length_cons]; omega
        simp only [incr, hlt, ↓reduceIte]
      have hxs : preB ++ b :: t = (preB ++ [b]) ++ t := by simp
      have h := ih (preB ++ [b]) ht
      rw [← hxs] at h
      have hlen : (preB ++ [b]).length = preB.length + 1 := by simp
      rw [hlen] at h
      simp only [↓reduceIte, hincr, h, Option.map_map, List.map_cons]
      rfl

/-- From the start of a row of the first dimension, the traversal yields the
pairs of the remaining elements of the first source with the whole second
source, the first component varying slowest. -/
theorem cartesian_traverse_rows {α β : Type} (bs : List β) (hB : bs ≠ []) (sufA preA : List α)
    (last : CartesianProductIterator) (hl : last._first = (preA ++ sufA).length) (k : Nat) :
    traverse (preA ++ sufA) bs last (sufA.length * bs.length + 1 + k)
        { _first := preA.length, _second := 0 }
      = some (sufA ×ˢ bs) := by
  induction sufA generalizing preA with
  | nil =>
    have hf : ([] : List α).length * bs.length + 1 + k = k + 1 := by simp; omega
    rw [hf, cartesian_traverse_succ]
    simp [ne, hl]
  | cons a t ih =>
    have hfuel : (a :: t).length * bs.length + 1 + k
        = bs.length + (t.length * bs.length + 1 + k) := by
      simp only [List.length_cons, Nat.succ_mul]; omega
    have hrow := cartesian_traverse_row preA a t bs [] hB last hl (t.length * bs.length + 1 + k)
    simp only [List.nil_append, List.length_nil] at hrow
    have hxs : preA ++ a :: t = (preA ++ [a]) ++ t := by simp
    have h := ih (preA ++ [a]) (by rw [← hxs]; exact hl)
    rw [← hxs] at h
    have hlen : (preA ++ [a]).length = preA.length + 1 := by simp
    rw [hlen] at h
    rw [hfuel, hrow, h]
    simp [List.product_cons]

/-- Counting the steps of a traversal that ends gives the number of values it
yields. -/
theorem cartesian_distance_of_traverse {α β : Type} (as : List α) (bs : List β)
    (last : CartesianProductIterator) (fuel : Nat) :
    ∀ it ys, traverse as bs last fuel it = some ys →
      distance bs last fuel it = some ys.length := by
  induction fuel with
  | zero => intro it ys h; simp [traverse] at h
  | succ f ih =>
    intro it ys h
    rw [cartesian_traverse_succ] at h
    by_cases hne : ne it last = true
    · simp only [hne, ↓reduceIte] at h
      cases hd : deref as bs it with
      | none => simp [hd] at h
      | some x =>
        simp only [hd] at h
        cases ht : traverse as bs last f (incr bs it) with
        | none => simp [ht] at h
        | some r =>
          rw [ht] at h
          simp only [Option.map_some', Option.some.injEq] at h
          subst h
          simp [distance, hne, ih _ r ht]
    · simp only [hne] at h
      simp only [Bool.false_eq_true, ↓reduceIte, Option.some.injEq] at h
      subst h
      simp [distance, hne]

end CartesianProductIterator

/-- C10. For every two finite sources `as` and `bs` the Cartesian product view
yields exactly the `as.length * bs.length` pairs `(a, b)` with `a` from `as`
and `b` from `bs`, the first component varying slowest (all pairs of `as[0]`
in the order of `bs`, then all pairs of `as[1]`, ...), and the number of steps
from begin to end is `as.length * bs.length`. -/
theorem cartesian_traversal {α β : Type} (as : List α) (bs : List β)
    (fuel : Nat) (hf : as.length * bs.length < fuel) :
    CartesianProductIterator.toList as bs fuel = some (as ×ˢ bs)
      ∧ (as ×ˢ bs).length = as.length * bs.length
      ∧ (∀ (i j : Nat) (a : α) (b : β), as[i]? = some a → bs[j]? = some b →
          (as ×ˢ bs)[i * bs.length + j]? = some (a, b))
      ∧ CartesianProductIterator.distance bs (CartesianProductIterator.viewEnd as bs) fuel
          (CartesianProductIterator.viewBegin as bs) = some (as.length * bs.length) := by
  have hlist : CartesianProductIterator.toList as bs fuel = some (as ×ˢ bs) := by
    obtain ⟨f, rfl⟩ : ∃ f, fuel = f + 1 := ⟨fuel - 1, by omega⟩
    by_cases ha : as = []
    · subst ha
      simp [CartesianProductIterator.toList, CartesianProductIterator.cartesian_traverse_succ,
        CartesianProductIterator.ne, CartesianProductIterator.viewBegin,
        CartesianProductIterator.viewEnd]
    · by_cases hb : bs = []
      · subst hb
        simp [CartesianProductIterator.toList, CartesianProductIterator.cartesian_traverse_succ,
          CartesianProductIterator.ne, CartesianProductIterator.viewBegin,
          CartesianProductIterator.viewEnd]
      · obtain ⟨k, hk⟩ : ∃ k, f + 1 = as.length * bs.length + 1 + k :=
          ⟨f + 1 - (as.length * bs.length + 1), by omega⟩
        have hbegin : CartesianProductIterator.viewBegin as bs
            = { _first := 0, _second := 0 } := by
          simp [CartesianProductIterator.viewBegin, ha, hb]
        have := CartesianProductIterator.cartesian_traverse_rows bs hb as []
          (CartesianProductIterator.viewEnd ([] ++ as) bs) rfl k
        rw [CartesianProductIterator.toList, hbegin, hk]
        simpa using this
  have hlen : (as ×ˢ bs).length = as.length * bs.length := List.length_product as bs
  refine ⟨hlist, hlen, ?_, ?_⟩
  · intro i j a b hi hj
    exact cartesian_product_getElem? as bs i j a b hi hj
  · have := CartesianProductIterator.cartesian_distance_of_traverse as bs
      (CartesianProductIterator.viewEnd as bs) fuel (CartesianProductIterator.viewBegin as bs)
      (as ×ˢ bs) hlist
    rw [this, hlen]

/-- Witness for C10: the sources `[1, 2, 3]` and `['a', 'b', 'c']` yield the
nine pairs `(1, a), (1, b), (1, c), (2, a), ..., (3, c)` in that order. -/
theorem cartesian_traversal_witness :
    CartesianProductIterator.toList [1, 2, 3] ['a', 'b', 'c'] 10
        = some [(1, 'a'), (1, 'b'), (1, 'c'), (2, 'a'), (2, 'b'), (2, 'c'),
            (3, 'a'), (3, 'b'), (3, 'c')]
      ∧ CartesianProductIterator.distance ['a', 'b', 'c']
          (CartesianProductIterator.viewEnd [1, 2, 3] ['a', 'b', 'c']) 10
          (CartesianProductIterator.viewBegin [1, 2, 3] ['a', 'b', 'c']) = some 9 := by
  have h := cartesian_traversal [1, 2, 3] ['a', 'b', 'c'] 10 (by decide)
  exact ⟨h.1, h.2.2.2⟩

/-! ## IterView: proofs -/

theorem accumulate_eq_foldl {α β : Type} (xs : List α) (init : β) (op : β → α → β) :
    accumulate xs init op = List.foldl op init xs := by
  induction xs generalizing init with
  | nil => rfl
  | cons x t ih => simp [accumulate, ih]

theorem all_of_eq_all {α : Type} (xs : List α) (p : α → Bool) : all_of xs p = xs.all p := by
  induction xs with
  | nil => rfl
  | cons x t ih => cases hp : p x <;> simp [all_of, hp, ih]

/-- C13 (code evaluated at the failing inputs). `IterView::none` is the negation
of `all`: for every sequence it returns true exactly when some element fails
the predicate. So it returns false for the empty sequence, and for `[1, 2]`
with the predicate "equals 1" it returns true although 1 satisfies the
predicate. It agrees with "no element satisfies the predicate" on `[2, 3]`
(true) and on `[1, 1]` (false). -/
theorem none_is_not_all :
    (∀ (α : Type) (xs : List α) (p : α → Bool), IterView.none xs p = !(xs.all p))
    ∧ (∀ p : Nat → Bool, IterView.none ([] : List Nat) p = false)
    ∧ IterView.none [1, 2] (fun x => x == 1) = true
    ∧ IterView.none [2, 3] (fun x => x == 1) = true
    ∧ IterView.none [1, 1] (fun x => x == 1) = false := by
  refine ⟨?_, ?_, by decide, by decide, by decide⟩
  · intro α xs p
    simp [IterView.none, IterView.all, all_of_eq_all]
  · intro p
    rfl

/-- C14 (code evaluated at the failing input). Without execution policies
`IterView::foldl` is the left fold `f(...f(f(init, x1), x2)..., xn)` and gives
`init` for the empty sequence. With execution policies it is `std::reduce`,
which may combine the values in another grouping: for `[1, 2]`, `init = 0` and
subtraction the left fold is `(0 - 1) - 2 = -3`, and `std::reduce` may also
return `0 - (1 - 2) = 1`. -/
theorem foldl_reduce_not_left_fold :
    (∀ (α β : Type) (xs : List α) (init : β) (f : β → α → β),
        IterView.foldl xs init f = List.foldl f init xs)
    ∧ (∀ (α β : Type) (init : β) (f : β → α → β), IterView.foldl ([] : List α) init f = init)
    ∧ IterView.foldl [1, 2] (0 : Int) (fun a b => a - b) = -3
    ∧ IterView.foldlExec [1, 2] (0 : Int) (fun a b => a - b) (-3)
    ∧ IterView.foldlExec [1, 2] (0 : Int) (fun a b => a - b) 1 := by
  refine ⟨fun α β xs init f => accumulate_eq_foldl xs init f, fun α β init f => rfl,
    by decide, ?_, ?_⟩
  · refine ⟨[0, 1, 2], List.Perm.refl _, ?_⟩
    have h01 := @GeneralizedNoncommutativeSum.split Int (fun a b : Int => a - b) [0] [1] 0 1
      (.single 0) (.single 1)
    exact @GeneralizedNoncommutativeSum.split Int (fun a b : Int => a - b) [0, 1] [2] (0 - 1) 2
      h01 (.single 2)
  · refine ⟨[0, 1, 2], List.Perm.refl _, ?_⟩
    have h12 := @GeneralizedNoncommutativeSum.split Int (fun a b : Int => a - b) [1] [2] 1 2
      (.single 1) (.single 2)
    exact @GeneralizedNoncommutativeSum.split Int (fun a b : Int => a - b) [0] [1, 2] 0 (1 - 2)
      (.single 0) h12

/-- C15 (code evaluated at the failing input). Without execution policies
`IterView::foldr` is the left fold of the reversed sequence,
`f(...f(f(init, xn), x(n-1))..., x1)`. With execution policies it is
`std::reduce` over the reversed sequence, which may combine the values in
another grouping. For `[1, 2, 3, 4]`, `init = 0` and subtraction the fold is
`(((0 - 4) - 3) - 2) - 1 = -10`; `std::reduce` may return
`0 - ((4 - 3) - (2 - 1)) = 0`, and the loop of libstdc++ does return it. For
`[1, 2]` the fold is `(0 - 2) - 1 = -3`, the value that the loop of libstdc++
returns there, and `std::reduce` may also return `0 - (2 - 1) = -1`. -/
theorem foldr_reduce_not_fold :
    (∀ (α β : Type) (xs : List α) (init : β) (f : β → α → β),
        IterView.foldr xs init f = List.foldl f init xs.reverse
          ∧ IterView.foldr xs init f = IterView.foldl xs.reverse init f)
    ∧ IterView.foldr [1, 2, 3, 4] (0 : Int) (fun a b => a - b) = -10
    ∧ IterView.foldrExec [1, 2, 3, 4] (0 : Int) (fun a b => a - b) 0
    ∧ reduce_libstdcxx (reverse [1, 2, 3, 4]) (0 : Int) (fun a b => a - b) = 0
    ∧ IterView.foldr [1, 2] (0 : Int) (fun a b => a - b) = -3
    ∧ reduce_libstdcxx (reverse [1, 2]) (0 : Int) (fun a b => a - b) = -3
    ∧ IterView.foldrExec [1, 2] (0 : Int) (fun a b => a - b) (-3)
    ∧ IterView.foldrExec [1, 2] (0 : Int) (fun a b => a - b) (-1) := by
  refine ⟨fun α β xs init f => ⟨accumulate_eq_foldl xs.reverse init f, rfl⟩, by decide, ?_,
    by decide, by decide, by decide, ?_, ?_⟩
  · refine ⟨[0, 4, 3, 2, 1], List.Perm.refl _, ?_⟩
    have h43 := @GeneralizedNoncommutativeSum.split Int (fun a b : Int => a - b) [4] [3] 4 3
      (.single 4) (.single 3)
    have h21 := @GeneralizedNoncommutativeSum.split Int (fun a b : Int => a - b) [2] [1] 2 1
      (.single 2) (.single 1)
    have h4321 := @GeneralizedNoncommutativeSum.split Int (fun a b : Int => a - b) [4, 3] [2, 1]
      (4 - 3) (2 - 1) h43 h21
    exact @GeneralizedNoncommutativeSum.split Int (fun a b : Int => a - b) [0] [4, 3, 2, 1] 0
      ((4 - 3) - (2 - 1)) (.single 0) h4321
  · refine ⟨[0, 2, 1], List.Perm.refl _, ?_⟩
    have h02 := @GeneralizedNoncommutativeSum.split Int (fun a b : Int => a - b) [0] [2] 0 2
      (.single 0) (.single 2)
    exact @GeneralizedNoncommutativeSum.split Int (fun a b : Int => a - b) [0, 2] [1] (0 - 2) 1
      h02 (.single 1)
  · refine ⟨[0, 2, 1], List.Perm.refl _, ?_⟩
    have h21 := @GeneralizedNoncommutativeSum.split Int (fun a b : Int => a - b) [2] [1] 2 1
      (.single 2) (.single 1)
    exact @GeneralizedNoncommutativeSum.split Int (fun a b : Int => a - b) [0] [2, 1] 0 (2 - 1)
      (.single 0) h21

/-- C16. On the empty sequence `IterView::max` and `IterView::min` stop with a
precondition violation, for every comparer: the assertion on non-emptiness
fails before an iterator is dereferenced, and no value is returned. -/
theorem max_min_empty_precondition {α : Type} (cmp : α → α → Bool) :
    IterView.max ([] : List α) cmp
        = .error (.preconditionViolation "sequence cannot be empty in order to get max element")
    ∧ IterView.min ([] : List α) cmp
        = .error (.preconditionViolation "sequence cannot be empty in order to get min element")
    ∧ (∀ m, IterView.max ([] : List α) cmp ≠ .ok m)
    ∧ (∀ m, IterView.min ([] : List α) cmp ≠ .ok m) := by
  refine ⟨rfl, rfl, ?_, ?_⟩
  · intro m h; exact Except.noConfusion h
  · intro m h; exact Except.noConfusion h

/-! ## IterView: the extrema -/

/-- In a strict weak ordering an element before `c` is before `b`, or `b` is
before `c`. -/
theorem swo_before_or_before {α : Type} (cmp : α → α → Bool) (h : StrictWeakOrdering cmp)
    (a b c : α) (hac : cmp a c = true) : cmp a b = true ∨ cmp b c = true := by
  by_cases hab : cmp a b = true
  · exact Or.inl hab
  by_cases hbc : cmp b c = true
  · exact Or.inr hbc
  exfalso
  have hab2 : cmp a b = false := by simpa using hab
  have hbc2 : cmp b c = false := by simpa using hbc
  have hba : cmp b a = false := by
    cases hba : cmp b a with
    | false => rfl
    | true => rw [h.trans b a c hba hac] at hbc2; exact absurd hbc2 (by simp)
  have hcb : cmp c b = false := by
    cases hcb : cmp c b with
    | false => rfl
    | true => rw [h.trans a c b hac hcb] at hab2; exact absurd hab2 (by simp)
  have := (h.equiv_trans a b c hab2 hba hbc2 hcb).1
  rw [hac] at this
  exact absurd this (by simp)

theorem swo_flip {α : Type} (cmp : α → α → Bool) (h : StrictWeakOrdering cmp) :
    StrictWeakOrdering (fun x y => cmp y x) where
  irrefl := h.irrefl
  trans := fun a b c hab hbc => h.trans c b a hbc hab
  equiv_trans := fun a b c hab hba hbc hcb =>
    ⟨(h.equiv_trans a b c hba hab hcb hbc).2, (h.equiv_trans a b c hba hab hcb hbc).1⟩

theorem max_elementLoop_scanned {α : Type} (xs : List α) (cmp : α → α → Bool)
    (h : StrictWeakOrdering cmp) (n : Nat) :
    ∀ l first, first + n = xs.length → MaxScanned xs cmp l first →
      MaxScanned xs cmp (max_elementLoop xs cmp n l first) xs.length := by
  induction n with
  | zero =>
    intro l first hlen hinv
    have : first = xs.length := by omega
    subst this
    exact hinv
  | succ n ih =>
    intro l first hlen hinv
    obtain ⟨hl, hm, a, ha, hbig, hfirst⟩ := hinv
    have hlt : first < xs.length := by omega
    have hb : xs[first]? = some xs[first] := List.getElem?_eq_getElem hlt
    simp only [max_elementLoop, ha, hb]
    apply ih _ (first + 1) (by omega)
    by_cases hc : cmp a xs[first] = true
    · simp only [hc, ↓reduceIte]
      refine ⟨by omega, by omega, xs[first], hb, ?_, ?_⟩
      · intro j c hj hjc
        by_cases hjf : j = first
        · subst hjf
          rw [hb] at hjc
          rw [← Option.some.inj hjc]
          exact h.irrefl _
        · have hac := hbig j c (by omega) hjc
          cases hbc : cmp xs[first] c with
          | false => rfl
          | true => rw [h.trans a xs[first] c hc hbc] at hac; exact absurd hac (by simp)
      · intro j c hj hjc
        have hac := hbig j c hj hjc
        rcases swo_before_or_before cmp h a c xs[first] hc with h1 | h1
        · rw [h1] at hac; exact absurd hac (by simp)
        · exact h1
    · have hc2 : cmp a xs[first] = false := by simpa using hc
      simp only [hc2, Bool.false_eq_true, ↓reduceIte]
      refine ⟨by omega, by omega, a, ha, ?_, hfirst⟩
      intro j c hj hjc
      by_cases hjf : j = first
      · subst hjf
        rw [hb] at hjc
        rw [← Option.some.inj hjc]
        exact hc2
      · exact hbig j c (by omega) hjc

theorem min_elementLoop_eq_max {α : Type} (xs : List α) (cmp : α → α → Bool) (n : Nat) :
    ∀ s first, min_elementLoop xs cmp n s first
      = max_elementLoop xs (fun x y => cmp y x) n s first := by
  induction n with
  | zero => intro s first; rfl
  | succ n ih =>
    intro s first
    simp only [min_elementLoop, max_elementLoop]
    cases xs[s]? <;> cases xs[first]? <;> simp [ih]

theorem min_element_eq_max {α : Type} (xs : List α) (cmp : α → α → Bool) (first last : Nat) :
    min_element xs cmp first last = max_element xs (fun x y => cmp y x) first last := by
  simp [min_element, max_element, min_elementLoop_eq_max]

/-- The iterator `std::max_element` returns over a non-empty sequence. -/
theorem max_element_scanned {α : Type} (xs : List α) (cmp : α → α → Bool)
    (h : StrictWeakOrdering cmp) (hne : xs ≠ []) :
    MaxScanned xs cmp (max_element xs cmp 0 xs.length) xs.length := by
  have hpos : 0 < xs.length := List.length_pos.mpr hne
  have h0 : (0 : Nat) ≠ xs.length := by omega
  simp only [max_element, h0, ↓reduceIte]
  apply max_elementLoop_scanned xs cmp h (xs.length - (0 + 1)) 0 (0 + 1) (by omega)
  refine ⟨by omega, by omega, xs[0], List.getElem?_eq_getElem hpos, ?_, ?_⟩
  · intro j b hj hjb
    have hj0 : j = 0 := by omega
    subst hj0
    rw [List.getElem?_eq_getElem hpos] at hjb
    rw [← Option.some.inj hjb]
    exact h.irrefl _
  · intro j b hj; omega

theorem iterView_max_of_scanned {α : Type} (xs : List α) (cmp : α → α → Bool) (hne : xs ≠ [])
    (i : Nat) (m : α) (hi : max_element xs cmp 0 xs.length = i) (hm : xs[i]? = some m) :
    IterView.max xs cmp = .ok m := by
  cases xs with
  | nil => exact absurd rfl hne
  | cons x t =>
    simp only [IterView.max, isEmpty, List.isEmpty_cons, Bool.not_false, LZ_ASSERT, ↓reduceIte,
      IterView.derefAt, hi, hm]
    rfl

/-- C17. For every non-empty sequence and strict weak ordering `cmp`,
`IterView::max(cmp)` returns an element `m` of the sequence, at some index `i`,
such that `cmp(m, x)` is false for every element `x`, and every element ahead
of index `i` is before `m` in the ordering, so that `m` is the first of the
equal greatest elements. `IterView::min(cmp)` returns an element `m`, at some
index `i`, such that `cmp(x, m)` is false for every element `x`, and `m` is
before every element ahead of index `i`: the first of the equal least
elements. -/
theorem max_min_first_extremum {α : Type} (xs : List α) (cmp : α → α → Bool)
    (hne : xs ≠ []) (h : StrictWeakOrdering cmp) :
    (∃ i m, IterView.max xs cmp = .ok m ∧ xs[i]? = some m
        ∧ (∀ x ∈ xs, cmp m x = false)
        ∧ (∀ (j : Nat) (y : α), j < i → xs[j]? = some y → cmp y m = true))
    ∧ (∃ i m, IterView.min xs cmp = .ok m ∧ xs[i]? = some m
        ∧ (∀ x ∈ xs, cmp x m = false)
        ∧ (∀ (j : Nat) (y : α), j < i → xs[j]? = some y → cmp m y = true)) := by
  constructor
  · obtain ⟨_, _, m, hm, hbig, hfirst⟩ := max_element_scanned xs cmp h hne
    refine ⟨max_element xs cmp 0 xs.length, m,
      iterView_max_of_scanned xs cmp hne _ m rfl hm, hm, ?_, hfirst⟩
    intro x hx
    obtain ⟨j, hj, hjx⟩ := List.getElem_of_mem hx
    exact hbig j x hj (by rw [List.getElem?_eq_getElem hj, hjx])
  · obtain ⟨_, _, m, hm, hbig, hfirst⟩ :=
      max_element_scanned xs (fun x y => cmp y x) (swo_flip cmp h) hne
    rw [← min_element_eq_max] at hm hfirst
    refine ⟨min_element xs cmp 0 xs.length, m, ?_, hm, ?_, hfirst⟩
    · cases xs with
      | nil => exact absurd rfl hne
      | cons x t =>
        simp only [IterView.min, isEmpty, List.isEmpty_cons, Bool.not_false, LZ_ASSERT,
          ↓reduceIte, IterView.derefAt, hm]
        rfl
    · intro x hx
      obtain ⟨j, hj, hjx⟩ := List.getElem_of_mem hx
      exact hbig j x hj (by rw [List.getElem?_eq_getElem hj, hjx])

theorem swo_fst_lt : StrictWeakOrdering (fun a b : Nat × Char => decide (a.1 < b.1)) where
  irrefl := by intro a; simp
  trans := by intro a b c hab hbc; simp only [decide_eq_true_eq] at *; omega
  equiv_trans := by
    intro a b c hab hba hbc hcb
    simp only [decide_eq_false_iff_not] at *
    constructor <;> omega

/-- Witness for C17: in `[(2, a), (5, b), (5, c), (1, d), (1, e)]` compared on
the first component, `max` returns `(5, b)` and `min` returns `(1, d)`, the
first of the equal greatest and of the equal least elements. -/
theorem max_min_first_extremum_witness :
    (IterView.max [(2, 'a'), (5, 'b'), (5, 'c'), (1, 'd'), (1, 'e')]
          (fun a b : Nat × Char => decide (a.1 < b.1)) = .ok (5, 'b')
      ∧ IterView.min [(2, 'a'), (5, 'b'), (5, 'c'), (1, 'd'), (1, 'e')]
          (fun a b : Nat × Char => decide (a.1 < b.1)) = .ok (1, 'd'))
    ∧ ((∃ i m, IterView.max [(2, 'a'), (5, 'b'), (5, 'c'), (1, 'd'), (1, 'e')]
            (fun a b : Nat × Char => decide (a.1 < b.1)) = .ok m
          ∧ [(2, 'a'), (5, 'b'), (5, 'c'), (1, 'd'), (1, 'e')][i]? = some m
          ∧ (∀ x ∈ [(2, 'a'), (5, 'b'), (5, 'c'), (1, 'd'), (1, 'e')],
              decide (m.1 < x.1) = false)
          ∧ (∀ (j : Nat) (y : Nat × Char), j < i →
              [(2, 'a'), (5, 'b'), (5, 'c'), (1, 'd'), (1, 'e')][j]? = some y →
              decide (y.1 < m.1) = true))
      ∧ (∃ i m, IterView.min [(2, 'a'), (5, 'b'), (5, 'c'), (1, 'd'), (1, 'e')]
            (fun a b : Nat × Char => decide (a.1 < b.1)) = .ok m
          ∧ [(2, 'a'), (5, 'b'), (5, 'c'), (1, 'd'), (1, 'e')][i]? = some m
          ∧ (∀ x ∈ [(2, 'a'), (5, 'b'), (5, 'c'), (1, 'd'), (1, 'e')],
              decide (x.1 < m.1) = false)
          ∧ (∀ (j : Nat) (y : Nat × Char), j < i →
              [(2, 'a'), (5, 'b'), (5, 'c'), (1, 'd'), (1, 'e')][j]? = some y →
              decide (m.1 < y.1) = true))) :=
  ⟨⟨rfl, rfl⟩,
    max_min_first_extremum [(2, 'a'), (5, 'b'), (5, 'c'), (1, 'd'), (1, 'e')]
      (fun a b : Nat × Char => decide (a.1 < b.1)) (by decide) swo_fst_lt⟩

/-! ## Equality of cursors -/

/-- C18 (counterexample). Over the source `[1]` with the predicate "true" the
begin cursor `a` is at the element and the end cursor `e` at the end:
`a == a` is false, and `e == a` is true while `a == e` is false. -/
theorem filter_eq_not_equivalence_counterexample :
    FilterIterator.eq (FilterIterator.ctor [1] (fun _ => true) 0 1)
        (FilterIterator.ctor [1] (fun _ => true) 0 1) = false
    ∧ FilterIterator.eq (FilterIterator.ctor [1] (fun _ => true) 1 1)
        (FilterIterator.ctor [1] (fun _ => true) 0 1) = true
    ∧ FilterIterator.eq (FilterIterator.ctor [1] (fun _ => true) 0 1)
        (FilterIterator.ctor [1] (fun _ => true) 1 1) = false := by
  decide

/-- C18 (amended). For Filter cursors `a`, `b`, `c` derived from the same view
(they hold the same `_end`), `a == b` holds exactly when `a` is at the end of
the view, whatever `b` is. So equality is transitive, `a == a` holds exactly
when `a` is at the end, and `a == b` implies `b == a` exactly when `b` is at
the end too: on the cursors at the end it is an equivalence relation. -/
theorem filter_eq_end_test (a b c : FilterIterator) (hab : a._end = b._end)
    (hbc : b._end = c._end) :
    (FilterIterator.eq a b = true ↔ a._iterator = a._end)
    ∧ (FilterIterator.eq a b = true → FilterIterator.eq b c = true →
        FilterIterator.eq a c = true)
    ∧ (FilterIterator.eq a a = true ↔ a._iterator = a._end)
    ∧ (FilterIterator.eq a b = true →
        (FilterIterator.eq b a = true ↔ b._iterator = b._end)) := by
  have key : ∀ x y : FilterIterator,
      FilterIterator.eq x y = true ↔ x._iterator = y._end := by
    intro x y
    simp [FilterIterator.eq, FilterIterator.ne]
  refine ⟨?_, ?_, key a a, ?_⟩
  · rw [key, hab]
  · intro h1 _
    rw [key] at h1 ⊢
    rw [← hbc]; exact h1
  · intro _
    rw [key, hab]

/-- Witness for C18 (amended): the cursors at the end and at the element of the
view over `[1]`. -/
theorem filter_eq_end_test_witness :
    (FilterIterator.eq (FilterIterator.ctor [1] (fun _ => true) 1 1)
        (FilterIterator.ctor [1] (fun _ => true) 0 1) = true
      ↔ (FilterIterator.ctor [1] (fun _ => true) 1 1)._iterator
          = (FilterIterator.ctor [1] (fun _ => true) 1 1)._end)
    ∧ (FilterIterator.eq (FilterIterator.ctor [1] (fun _ => true) 0 1)
        (FilterIterator.ctor [1] (fun _ => true) 0 1) = true
      ↔ (FilterIterator.ctor [1] (fun _ => true) 0 1)._iterator
          = (FilterIterator.ctor [1] (fun _ => true) 0 1)._end) :=
  ⟨(filter_eq_end_test (FilterIterator.ctor [1] (fun _ => true) 1 1)
      (FilterIterator.ctor [1] (fun _ => true) 0 1)
      (FilterIterator.ctor [1] (fun _ => true) 0 1) rfl rfl).1,
   (filter_eq_end_test (FilterIterator.ctor [1] (fun _ => true) 0 1)
      (FilterIterator.ctor [1] (fun _ => true) 0 1)
      (FilterIterator.ctor [1] (fun _ => true) 0 1) rfl rfl).2.2.1⟩

/-- C19 (counterexample). The Join cursor one `++` behind begin (source
position 1, delimiter turn: the delimiter after the first element) and the
cursor two `++` behind begin (source position 1, element turn: the second
element) denote different logical positions and compare equal, in both
directions. -/
theorem join_eq_ignores_turn_counterexample :
    (JoinIterator.eq
          { _iterator := 1, _delimiter := ",".toList, _isIteratorTurn := true, _distance := 3 }
          { _iterator := 1, _delimiter := ",".toList, _isIteratorTurn := false, _distance := 3 }).1
        = true
    ∧ (JoinIterator.eq
          { _iterator := 1, _delimiter := ",".toList, _isIteratorTurn := false, _distance := 3 }
          { _iterator := 1, _delimiter := ",".toList, _isIteratorTurn := true, _distance := 3 }).1
        = true
    ∧ JoinIterator.incr (JoinIterator.viewBegin ",".toList 3)
        = { _iterator := 1, _delimiter := ",".toList, _isIteratorTurn := false, _distance := 3 }
    ∧ JoinIterator.incr (JoinIterator.incr (JoinIterator.viewBegin ",".toList 3))
        = { _iterator := 1, _delimiter := ",".toList, _isIteratorTurn := true, _distance := 3 } := by
  decide

/-- C19 (amended). Two Join cursors compare equal if and only if they have the
same wrapped source position, whatever their element/delimiter turns; the
result of `==` and of `!=` depends on the two source positions only, not on
the turn, the delimiter or the distance of either cursor. -/
theorem join_eq_iff_same_source_position (a b : JoinIterator) :
    ((JoinIterator.eq a b).1 = true ↔ a._iterator = b._iterator)
    ∧ ((JoinIterator.ne a b).1 = true ↔ a._iterator ≠ b._iterator)
    ∧ (∀ a2 b2 : JoinIterator, a2._iterator = a._iterator → b2._iterator = b._iterator →
        (JoinIterator.eq a2 b2).1 = (JoinIterator.eq a b).1) := by
  refine ⟨by simp [JoinIterator.eq], by simp [JoinIterator.ne, JoinIterator.eq], ?_⟩
  intro a2 b2 ha hb
  simp [JoinIterator.eq, ha, hb]

/-- C20 (counterexample). Over a source of `2 ^ 62 + 1` elements the
difference `end - begin` is not `2 n - 1 = 2 ^ 63 + 1`, a number that
`difference_type` does not hold: the product `(_iterator - other._iterator) * 2`
overflows. -/
theorem join_difference_overflow_counterexample :
    JoinIterator.sub
        (JoinIterator.viewEnd (List.replicate (2 ^ 62 + 1) 'a') ",".toList true 0)
        (JoinIterator.viewBegin ",".toList 0) = none
    ∧ JoinIterator.sub
        (JoinIterator.viewEnd (List.replicate (2 ^ 62 + 1) 'a') ",".toList true 0)
        (JoinIterator.viewBegin ",".toList 0)
      ≠ some (2 * (((List.replicate (2 ^ 62 + 1) 'a').length : Nat) : Int) - 1) := by
  have h : JoinIterator.sub
      (JoinIterator.viewEnd (List.replicate (2 ^ 62 + 1) 'a') ",".toList true 0)
      (JoinIterator.viewBegin ",".toList 0) = none := by
    simp only [JoinIterator.viewEnd, JoinIterator.viewBegin, List.length_replicate]
    decide
  exact ⟨h, by rw [h]; exact fun hc => Option.noConfusion hc⟩

/-- C20 (amended). For every two Join cursors `a` and `b` whose source
positions differ by less than `2 ^ 62` either way, the difference `a - b` is
`2 * (a's source position - b's source position) - 1`; for every other pair
the computation overflows `difference_type`. For the end and begin cursors of
a view over `n < 2 ^ 62` source elements the difference is `2 n - 1`. -/
theorem join_difference {α : Type} (a b : JoinIterator) (xs : List α) (d : Text) (turn : Bool)
    (dist : Int) :
    JoinIterator.sub a b
        = (if -(2 ^ 62) < a._iterator - b._iterator ∧ a._iterator - b._iterator < 2 ^ 62
            then some (2 * (a._iterator - b._iterator) - 1) else none)
    ∧ (xs.length < 2 ^ 62 →
        JoinIterator.sub (JoinIterator.viewEnd xs d turn dist) (JoinIterator.viewBegin d dist)
          = some (2 * (xs.length : Int) - 1)) := by
  have hgen : ∀ a b : JoinIterator, JoinIterator.sub a b
      = (if -(2 ^ 62) < a._iterator - b._iterator ∧ a._iterator - b._iterator < 2 ^ 62
          then some (2 * (a._iterator - b._iterator) - 1) else none) := by
    intro a b
    unfold JoinIterator.sub checkedPtrdiff
    generalize a._iterator - b._iterator = t
    by_cases h1 : -(2 ^ 63) ≤ t * 2 ∧ t * 2 < 2 ^ 63
    · rw [if_pos h1, Option.some_bind]
      by_cases h2 : -(2 ^ 63) ≤ t * 2 - 1 ∧ t * 2 - 1 < 2 ^ 63
      · rw [if_pos h2, if_pos (by omega)]
        congr 1
        ring
      · rw [if_neg h2, if_neg (by omega)]
    · rw [if_neg h1, if_neg (by omega)]
      rfl
  refine ⟨hgen a b, ?_⟩
  intro hn
  rw [hgen]
  simp only [JoinIterator.viewEnd, JoinIterator.viewBegin, sub_zero]
  rw [if_pos (by omega)]

theorem join_difference_witness :
    JoinIterator.sub (JoinIterator.viewEnd [1, 2, 3] ",".toList true 5)
        (JoinIterator.viewBegin ",".toList 5)
      = some (2 * (([1, 2, 3].length : Nat) : Int) - 1) :=
  (join_difference (JoinIterator.viewBegin ",".toList 5) (JoinIterator.viewBegin ",".toList 5)
    [1, 2, 3] ",".toList true 5).2 (by decide)

/-! ## ChunkIf: proofs -/

theorem noOpenRun_append_separator {α : Type} (p : α → Bool) (tw : List α) (sep : α)
    (rest : List α) (hsep : p sep = true) :
    noOpenRun p (tw ++ sep :: rest) = noOpenRun p rest := by
  cases rest with
  | nil => simp [noOpenRun, hsep]
  | cons y r =>
    have h : (tw ++ sep :: y :: r).getLast? = (y :: r).getLast? := by
      have : tw ++ sep :: y :: r = (tw ++ [sep]) ++ (y :: r) := by simp
      rw [this, List.getLast?_append_of_ne_nil _ (by simp)]
    simp only [noOpenRun, h]

theorem noOpenRun_of_no_separator {α : Type} (p : α → Bool) (xs : List α) (hne : xs ≠ [])
    (h : ∀ x ∈ xs, p x = false) : noOpenRun p xs = false := by
  have hl : xs.getLast? = some (xs.getLast hne) := List.getLast?_eq_getLast _ hne
  simp only [noOpenRun, hl]
  exact h _ (List.getLast_mem hne)

theorem dropWhile_head_fails {α : Type} (q : α → Bool) (l : List α) (x : α) (r : List α)
    (h : l.dropWhile q = x :: r) : q x = false := by
  induction l with
  | nil => simp at h
  | cons y t ih =>
    by_cases hy : q y = true
    · rw [List.dropWhile_cons_of_pos hy] at h; exact ih h
    · rw [List.dropWhile_cons_of_neg hy] at h
      have hxy : y = x := (List.cons.inj h).1
      rw [← hxy]; simpa using hy

namespace ChunkIfIterator

theorem chunkIf_traverse_succ {α : Type} (xs : List α) (p : α → Bool)
    (last it : ChunkIfIterator) (fuel : Nat) :
    traverse xs p last (fuel + 1) it
      = if ne it last then
          match deref xs it with
          | some c => (traverse xs p last fuel (incr xs p it)).map (fun r => c :: r)
          | none => none
        else some [] := rfl

/-- From the start of a run, the traversal yields the runs of the rest `suf` of
the source: the pieces into which the elements satisfying the predicate split
`suf`, without the piece behind a final separator. -/
theorem chunkIf_traverse_suffix {α : Type} (p : α → Bool) (n : Nat) :
    ∀ (suf pre : List α), suf.length ≤ n → ∀ last : ChunkIfIterator,
      last.runStart = (pre ++ suf).length → ∀ fuel, n < fuel →
      ∃ chunks, traverse (pre ++ suf) p last fuel
            (ctor (pre ++ suf) p pre.length (pre ++ suf).length) = some chunks
        ∧ (∀ c ∈ chunks, ∀ x ∈ c, p x = false)
        ∧ suf.splitOnP p = if noOpenRun p suf then chunks ++ [[]] else chunks := by
  induction n with
  | zero =>
    intro suf pre hlen last hl fuel hf
    obtain ⟨f, rfl⟩ : ∃ f, fuel = f + 1 := ⟨fuel - 1, by omega⟩
    have hs : suf = [] := List.length_eq_zero.mp (by omega)
    subst hs
    refine ⟨[], ?_, by simp, by simp [noOpenRun]⟩
    simp [chunkIf_traverse_succ, ne, ctor, hl]
  | succ n ih =>
    intro suf pre hlen last hl fuel hf
    obtain ⟨f, rfl⟩ : ∃ f, fuel = f + 2 := ⟨fuel - 2, by omega⟩
    by_cases hs : suf = []
    · subst hs
      refine ⟨[], ?_, by simp, by simp [noOpenRun]⟩
      simp [chunkIf_traverse_succ, ne, ctor, hl]
    · have hpos : 0 < suf.length := List.length_pos.mpr hs
      have hsplit : suf.takeWhile (fun x => !p x) ++ suf.dropWhile (fun x => !p x) = suf :=
        List.takeWhile_append_dropWhile _ _
      have htw : ∀ x ∈ suf.takeWhile (fun x => !p x), p x = false := by
        intro x hx
        simpa using List.mem_takeWhile_imp hx
      have hfind := find_if_append p suf pre
      have hlenS : suf.length = (suf.takeWhile (fun x => !p x)).length
          + (suf.dropWhile (fun x => !p x)).length := by
        have := congrArg List.length hsplit
        rw [List.length_append] at this
        exact this.symm
      have hxl : (pre ++ suf).length = pre.length + suf.length := by simp
      have hne : ne (ctor (pre ++ suf) p pre.length (pre ++ suf).length) last = true := by
        simp only [ne, ctor, hl, bne_iff_ne, ne_eq]; omega
      have hderef : deref (pre ++ suf) (ctor (pre ++ suf) p pre.length (pre ++ suf).length)
          = some (suf.takeWhile (fun x => !p x)) := by
        have hc : pre.length ≤ pre.length + (suf.takeWhile (fun x => !p x)).length
            ∧ pre.length + (suf.takeWhile (fun x => !p x)).length ≤ (pre ++ suf).length := by
          constructor <;> omega
        have htake : List.take (suf.takeWhile (fun x => !p x)).length suf
            = suf.takeWhile (fun x => !p x) := by
          have := List.take_left (suf.takeWhile (fun x => !p x))
            (suf.dropWhile (fun x => !p x))
          rw [hsplit] at this
          exact this
        simp only [deref, ctor, hfind, hc, and_self, ↓reduceIte, List.drop_left,
          Nat.add_sub_cancel_left, htake]
      cases hdw : suf.dropWhile (fun x => !p x) with
      | nil =>
        have hall : suf.takeWhile (fun x => !p x) = suf := by
          rw [hdw, List.append_nil] at hsplit; exact hsplit
        have hincr : incr (pre ++ suf) p (ctor (pre ++ suf) p pre.length (pre ++ suf).length)
            = { runStart := (pre ++ suf).length, runEnd := (pre ++ suf).length,
                sourceEnd := (pre ++ suf).length } := by
          have : pre.length + (suf.takeWhile (fun x => !p x)).length = (pre ++ suf).length := by
            rw [hall]; simp
          simp only [incr, ctor, hfind, this, ↓reduceIte]
        have hnone : ∀ x ∈ suf, p x = false := by rw [← hall]; exact htw
        refine ⟨[suf], ?_, ?_, ?_⟩
        · rw [chunkIf_traverse_succ, hne, hderef, hincr, hall, chunkIf_traverse_succ]
          simp [ne, hl]
        · intro c hc x hx
          rw [List.mem_singleton] at hc
          subst hc
          exact hnone x hx
        · rw [noOpenRun_of_no_separator p suf hs hnone]
          simp only [Bool.false_eq_true, ↓reduceIte]
          exact List.splitOnP_eq_single p suf (fun x hx => by simp [hnone x hx])
      | cons sep rest =>
        have hsep : p sep = true := by
          have := dropWhile_head_fails (fun x => !p x) suf sep rest hdw
          simpa using this
        rw [hdw] at hsplit hlenS
        have hrl : rest.length ≤ n := by
          simp only [List.length_cons] at hlenS; omega
        have hxs : pre ++ suf
            = (pre ++ (suf.takeWhile (fun x => !p x) ++ [sep])) ++ rest := by
          have : pre ++ (suf.takeWhile (fun x => !p x) ++ sep :: rest)
              = (pre ++ (suf.takeWhile (fun x => !p x) ++ [sep])) ++ rest := by simp
          rw [hsplit] at this
          exact this
        have hpl : (pre ++ (suf.takeWhile (fun x => !p x) ++ [sep])).length
            = pre.length + (suf.takeWhile (fun x => !p x)).length + 1 := by
          simp; omega
        have hincr : incr (pre ++ suf) p (ctor (pre ++ suf) p pre.length (pre ++ suf).length)
            = ctor (pre ++ suf) p (pre.length + (suf.takeWhile (fun x => !p x)).length + 1)
                (pre ++ suf).length := by
          have : pre.length + (suf.takeWhile (fun x => !p x)).length ≠ (pre ++ suf).length := by
            simp only [List.length_cons] at hlenS; omega
          simp only [incr, ctor, hfind, this, ↓reduceIte]
        obtain ⟨chunks, hch, hsepfree, hspl⟩ := ih rest
          (pre ++ (suf.takeWhile (fun x => !p x) ++ [sep])) hrl last
          (by rw [← hxs]; exact hl) (f + 1) (by omega)
        rw [← hxs, hpl] at hch
        refine ⟨suf.takeWhile (fun x => !p x) :: chunks, ?_, ?_, ?_⟩
        · rw [chunkIf_traverse_succ, hne, hderef, hincr, hch]; rfl
        · intro c hc x hx
          rcases List.mem_cons.mp hc with h1 | h1
          · subst h1; exact htw x hx
          · exact hsepfree c h1 x hx
        · have h1 : suf.splitOnP p
              = suf.takeWhile (fun x => !p x) :: rest.splitOnP p := by
            have := List.splitOnP_first p (suf.takeWhile (fun x => !p x))
              (fun x hx => by simp [htw x hx]) sep hsep rest
            rw [hsplit] at this
            exact this
          have h2 : noOpenRun p suf = noOpenRun p rest := by
            have := noOpenRun_append_separator p (suf.takeWhile (fun x => !p x)) sep rest hsep
            rw [hsplit] at this
            exact this
          rw [h1, h2, hspl]
          cases noOpenRun p rest <;> simp

end ChunkIfIterator

/-- C11. For every sequence `xs` and predicate `p`, traversing the ChunkIf view
yields the chunks into which the elements satisfying `p` split `xs`, in order:
no chunk contains an element satisfying `p`, and the chunks are the pieces of
`xs.splitOnP p` (the maximal runs between separators), except that nothing
is yielded for the piece behind a separator that is the last element (nor for
the empty source). -/
theorem chunkIf_traversal {α : Type} (xs : List α) (p : α → Bool) (fuel : Nat)
    (hf : xs.length < fuel) :
    ∃ chunks, ChunkIfIterator.toList xs p fuel = some chunks
      ∧ (∀ c ∈ chunks, ∀ x ∈ c, p x = false)
      ∧ xs.splitOnP p = if noOpenRun p xs then chunks ++ [[]] else chunks := by
  have h := ChunkIfIterator.chunkIf_traverse_suffix p xs.length xs [] (le_refl _)
    (ChunkIfIterator.viewEnd ([] ++ xs) p)
    (by simp [ChunkIfIterator.viewEnd, ChunkIfIterator.ctor]) fuel hf
  simpa [ChunkIfIterator.toList, ChunkIfIterator.viewBegin] using h

/-- Witness for C11: `"hello world; this is a message;"` chunked on `';'` gives
exactly the 2 chunks `"hello world"` and `" this is a message"`. -/
theorem chunkIf_traversal_witness :
    ChunkIfIterator.toList "hello world; this is a message;".toList (fun c => c == ';') 32
        = some ["hello world".toList, " this is a message".toList]
    ∧ ∃ chunks, ChunkIfIterator.toList "hello world; this is a message;".toList
          (fun c => c == ';') 32 = some chunks
        ∧ (∀ c ∈ chunks, ∀ x ∈ c, (x == ';') = false)
        ∧ "hello world; this is a message;".toList.splitOnP (fun c => c == ';')
            = if noOpenRun (fun c => c == ';') "hello world; this is a message;".toList
              then chunks ++ [[]] else chunks :=
  ⟨by decide,
    chunkIf_traversal "hello world; this is a message;".toList (fun c => c == ';') 32
      (by decide)⟩

/-! ## GroupBy: proofs -/

namespace GroupByIterator

end GroupByIterator

/-- C30 (code evaluated at the failing input). Comparing two Join cursors changes the left
cursor. Over the source `["a", "b"]` the cursor reached from begin by one
`++` is on a delimiter turn and dereferences to the delimiter; after the
comparison `it == end` (also `it != end`) the same cursor is on an element
turn and dereferences to `"b"`. Its position and the other cursor are
unchanged. -/
theorem join_comparison_changes_turn :
    let xs : List Text := ["a".toList, "b".toList]
    let it := JoinIterator.incr (JoinIterator.viewBegin ",".toList 3)
    let last := JoinIterator.viewEnd xs ",".toList true 3
    it._isIteratorTurn = false
    ∧ JoinIterator.deref xs id it = some ",".toList
    ∧ (JoinIterator.eq it last).1 = false
    ∧ (JoinIterator.eq it last).2._isIteratorTurn = true
    ∧ (JoinIterator.ne it last).2._isIteratorTurn = true
    ∧ JoinIterator.deref xs id (JoinIterator.eq it last).2 = some "b".toList
    ∧ (JoinIterator.eq it last).2 ≠ it
    ∧ (JoinIterator.eq it last).2._iterator = it._iterator := by
  decide

namespace TakeEveryIterator

theorem takeEvery_viewBegin_eq {α : Type} (xs : List α) (s : Nat) :
    viewBegin xs s = cursorAt xs.length s 0 0 := by
  unfold viewBegin ctor cursorAt
  by_cases h : 0 = xs.length
  · simp [← h]
  · simp [h]

/-- The cursor reached from begin by `j` steps of `++`, in a source of fewer
than `2 ^ 63` elements: at index `j * s` while that is inside the source, at
the end afterwards. -/
theorem takeEvery_iterate_incr {α : Type} (xs : List α) (s : Nat) (hs : 0 < s)
    (hn : xs.length < 2 ^ 63) (hs64 : s < 2 ^ 64) (j : Nat) :
    (j * s < xs.length ∧
        Nat.iterate incr j (viewBegin xs s) = cursorAt xs.length s (j * s) (j * s))
    ∨ (xs.length ≤ j * s ∧
        (Nat.iterate incr j (viewBegin xs s))._iterator = xs.length
        ∧ (Nat.iterate incr j (viewBegin xs s))._end = xs.length
        ∧ (Nat.iterate incr j (viewBegin xs s))._offset = s
        ∧ (Nat.iterate incr j (viewBegin xs s))._distance = xs.length
        ∧ xs.length ≤ (Nat.iterate incr j (viewBegin xs s))._current + s
        ∧ (Nat.iterate incr j (viewBegin xs s))._current + s < 2 ^ 64) := by
  induction j with
  | zero =>
    rw [Function.iterate_zero, id, takeEvery_viewBegin_eq]
    by_cases h : 0 < xs.length
    · left; exact ⟨by omega, by simp⟩
    · right
      refine ⟨by omega, ?_, ?_, ?_, ?_, ?_, ?_⟩ <;> simp [cursorAt] <;> omega
  | succ j ih =>
    rw [Function.iterate_succ_apply']
    have hmul : (j + 1) * s = j * s + s := by ring
    rcases ih with ⟨hlt, hc⟩ | ⟨hge, h1, h2, h3, h4, h5, h6⟩
    · rw [hc]
      have his : j * s = 0 ∨ s ≤ j * s := by
        rcases Nat.eq_zero_or_pos j with h0 | hpos
        · left; rw [h0, Nat.zero_mul]
        · right; exact Nat.le_mul_of_pos_left s hpos
      have hstepc := takeEvery_incr_cursorAt xs.length s (j * s) hn hs64 hlt his
      by_cases hnext : j * s + s < xs.length
      · left
        refine ⟨by omega, ?_⟩
        rw [hmul, hstepc, if_neg (by omega)]
      · right
        rw [hstepc, if_pos (by omega)]
        refine ⟨by omega, rfl, rfl, rfl, rfl, ?_, ?_⟩
        · simp only [cursorAt]
          omega
        · simp only [cursorAt]
          omega
    · right
      generalize Nat.iterate incr j (viewBegin xs s) = c at h1 h2 h3 h4 h5 h6
      have hinc : incr c = { c with _iterator := c._end } := by
        unfold incr
        have hsum : (c._current + c._offset) % 2 ^ 64 = c._current + c._offset :=
          Nat.mod_eq_of_lt (by omega)
        simp only [hsum, ge_iff_le]
        rw [if_pos (by omega)]
      rw [hinc]
      exact ⟨by omega, h2, h2, h3, h4, h5, h6⟩

/-- Position of the cursor reached from begin by `j` steps of `++`. -/
theorem takeEvery_iterate_position {α : Type} (xs : List α) (s : Nat) (hs : 0 < s)
    (hn : xs.length < 2 ^ 63) (hs64 : s < 2 ^ 64) (j : Nat) :
    (Nat.iterate incr j (viewBegin xs s))._iterator =
      if j * s < xs.length then j * s else xs.length := by
  rcases takeEvery_iterate_incr xs s hs hn hs64 j with ⟨hlt, hc⟩ | ⟨hge, h1, _⟩
  · rw [hc, if_pos hlt]; rfl
  · rw [h1, if_neg (by omega)]

/-- Position of `c + k` for a cursor inside its source, when the product
`k * _offset` fits `difference_type`. -/
theorem takeEvery_add_position (c : TakeEveryIterator) (k : Nat) (hi : c._iterator ≤ c._end)
    (hk : k * c._offset < 2 ^ 63) :
    ∃ r : TakeEveryIterator, add c k = some r
      ∧ r._iterator =
        if k * c._offset < c._end - c._iterator then c._iterator + k * c._offset
        else c._end := by
  have hprod : toPtrdiffT c._offset * (k : Int) = ((k * c._offset : Nat) : Int) := by
    rcases Nat.eq_zero_or_pos k with h0 | hpos
    · subst h0; simp
    · have hle : c._offset ≤ k * c._offset := Nat.le_mul_of_pos_left _ hpos
      rw [toPtrdiffT_of_lt _ (by omega)]
      push_cast
      ring
  unfold add
  simp only [hprod, ge_iff_le]
  generalize k * c._offset = m at hk
  rw [if_neg (by omega)]
  by_cases h : m < c._end - c._iterator
  · rw [if_pos h, if_neg (by omega), if_neg (by omega)]
    refine ⟨_, rfl, ?_⟩
    simp only [ctor]
    omega
  · rw [if_neg h, if_pos (by omega)]
    exact ⟨_, rfl, rfl⟩

end TakeEveryIterator

/-- C23 (counterexample). Over `[1, 2, 3]` with stride 2 and `k = 2 ^ 62`
the product `_offset * offset = 2 ^ 63` overflows `difference_type`, and
`begin + k` has no defined value, while `k` steps of `++` from begin are at
the end. -/
theorem takeEvery_add_overflow_counterexample :
    TakeEveryIterator.add (TakeEveryIterator.viewBegin [1, 2, 3] 2) (2 ^ 62) = none
    ∧ (Nat.iterate TakeEveryIterator.incr (2 ^ 62)
        (TakeEveryIterator.viewBegin [1, 2, 3] 2))._iterator = [1, 2, 3].length
    ∧ ¬ (2 ^ 62 * 2 < [1, 2, 3].length - (TakeEveryIterator.viewBegin [1, 2, 3] 2)._iterator) := by
  refine ⟨by decide, ?_, by decide⟩
  rw [TakeEveryIterator.takeEvery_iterate_position [1, 2, 3] 2 (by decide) (by decide)
    (by decide) (2 ^ 62), if_neg (by decide)]

/-- C23 (amended). Over a source of length `n < 2 ^ 63` with stride `s > 0`,
for a cursor `c` at source index `i ≤ n` and every `k ≥ 0` whose product
`k * s` fits `difference_type`, `c + k` is at index `i + k * s` when
`k * s < n - i` and at the end otherwise; for a cursor `c` reached from begin
by `++` steps this is the position that `k` further `++` steps reach, so the
two cursors compare equal. -/
theorem takeEvery_add_matches_steps {α : Type} (xs : List α) (s k : Nat) (hs : 0 < s)
    (hn : xs.length < 2 ^ 63) (hs64 : s < 2 ^ 64) (hk : k * s < 2 ^ 63) :
    (∀ c : TakeEveryIterator, c._end = xs.length → c._offset = s → c._iterator ≤ xs.length →
        ∃ r : TakeEveryIterator, TakeEveryIterator.add c k = some r
          ∧ r._iterator =
            if k * s < xs.length - c._iterator then c._iterator + k * s else xs.length)
    ∧ (∀ j : Nat, ∃ r : TakeEveryIterator,
        TakeEveryIterator.add
            (Nat.iterate TakeEveryIterator.incr j (TakeEveryIterator.viewBegin xs s)) k = some r
        ∧ r._iterator
          = (Nat.iterate TakeEveryIterator.incr k
              (Nat.iterate TakeEveryIterator.incr j (TakeEveryIterator.viewBegin xs s)))._iterator
        ∧ TakeEveryIterator.eq r
            (Nat.iterate TakeEveryIterator.incr k
              (Nat.iterate TakeEveryIterator.incr j (TakeEveryIterator.viewBegin xs s)))
          = true) := by
  have hgen : ∀ c : TakeEveryIterator, c._end = xs.length → c._offset = s →
      c._iterator ≤ xs.length →
      ∃ r : TakeEveryIterator, TakeEveryIterator.add c k = some r
        ∧ r._iterator =
          if k * s < xs.length - c._iterator then c._iterator + k * s else xs.length := by
    intro c he ho hi
    have h := TakeEveryIterator.takeEvery_add_position c k (by omega) (by rw [ho]; exact hk)
    rw [he, ho] at h
    exact h
  refine ⟨hgen, fun j => ?_⟩
  have hmul : (k + j) * s = j * s + k * s := by ring
  have hsteps := TakeEveryIterator.takeEvery_iterate_position xs s hs hn hs64 (k + j)
  rw [Function.iterate_add_apply] at hsteps
  rcases TakeEveryIterator.takeEvery_iterate_incr xs s hs hn hs64 j with
    ⟨hlt, hc⟩ | ⟨hge, h1, h2, h3, _⟩
  · obtain ⟨r, hr, hpos⟩ := hgen (TakeEveryIterator.cursorAt xs.length s (j * s) (j * s)) rfl rfl
      (by simp only [TakeEveryIterator.cursorAt]; omega)
    rw [hc] at hsteps ⊢
    have hpos2 : r._iterator
        = (Nat.iterate TakeEveryIterator.incr k
            (TakeEveryIterator.cursorAt xs.length s (j * s) (j * s)))._iterator := by
      rw [hpos, hsteps]
      simp only [TakeEveryIterator.cursorAt]
      by_cases h : k * s < xs.length - j * s
      · rw [if_pos h, if_pos (by omega), hmul]
      · rw [if_neg h, if_neg (by omega)]
    exact ⟨r, hr, hpos2, by simp [TakeEveryIterator.eq, TakeEveryIterator.ne, hpos2]⟩
  · obtain ⟨r, hr, hpos⟩ := hgen _ h2 h3 (by omega)
    have hpos2 : r._iterator
        = (Nat.iterate TakeEveryIterator.incr k
            (Nat.iterate TakeEveryIterator.incr j
              (TakeEveryIterator.viewBegin xs s)))._iterator := by
      rw [hpos, hsteps, h1, if_neg (by omega), if_neg (by omega)]
    exact ⟨r, hr, hpos2, by simp [TakeEveryIterator.eq, TakeEveryIterator.ne, hpos2]⟩

theorem takeEvery_add_matches_steps_witness :
    (∀ c : TakeEveryIterator, c._end = [1, 2, 3, 4, 5].length → c._offset = 2 →
        c._iterator ≤ [1, 2, 3, 4, 5].length →
        ∃ r : TakeEveryIterator, TakeEveryIterator.add c (2 : Nat) = some r
          ∧ r._iterator =
            if 2 * 2 < [1, 2, 3, 4, 5].length - c._iterator then c._iterator + 2 * 2
            else [1, 2, 3, 4, 5].length)
    ∧ (∀ j : Nat, ∃ r : TakeEveryIterator,
        TakeEveryIterator.add
            (Nat.iterate TakeEveryIterator.incr j
              (TakeEveryIterator.viewBegin [1, 2, 3, 4, 5] 2)) (2 : Nat) = some r
        ∧ r._iterator
          = (Nat.iterate TakeEveryIterator.incr 2
              (Nat.iterate TakeEveryIterator.incr j
                (TakeEveryIterator.viewBegin [1, 2, 3, 4, 5] 2)))._iterator
        ∧ TakeEveryIterator.eq r
            (Nat.iterate TakeEveryIterator.incr 2
              (Nat.iterate TakeEveryIterator.incr j
                (TakeEveryIterator.viewBegin [1, 2, 3, 4, 5] 2)))
          = true) :=
  takeEvery_add_matches_steps [1, 2, 3, 4, 5] 2 2 (by decide) (by decide) (by decide)
    (by decide)

/-! ## Repeat: proofs -/

namespace RepeatIterator

theorem repeat_incr_finite {α : Type} (h : RepeatIteratorHelper α) (hfin : h.isWhileTrueLoop = false)
    (k : Nat) (hk : k + 1 < 2 ^ 64) :
    incr h { _iterator := k } = { _iterator := k + 1 } := by
  unfold incr toSizeT
  rw [hfin]
  simp only [Bool.not_false, if_true]
  congr 1
  omega

theorem repeat_iterate_incr {α : Type} (h : RepeatIteratorHelper α)
    (hfin : h.isWhileTrueLoop = false) (k : Nat) (hk : k < 2 ^ 64) :
    Nat.iterate (incr h) k { _iterator := 0 } = { _iterator := k } := by
  induction k with
  | zero => rfl
  | succ k ih =>
    rw [Function.iterate_succ_apply', ih (by omega), repeat_incr_finite h hfin k hk]

theorem repeat_traverse_from {α : Type} (h : RepeatIteratorHelper α)
    (hfin : h.isWhileTrueLoop = false) (n : Nat) (hn : n < 2 ^ 64) :
    ∀ (m k fuel : Nat), k + m = n → m < fuel →
      traverse h { _iterator := n } fuel { _iterator := k } = some (List.replicate m h.toRepeat) := by
  intro m
  induction m with
  | zero =>
    intro k fuel hk hf
    obtain ⟨f, rfl⟩ : ∃ f, fuel = f + 1 := ⟨fuel - 1, by omega⟩
    have : k = n := by omega
    subst this
    simp [traverse, ne]
  | succ m ih =>
    intro k fuel hk hf
    obtain ⟨f, rfl⟩ : ∃ f, fuel = f + 1 := ⟨fuel - 1, by omega⟩
    have hne : ne { _iterator := k } { _iterator := n } = true := by
      simp [ne]; omega
    simp only [traverse, hne, if_true]
    rw [repeat_incr_finite h hfin k (by omega), ih (k + 1) f (by omega) (by omega)]
    simp [deref, List.replicate_succ]

theorem repeat_run_unbounded {α : Type} (h : RepeatIteratorHelper α)
    (hinf : h.isWhileTrueLoop = true) (steps : List RepeatStep) :
    ∀ it : RepeatIterator, run h it steps = it := by
  induction steps with
  | nil => intro it; rfl
  | cons s rest ih =>
    intro it
    have hstep : step h it s = it := by
      cases s <;> simp [step, incr, decr, addAssign, subAssign, hinf]
    show run h (step h it s) rest = it
    rw [hstep, ih]

end RepeatIterator

/-- C24 (counterexample). For the finite Repeat with begin at counter `0`
and end at counter `n = 2 ^ 63`, a value of `std::size_t`, the difference
`end - begin` is `-2 ^ 63`, not `n`. -/
theorem repeat_difference_counterexample :
    RepeatIterator.sub { _iterator := 2 ^ 63 } { _iterator := 0 } = -(2 ^ 63 : Int)
    ∧ RepeatIterator.sub { _iterator := 2 ^ 63 } { _iterator := 0 } ≠ ((2 ^ 63 : Nat) : Int) := by
  decide

/-- C24 (amended). For a finite Repeat of the value `v` (`isWhileTrueLoop`
is false) with begin at counter `0` and end at counter `n`, a value of
`std::size_t`: begin differs from end after fewer than `n` advances and
equals it after `n`, every dereference on the way yields `v`, the traversal
yields `n` copies of `v`, and `end - begin` is `n` when `n < 2 ^ 63`, the
range of `difference_type`, and `n - 2 ^ 64` otherwise. -/
theorem repeat_finite_traversal {α : Type} (h : RepeatIteratorHelper α) (n : Nat)
    (hfin : h.isWhileTrueLoop = false) (hn : n < 2 ^ 64) :
    (∀ k : Nat, k < n →
        RepeatIterator.ne (Nat.iterate (RepeatIterator.incr h) k { _iterator := 0 })
          { _iterator := n } = true
        ∧ RepeatIterator.deref h (Nat.iterate (RepeatIterator.incr h) k { _iterator := 0 })
          = h.toRepeat)
    ∧ RepeatIterator.eq (Nat.iterate (RepeatIterator.incr h) n { _iterator := 0 })
        { _iterator := n } = true
    ∧ (∀ fuel : Nat, n < fuel →
        RepeatIterator.traverse h { _iterator := n } fuel { _iterator := 0 }
          = some (List.replicate n h.toRepeat))
    ∧ (n < 2 ^ 63 → RepeatIterator.sub { _iterator := n } { _iterator := 0 } = (n : Int))
    ∧ (2 ^ 63 ≤ n →
        RepeatIterator.sub { _iterator := n } { _iterator := 0 } = (n : Int) - 2 ^ 64) := by
  refine ⟨?_, ?_, ?_, ?_, ?_⟩
  · intro k hk
    rw [RepeatIterator.repeat_iterate_incr h hfin k (by omega)]
    refine ⟨?_, rfl⟩
    simp [RepeatIterator.ne]; omega
  · rw [RepeatIterator.repeat_iterate_incr h hfin n hn]
    simp [RepeatIterator.eq, RepeatIterator.ne]
  · intro fuel hf
    exact RepeatIterator.repeat_traverse_from h hfin n hn n 0 fuel (by omega) hf
  · intro h63
    simp only [RepeatIterator.sub, subSizeT, toPtrdiffT, Nat.zero_le, if_true, Nat.sub_zero]
    rw [Nat.mod_eq_of_lt hn, if_pos h63]
  · intro h63
    simp only [RepeatIterator.sub, subSizeT, toPtrdiffT, Nat.zero_le, if_true, Nat.sub_zero]
    rw [Nat.mod_eq_of_lt hn, if_neg (by omega)]

theorem repeat_finite_traversal_witness :
    (∀ k : Nat, k < 3 →
        RepeatIterator.ne
          (Nat.iterate (RepeatIterator.incr (RepeatIteratorHelper.mk 'x' false)) k
            { _iterator := 0 })
          { _iterator := 3 } = true
        ∧ RepeatIterator.deref (RepeatIteratorHelper.mk 'x' false)
          (Nat.iterate (RepeatIterator.incr (RepeatIteratorHelper.mk 'x' false)) k
            { _iterator := 0 })
          = (RepeatIteratorHelper.mk 'x' false).toRepeat)
    ∧ RepeatIterator.eq
        (Nat.iterate (RepeatIterator.incr (RepeatIteratorHelper.mk 'x' false)) 3
          { _iterator := 0 })
        { _iterator := 3 } = true
    ∧ (∀ fuel : Nat, 3 < fuel →
        RepeatIterator.traverse (RepeatIteratorHelper.mk 'x' false) { _iterator := 3 } fuel
          { _iterator := 0 }
          = some (List.replicate 3 (RepeatIteratorHelper.mk 'x' false).toRepeat))
    ∧ (3 < 2 ^ 63 → RepeatIterator.sub { _iterator := 3 } { _iterator := 0 } = ((3 : Nat) : Int))
    ∧ (2 ^ 63 ≤ 3 →
        RepeatIterator.sub { _iterator := 3 } { _iterator := 0 } = ((3 : Nat) : Int) - 2 ^ 64) :=
  repeat_finite_traversal (RepeatIteratorHelper.mk 'x' false) 3 rfl (by decide)

/-- C25. For an unbounded Repeat (`isWhileTrueLoop` is true) no sequence of
`++`, `--`, `+=` and `-=` changes the counter of a cursor, so a cursor that
differs from the end cursor still differs from it after any such sequence,
and every dereference yields the repeated value. -/
theorem repeat_unbounded_never_ends {α : Type} (h : RepeatIteratorHelper α)
    (hinf : h.isWhileTrueLoop = true) (it last : RepeatIterator) (steps : List RepeatStep) :
    (RepeatIterator.run h it steps)._iterator = it._iterator
    ∧ (RepeatIterator.ne it last = true →
        RepeatIterator.ne (RepeatIterator.run h it steps) last = true)
    ∧ RepeatIterator.deref h (RepeatIterator.run h it steps) = h.toRepeat := by
  rw [RepeatIterator.repeat_run_unbounded h hinf steps it]
  exact ⟨rfl, fun hne => hne, rfl⟩

theorem repeat_unbounded_never_ends_witness :
    (RepeatIterator.run (RepeatIteratorHelper.mk 'x' true) { _iterator := 0 }
        [RepeatStep.incr, RepeatStep.addAssign 5, RepeatStep.decr,
          RepeatStep.subAssign 2])._iterator
      = (RepeatIterator.mk 0)._iterator
    ∧ (RepeatIterator.ne { _iterator := 0 } { _iterator := 4 } = true →
        RepeatIterator.ne
          (RepeatIterator.run (RepeatIteratorHelper.mk 'x' true) { _iterator := 0 }
            [RepeatStep.incr, RepeatStep.addAssign 5, RepeatStep.decr, RepeatStep.subAssign 2])
          { _iterator := 4 } = true)
    ∧ RepeatIterator.deref (RepeatIteratorHelper.mk 'x' true)
        (RepeatIterator.run (RepeatIteratorHelper.mk 'x' true) { _iterator := 0 }
          [RepeatStep.incr, RepeatStep.addAssign 5, RepeatStep.decr, RepeatStep.subAssign 2])
      = (RepeatIteratorHelper.mk 'x' true).toRepeat :=
  repeat_unbounded_never_ends (RepeatIteratorHelper.mk 'x' true) rfl { _iterator := 0 }
    { _iterator := 4 }
    [RepeatStep.incr, RepeatStep.addAssign 5, RepeatStep.decr, RepeatStep.subAssign 2]

/-! ## Filter: the calls of the predicate -/

theorem find_ifLoopLog_fst {α : Type} (xs : List α) (p : α → Bool) (m first : Nat) :
    (find_ifLoopLog xs p m first).1 = find_ifLoop xs p m first := by
  induction m generalizing first with
  | zero => rfl
  | succ m ih =>
    unfold find_ifLoopLog find_ifLoop
    cases hx : xs[first]? with
    | none => rfl
    | some x =>
      by_cases hp : p x = true
      · simp [hp]
      · simp [hp, ih]

theorem find_ifLoopLog_snd {α : Type} (xs : List α) (p : α → Bool) (m first : Nat)
    (hm : first + m = xs.length) :
    first ≤ find_ifLoop xs p m first ∧ find_ifLoop xs p m first ≤ xs.length
    ∧ (find_ifLoopLog xs p m first).2
        = List.range' first (min (find_ifLoop xs p m first + 1) xs.length - first) := by
  induction m generalizing first with
  | zero =>
    simp only [find_ifLoop, find_ifLoopLog]
    refine ⟨le_refl _, by omega, ?_⟩
    have : min (first + 1) xs.length - first = 0 := by omega
    rw [this]; rfl
  | succ m ih =>
    have hlt : first < xs.length := by omega
    have hx : xs[first]? = some xs[first] := List.getElem?_eq_getElem hlt
    unfold find_ifLoopLog find_ifLoop
    rw [hx]
    by_cases hp : p xs[first] = true
    · simp only [hp, if_true]
      refine ⟨le_refl _, by omega, ?_⟩
      have : min (first + 1) xs.length - first = 1 := by omega
      rw [this]; rfl
    · simp only [hp, Bool.false_eq_true, if_false]
      obtain ⟨h1, h2, h3⟩ := ih (first + 1) (by omega)
      refine ⟨by omega, h2, ?_⟩
      rw [h3]
      have : min (find_ifLoop xs p m (first + 1) + 1) xs.length - first
          = (min (find_ifLoop xs p m (first + 1) + 1) xs.length - (first + 1)) + 1 := by omega
      rw [this, List.range'_succ]

theorem range'_glue (i j n : Nat) (h1 : i ≤ j) (h2 : j ≤ n) :
    List.range' i (min (j + 1) n - i) ++ List.range' (j + 1) (n - (j + 1))
      = List.range' i (n - i) := by
  by_cases h : j < n
  · have e1 : min (j + 1) n - i = j + 1 - i := by omega
    have e2 : j + 1 = i + (j + 1 - i) := by omega
    have e3 : n - i = (n - (j + 1)) + (j + 1 - i) := by omega
    rw [e1, e3]
    nth_rewrite 2 [e2]
    rw [List.range'_append_1]
  · have e1 : n - (j + 1) = 0 := by omega
    have e2 : min (j + 1) n - i = n - i := by omega
    rw [e1, e2]; simp

namespace FilterIterator

theorem filter_toList_eq {α : Type} (xs : List α) (p : α → Bool) (fuel : Nat)
    (hf : xs.length < fuel) : toList xs p fuel = some (xs.filter p) := by
  have h := filter_traverse_suffix p xs []
    (ctor ([] ++ xs) p ([] ++ xs).length ([] ++ xs).length) (by simp [ctor]) fuel hf
  simpa [toList, ctor] using h

theorem filter_incrLog_fst {α : Type} (xs : List α) (p : α → Bool) (it : FilterIterator) :
    (incrLog xs p it).1 = incr xs p it := by
  unfold incrLog incr
  by_cases h : it._iterator ≠ it._end
  · rw [if_pos h, if_pos h]
    simp only [find_ifLog, find_ifLoopLog_fst, find_if]
  · rw [if_neg h, if_neg h]

theorem filter_traverseLog_fst {α : Type} (xs : List α) (p : α → Bool) (last : FilterIterator)
    (fuel : Nat) :
    ∀ it : FilterIterator, (traverseLog xs p last fuel it).map Prod.fst = traverse xs p last fuel it := by
  induction fuel with
  | zero => intro it; rfl
  | succ f ih =>
    intro it
    unfold traverseLog traverse
    by_cases hne : ne it last = true
    · simp only [hne, if_true]
      cases hd : deref xs it with
      | none => rfl
      | some x =>
        simp only [Option.map_map]
        rw [← filter_incrLog_fst, ← ih]
        simp only [Option.map_map]
        rfl
    · simp only [hne, Bool.false_eq_true, if_false, Option.map_some']

theorem filter_traverseLog_snd {α : Type} (xs : List α) (p : α → Bool) (last : FilterIterator)
    (hlast : last._end = xs.length) (fuel : Nat) :
    ∀ (it : FilterIterator) (r : List α × List Nat), it._end = xs.length →
      it._iterator ≤ xs.length → traverseLog xs p last fuel it = some r →
      r.2 = List.range' (it._iterator + 1) (xs.length - (it._iterator + 1)) := by
  induction fuel with
  | zero => intro it r _ _ h; simp [traverseLog] at h
  | succ f ih =>
    intro it r hend hle h
    unfold traverseLog at h
    by_cases hne : it._iterator = xs.length
    · have : ne it last = false := by simp [ne, hlast, hne]
      simp only [this, Bool.false_eq_true, if_false, Option.some.injEq] at h
      subst h
      have : xs.length - (it._iterator + 1) = 0 := by omega
      rw [this]; rfl
    · have hn : ne it last = true := by simp [ne, hlast, hne]
      have hlt : it._iterator < xs.length := by omega
      have hd : deref xs it = some xs[it._iterator] := List.getElem?_eq_getElem hlt
      simp only [hn, if_true, hd] at h
      have hinc : incrLog xs p it =
          ({ it with _iterator := (find_ifLog xs p (it._iterator + 1) it._end).1 },
            (find_ifLog xs p (it._iterator + 1) it._end).2) := by
        unfold incrLog
        rw [if_pos (by rw [hend]; exact hne)]
      rw [hinc] at h
      obtain ⟨h1, h2, h3⟩ := find_ifLoopLog_snd xs p (xs.length - (it._iterator + 1))
        (it._iterator + 1) (by omega)
      have hfst : (find_ifLog xs p (it._iterator + 1) it._end).1
          = find_ifLoop xs p (xs.length - (it._iterator + 1)) (it._iterator + 1) := by
        rw [find_ifLog, hend, find_ifLoopLog_fst]
      have hsnd : (find_ifLog xs p (it._iterator + 1) it._end).2
          = List.range' (it._iterator + 1)
              (min (find_ifLoop xs p (xs.length - (it._iterator + 1)) (it._iterator + 1) + 1)
                xs.length - (it._iterator + 1)) := by
        rw [find_ifLog, hend, h3]
      rw [hfst, hsnd] at h
      generalize find_ifLoop xs p (xs.length - (it._iterator + 1)) (it._iterator + 1) = j
        at h h1 h2
      cases hrec : traverseLog xs p last f { it with _iterator := j } with
      | none => rw [hrec] at h; simp at h
      | some r2 =>
        rw [hrec] at h
        simp only [Option.map_some', Option.some.injEq] at h
        have ih2 := ih { it with _iterator := j } r2 hend h2 hrec
        subst h
        simp only at ih2 ⊢
        rw [ih2]
        exact range'_glue (it._iterator + 1) j xs.length h1 h2

end FilterIterator

/-- C29. For a source of length `n` and a predicate `p`, constructing the
Filter begin cursor (and the end cursor) and advancing begin to end calls
`p` exactly `n` times, once on each source element in source order: the
record of the calls is `[0, 1, ..., n - 1]`, whatever the yielded elements
`xs.filter p` are. -/
theorem filter_predicate_calls {α : Type} (xs : List α) (p : α → Bool) :
    ∀ fuel : Nat, xs.length < fuel →
      FilterIterator.toListLog xs p fuel = some (xs.filter p, List.range xs.length)
      ∧ ((FilterIterator.toListLog xs p fuel).map (fun r => r.2.length)) = some xs.length := by
  intro fuel hf
  have hmain : FilterIterator.toListLog xs p fuel = some (xs.filter p, List.range xs.length) := by
    have hplain := FilterIterator.filter_toList_eq xs p fuel hf
    unfold FilterIterator.toList at hplain
    unfold FilterIterator.toListLog
    have hb : (FilterIterator.ctorLog xs p 0 xs.length).1 = FilterIterator.ctor xs p 0 xs.length := by
      simp [FilterIterator.ctorLog, FilterIterator.ctor, find_ifLog, find_if, find_ifLoopLog_fst]
    have he : (FilterIterator.ctorLog xs p xs.length xs.length).1
        = FilterIterator.ctor xs p xs.length xs.length := by
      simp [FilterIterator.ctorLog, FilterIterator.ctor, find_ifLog, find_if, find_ifLoopLog_fst]
    have he2 : (FilterIterator.ctorLog xs p xs.length xs.length).2 = [] := by
      simp [FilterIterator.ctorLog, find_ifLog, find_ifLoopLog]
    obtain ⟨h1, h2, h3⟩ := find_ifLoopLog_snd xs p xs.length 0 (by omega)
    have hb2 : (FilterIterator.ctorLog xs p 0 xs.length).2
        = List.range' 0 (min (find_ifLoop xs p xs.length 0 + 1) xs.length) := by
      simp only [FilterIterator.ctorLog, find_ifLog, Nat.sub_zero, h3]
    have hbi : (FilterIterator.ctor xs p 0 xs.length)._iterator = find_ifLoop xs p xs.length 0 := by
      simp [FilterIterator.ctor, find_if]
    show Option.map
        (fun r : List α × List Nat =>
          (r.1, (FilterIterator.ctorLog xs p 0 xs.length).2
            ++ (FilterIterator.ctorLog xs p xs.length xs.length).2 ++ r.2))
        (FilterIterator.traverseLog xs p (FilterIterator.ctorLog xs p xs.length xs.length).1 fuel
          (FilterIterator.ctorLog xs p 0 xs.length).1)
      = some (xs.filter p, List.range xs.length)
    rw [hb, he, he2, hb2]
    have hfst := FilterIterator.filter_traverseLog_fst xs p
      (FilterIterator.ctor xs p xs.length xs.length) fuel (FilterIterator.ctor xs p 0 xs.length)
    rw [hplain] at hfst
    cases hrec : FilterIterator.traverseLog xs p (FilterIterator.ctor xs p xs.length xs.length)
        fuel (FilterIterator.ctor xs p 0 xs.length) with
    | none => rw [hrec] at hfst; simp at hfst
    | some r =>
      rw [hrec] at hfst
      simp only [Option.map_some', Option.some.injEq] at hfst
      have hsnd := FilterIterator.filter_traverseLog_snd xs p
        (FilterIterator.ctor xs p xs.length xs.length) (by simp [FilterIterator.ctor]) fuel
        (FilterIterator.ctor xs p 0 xs.length) r (by simp [FilterIterator.ctor])
        (by rw [hbi]; exact h2) hrec
      rw [hbi] at hsnd
      simp only [Option.map_some', Option.some.injEq, List.append_nil]
      rw [hsnd, hfst]
      generalize find_ifLoop xs p xs.length 0 = j at h2
      have hg := range'_glue 0 j xs.length (Nat.zero_le j) h2
      simp only [Nat.sub_zero] at hg
      rw [hg, List.range_eq_range']
  exact ⟨hmain, by rw [hmain]; simp⟩

theorem filter_predicate_calls_witness :
    FilterIterator.toListLog [1, 2, 3, 4, 5, 6] (fun n => n % 2 == 0) 7
        = some ([1, 2, 3, 4, 5, 6].filter (fun n => n % 2 == 0), List.range [1, 2, 3, 4, 5, 6].length)
      ∧ ((FilterIterator.toListLog [1, 2, 3, 4, 5, 6] (fun n => n % 2 == 0) 7).map
          (fun r => r.2.length)) = some [1, 2, 3, 4, 5, 6].length :=
  filter_predicate_calls [1, 2, 3, 4, 5, 6] (fun n => n % 2 == 0) 7 (by decide)

/-! ## filterMap: proofs -/

namespace MapIterator

theorem map_traverse_eq {α β : Type} (xs : List α) (p : α → Bool) (f : α → β)
    (last : MapIterator) (fuel : Nat) :
    ∀ it : MapIterator, traverse xs p f last fuel it
      = (FilterIterator.traverse xs p last._iterator fuel it._iterator).map (List.map f) := by
  induction fuel with
  | zero => intro it; rfl
  | succ n ih =>
    intro it
    unfold traverse FilterIterator.traverse
    by_cases hne : FilterIterator.ne it._iterator last._iterator = true
    · have hne2 : ne it last = true := hne
      simp only [hne, hne2, if_true, deref]
      cases hd : FilterIterator.deref xs it._iterator with
      | none => rfl
      | some x =>
        simp only [Option.map_some']
        rw [ih]
        simp only [incr, Option.map_map]
        rfl
    · have hne2 : ¬ ne it last = true := hne
      simp only [hne, hne2, Bool.false_eq_true, if_false, Option.map_some', List.map_nil]

end MapIterator

/-- C27. For every source `xs`, predicate `p` and function `f`, the view
`filterMap(p, f)`, a Map over the Filter of the source, yields `f x` for
exactly the elements `x` of `xs` that satisfy `p`, in source order; for
`"123,d35dd"` with `p = isdigit` and `f` the digit value it yields
`[1, 2, 3, 3, 5]`. -/
theorem filterMap_yields_mapped_filter :
    (∀ (α β : Type) (xs : List α) (p : α → Bool) (f : α → β) (fuel : Nat), xs.length < fuel →
      IterView.filterMap xs p f fuel = some ((xs.filter p).map f))
    ∧ IterView.filterMap "123,d35dd".toList exampleIsDigit exampleDigitValue 10
        = some [1, 2, 3, 3, 5] := by
  have h : ∀ (α β : Type) (xs : List α) (p : α → Bool) (f : α → β) (fuel : Nat),
      xs.length < fuel → IterView.filterMap xs p f fuel = some ((xs.filter p).map f) := by
    intro α β xs p f fuel hf
    have hplain := FilterIterator.filter_toList_eq xs p fuel hf
    unfold FilterIterator.toList at hplain
    unfold IterView.filterMap
    rw [MapIterator.map_traverse_eq, hplain]
    rfl
  refine ⟨h, ?_⟩
  rw [h Char Int _ _ _ 10 (by decide)]
  decide

theorem filterMap_yields_mapped_filter_witness :
    IterView.filterMap [1, 2, 3, 4] (fun n => n % 2 == 0) (fun n => n * 10) 5
      = some (([1, 2, 3, 4].filter (fun n => n % 2 == 0)).map (fun n => n * 10)) :=
  filterMap_yields_mapped_filter.1 Nat Nat [1, 2, 3, 4] (fun n => n % 2 == 0) (fun n => n * 10) 5
    (by decide)

/-! ## Pairwise: proofs -/

namespace ZipIterator

theorem zip_traverse_suffix {α : Type} (suf pre : List α) (fuel : Nat) (hf : suf.length < fuel) :
    traverse (pre ++ suf) { _first := (pre ++ suf).length, _second := (pre ++ suf).length } fuel
        { _first := pre.length, _second := pre.length + 1 }
      = some (suf.zip suf.tail) := by
  induction suf generalizing pre fuel with
  | nil =>
    cases fuel with
    | zero => simp at hf
    | succ n => simp [traverse, ne]
  | cons x t ih =>
    cases fuel with
    | zero => simp at hf
    | succ n =>
      cases t with
      | nil => simp [traverse, ne]
      | cons y t2 =>
        have hne : ne { _first := pre.length, _second := pre.length + 1 }
            { _first := (pre ++ x :: y :: t2).length, _second := (pre ++ x :: y :: t2).length }
            = true := by
          simp [ne]
        have h1 : (pre ++ x :: y :: t2)[pre.length]? = some x := getElem?_append_cons pre x _
        have h2 : (pre ++ x :: y :: t2)[pre.length + 1]? = some y := by
          have := getElem?_append_cons (pre ++ [x]) y t2
          simpa using this
        have hd : deref (pre ++ x :: y :: t2) { _first := pre.length, _second := pre.length + 1 }
            = some (x, y) := by
          simp only [deref, h1, h2]
        have ih2 := ih (pre ++ [x]) n (by simp at hf ⊢; omega)
        have hxs : (pre ++ [x]) ++ y :: t2 = pre ++ x :: y :: t2 := by simp
        have hlen : (pre ++ [x]).length = pre.length + 1 := by simp
        rw [hxs, hlen] at ih2
        unfold traverse
        rw [if_pos hne, hd]
        simp only [incr]
        rw [ih2]
        simp

end ZipIterator

/-- C26. For every sequence `e[0..n-1]` the view `pairwise()` yields exactly
the `max(0, n - 1)` overlapping tuples `(e[i], e[i+1])` for `i = 0..n-2`, in
order; for `[1, 2, 3, 4]` this is `[(1, 2), (2, 3), (3, 4)]`. -/
theorem pairwise_yields_overlapping_pairs :
    (∀ (α : Type) (xs : List α) (fuel : Nat), xs.length < fuel →
      ∃ ys : List (α × α), IterView.pairwise xs fuel = some ys
        ∧ ys.length = xs.length - 1
        ∧ ∀ (i : Nat) (a b : α), xs[i]? = some a → xs[i + 1]? = some b → ys[i]? = some (a, b))
    ∧ IterView.pairwise [1, 2, 3, 4] 5 = some [(1, 2), (2, 3), (3, 4)] := by
  refine ⟨?_, by decide⟩
  intro α xs fuel hf
  have h := ZipIterator.zip_traverse_suffix xs [] fuel hf
  simp only [List.nil_append, List.length_nil, Nat.zero_add] at h
  refine ⟨xs.zip xs.tail, h, ?_, ?_⟩
  · simp only [List.length_zip, List.length_tail]
    omega
  · intro i a b ha hb
    rw [List.getElem?_zip_eq_some]
    refine ⟨ha, ?_⟩
    rw [List.getElem?_tail]
    exact hb

theorem pairwise_yields_overlapping_pairs_witness :
    ∃ ys : List (Nat × Nat), IterView.pairwise [1, 2, 3] 4 = some ys
      ∧ ys.length = [1, 2, 3].length - 1
      ∧ ∀ (i : Nat) (a b : Nat), [1, 2, 3][i]? = some a → [1, 2, 3][i + 1]? = some b →
          ys[i]? = some (a, b) :=
  pairwise_yields_overlapping_pairs.1 Nat [1, 2, 3] 4 (by decide)

/-! ## The earlier splitter: evaluation -/

/-- C28 (code evaluated at the failing inputs). The earlier splitter searches the text for the
first character of the delimiter only and then skips the length of the
delimiter. For `"a,b, c"` and the delimiter `", "` it yields `"a"`, `""`,
`"c"`, and for `"a,b"` it yields `"a"` alone; the segments between the
occurrences of the whole literal `", "`, which the string splitter of
include/Lz/detail/SplitIterator.hpp yields, are `"a,b"`, `"c"` and `"a,b"`.
For `"a,"` the skip leaves the text. With the one-character delimiter `","`
the two splitters agree on `"a,b,,c"`. -/
theorem old_split_first_character_only :
    SplitObject.toVector "a,b, c".toList ", ".toList 7
        = some ["a".toList, "".toList, "c".toList]
    ∧ SplitIterator.split "a,b, c".toList ", ".toList 7 = some ["a,b".toList, "c".toList]
    ∧ SplitObject.toVector "a,b".toList ", ".toList 4 = some ["a".toList]
    ∧ SplitIterator.split "a,b".toList ", ".toList 4 = some ["a,b".toList]
    ∧ (∀ fuel : Nat, SplitObject.toVector "a,".toList ", ".toList fuel = none)
    ∧ SplitObject.toVector "a,b,,c".toList ",".toList 7
        = SplitIterator.split "a,b,,c".toList ",".toList 7 := by
  refine ⟨by decide, by decide, by decide, by decide, ?_, by decide⟩
  intro fuel
  cases fuel with
  | zero => rfl
  | succ f => rfl

/-! ## TakeEvery: the difference -/

/-- The rounding on known values of `float`: `1.0f / 3.0f` is
`11184811 * 2 ^ (-25)` (bits `0x3EAAAAAB`), `0.1f` is `13421773 * 2 ^ (-27)`
(bits `0x3DCCCCCD`), every integer up to `2 ^ 24` is kept, and
`2 ^ 24 + 1` and `2 ^ 24 + 3`, halfway between two neighbours, go to the
neighbour with the even significand. -/
theorem roundToFloat_known_values :
    floatDiv (toFloat 1) (toFloat 3) = (11184811, 2 ^ 25)
    ∧ roundToFloat 1 10 = (13421773, 2 ^ 27)
    ∧ toFloat 16777215 = (16777215, 1)
    ∧ toFloat 16777216 = (16777216, 1)
    ∧ toFloat 16777217 = (16777216, 1)
    ∧ toFloat 16777218 = (16777218, 1)
    ∧ toFloat 16777219 = (16777220, 1) := by
  decide

/-- C22 (code evaluated at the failing input). The difference of TakeEvery cursors is computed
in `float`, whose significand has 24 bits. Over a source of
`n = 16777217 = 2 ^ 24 + 1` elements with stride `1` the distance `n` is
converted to the `float` `16777216`, so `end - begin` and
`lz::distance(begin, end)` are `16777216`, while `ceil(n / 1) = 16777217` is
the number of `++` steps that bring begin to equality with end. For a source
of `10` elements with stride `3` the difference is `ceil(10 / 3) = 4`. -/
theorem takeEvery_difference_rounds_in_float :
    TakeEveryIterator.sub (TakeEveryIterator.viewEnd (List.replicate 16777217 'x') 1)
        (TakeEveryIterator.viewBegin (List.replicate 16777217 'x') 1) = some 16777216
    ∧ TakeEveryIterator.distance (TakeEveryIterator.viewBegin (List.replicate 16777217 'x') 1)
        (TakeEveryIterator.viewEnd (List.replicate 16777217 'x') 1) = some 16777216
    ∧ (∀ j : Nat,
        TakeEveryIterator.eq
            (Nat.iterate TakeEveryIterator.incr j
              (TakeEveryIterator.viewBegin (List.replicate 16777217 'x') 1))
            (TakeEveryIterator.viewEnd (List.replicate 16777217 'x') 1) = true
          ↔ 16777217 ≤ j)
    ∧ TakeEveryIterator.sub (TakeEveryIterator.viewEnd (List.replicate 10 'x') 3)
        (TakeEveryIterator.viewBegin (List.replicate 10 'x') 3) = some 4 := by
  have hsub : TakeEveryIterator.sub (TakeEveryIterator.ctor 16777217 16777217 1 16777217)
      (TakeEveryIterator.ctor 0 16777217 1 16777217) = some 16777216 := by decide
  refine ⟨?_, ?_, ?_, ?_⟩
  · simp only [TakeEveryIterator.viewBegin, TakeEveryIterator.viewEnd, List.length_replicate]
    exact hsub
  · simp only [TakeEveryIterator.distance, TakeEveryIterator.viewBegin,
      TakeEveryIterator.viewEnd, List.length_replicate]
    exact hsub
  · intro j
    have hpos := TakeEveryIterator.takeEvery_iterate_position (List.replicate 16777217 'x') 1
      (by decide) (by rw [List.length_replicate]; decide) (by decide) j
    simp only [List.length_replicate, Nat.mul_one] at hpos
    simp only [TakeEveryIterator.eq, TakeEveryIterator.ne, hpos, TakeEveryIterator.viewEnd,
      TakeEveryIterator.ctor, List.length_replicate]
    by_cases h : j < 16777217
    · simp only [if_pos h]
      simp
      omega
    · simp only [if_neg h]
      simp
      omega
  · simp only [TakeEveryIterator.viewBegin, TakeEveryIterator.viewEnd, List.length_replicate]
    decide

/-! ## Join: `+` against `++`, and `++` against `--` -/

/-- C31 (code evaluated at the failing inputs). Over a source of three
elements (distance `2 * 3 - 1 = 5`) the cursor `begin + 3` is at source
position 1 on a delimiter turn, while three steps of `++` from begin reach
source position 2 on a delimiter turn (the delimiter behind the second
element), which is not past the end. From the cursor one `++` behind begin,
on a delimiter turn, `+ 1` moves the source position to 2 where one `++`
leaves it at 1. For the offsets 1, 2 and 4 from begin the two agree. -/
theorem join_add_differs_from_steps :
    JoinIterator.add (JoinIterator.viewBegin ",".toList 5) 3
        = JoinIterator.mk 1 ",".toList false 5
    ∧ Nat.iterate JoinIterator.incr 3 (JoinIterator.viewBegin ",".toList 5)
        = JoinIterator.mk 2 ",".toList false 5
    ∧ JoinIterator.add (JoinIterator.viewBegin ",".toList 5) 3
        ≠ Nat.iterate JoinIterator.incr 3 (JoinIterator.viewBegin ",".toList 5)
    ∧ (JoinIterator.add (JoinIterator.viewBegin ",".toList 5) 3)._iterator
        ≠ (Nat.iterate JoinIterator.incr 3 (JoinIterator.viewBegin ",".toList 5))._iterator
    ∧ (Nat.iterate JoinIterator.incr 3 (JoinIterator.viewBegin ",".toList 5))._iterator < 3
    ∧ JoinIterator.add (JoinIterator.incr (JoinIterator.viewBegin ",".toList 5)) 1
        = JoinIterator.mk 2 ",".toList true 5
    ∧ JoinIterator.incr (JoinIterator.incr (JoinIterator.viewBegin ",".toList 5))
        = JoinIterator.mk 1 ",".toList true 5
    ∧ JoinIterator.add (JoinIterator.viewBegin ",".toList 5) 1
        = Nat.iterate JoinIterator.incr 1 (JoinIterator.viewBegin ",".toList 5)
    ∧ JoinIterator.add (JoinIterator.viewBegin ",".toList 5) 2
        = Nat.iterate JoinIterator.incr 2 (JoinIterator.viewBegin ",".toList 5)
    ∧ JoinIterator.add (JoinIterator.viewBegin ",".toList 5) 4
        = Nat.iterate JoinIterator.incr 4 (JoinIterator.viewBegin ",".toList 5) := by
  decide

/-- C32. For every Join cursor, on either turn, `++` followed by `--` gives
the cursor back, and so does `--` followed by `++`: the source position, the
turn, the delimiter and the distance are the same as before. -/
theorem join_incr_decr_inverse (a : JoinIterator) :
    JoinIterator.decr (JoinIterator.incr a) = a
    ∧ JoinIterator.incr (JoinIterator.decr a) = a := by
  obtain ⟨i, d, t, n⟩ := a
  cases t
  · constructor
    · simp [JoinIterator.incr, JoinIterator.decr]
    · simp [JoinIterator.incr, JoinIterator.decr]
  · constructor
    · simp [JoinIterator.incr, JoinIterator.decr]
    · simp [JoinIterator.incr, JoinIterator.decr]

/-! ## TakeEvery: `++` behind `+` -/

/-- C36 (code evaluated at the failing input). Over a source of five elements
with stride 2 the cursor `c = begin + 2` is at index 4, not at the end, and
carries `_current = 0` and `_distance = 5`; `++c` tests `0 + 2 >= 5` and
moves the source iterator by the stride to index 6, beyond the end of the
source at 5. Two steps of `++` from begin reach index 4 too, and the next
`++` goes to the end. -/
theorem takeEvery_incr_after_add_leaves_source :
    TakeEveryIterator.add (TakeEveryIterator.viewBegin [1, 2, 3, 4, 5] 2) 2
        = some (TakeEveryIterator.cursorAt 5 2 4 0)
    ∧ TakeEveryIterator.ne (TakeEveryIterator.cursorAt 5 2 4 0)
        (TakeEveryIterator.viewEnd [1, 2, 3, 4, 5] 2) = true
    ∧ (TakeEveryIterator.incr (TakeEveryIterator.cursorAt 5 2 4 0))._iterator = 6
    ∧ [1, 2, 3, 4, 5].length < (TakeEveryIterator.incr (TakeEveryIterator.cursorAt 5 2 4 0))._iterator
    ∧ TakeEveryIterator.ne (TakeEveryIterator.incr (TakeEveryIterator.cursorAt 5 2 4 0))
        (TakeEveryIterator.viewEnd [1, 2, 3, 4, 5] 2) = true
    ∧ TakeEveryIterator.deref [1, 2, 3, 4, 5]
        (TakeEveryIterator.incr (TakeEveryIterator.cursorAt 5 2 4 0)) = none
    ∧ (Nat.iterate TakeEveryIterator.incr 2
        (TakeEveryIterator.viewBegin [1, 2, 3, 4, 5] 2))._iterator = 4
    ∧ (Nat.iterate TakeEveryIterator.incr 3
        (TakeEveryIterator.viewBegin [1, 2, 3, 4, 5] 2))._iterator = 5 := by
  decide

/-! ## Where: equality -/

/-- C37 (code evaluated at the failing input). The body of `ConstWhereIterator::operator==` is
`!(*this == other)`, a call of itself on the same arguments. For every two
cursors and every bound on the depth of the nested calls the evaluation of
`a == b` has not returned; `a != b` is the end test `_iterator != other._end`
and returns. The cursors `begin()` and `end()` of the view over `[1, 2, 3]`
are an instance. -/
theorem where_eq_never_returns :
    (∀ (depth : Nat) (a b : ConstWhereIterator), ConstWhereIterator.eq depth a b = none)
    ∧ (∀ depth : Nat,
        ConstWhereIterator.eq depth (WhereObject.viewBegin [1, 2, 3] (fun n => n % 2 == 1))
          (WhereObject.viewEnd [1, 2, 3] (fun n => n % 2 == 1)) = none)
    ∧ ConstWhereIterator.ne (WhereObject.viewBegin [1, 2, 3] (fun n => n % 2 == 1))
        (WhereObject.viewEnd [1, 2, 3] (fun n => n % 2 == 1)) = true := by
  have h : ∀ (depth : Nat) (a b : ConstWhereIterator), ConstWhereIterator.eq depth a b = none := by
    intro depth a b
    induction depth with
    | zero => rfl
    | succ n ih => simp [ConstWhereIterator.eq, ih]
  exact ⟨h, fun depth => h depth _ _, by decide⟩

/-! ## Split: first occurrences -/

/-- A found position is the first occurrence of the delimiter: the delimiter
starts there and at no earlier position of the searched text. -/
theorem findFrom_first (d t : Text) (i p : Nat) (h : findFrom d t i = some p) :
    i ≤ p ∧ d <+: t.drop (p - i) ∧ ∀ q : Nat, q < p - i → ¬ d <+: t.drop q := by
  induction t generalizing i with
  | nil =>
    by_cases hb : d.isPrefixOf [] = true
    · simp only [findFrom, hb, if_true, Option.some.injEq] at h
      subst h
      exact ⟨le_refl _, by simpa using List.isPrefixOf_iff_prefix.mp hb, fun q hq => by omega⟩
    · simp [findFrom, hb] at h
  | cons c t ih =>
    by_cases hb : d.isPrefixOf (c :: t) = true
    · simp only [findFrom, hb, if_true, Option.some.injEq] at h
      subst h
      exact ⟨le_refl _, by simpa using List.isPrefixOf_iff_prefix.mp hb, fun q hq => by omega⟩
    · simp only [findFrom, hb, Bool.false_eq_true, if_false] at h
      obtain ⟨h1, h2, h3⟩ := ih (i + 1) h
      have hpi : p - i = (p - (i + 1)) + 1 := by omega
      refine ⟨by omega, ?_, ?_⟩
      · rw [hpi, List.drop_succ_cons]; exact h2
      · intro q hq
        cases q with
        | zero =>
          intro hp
          exact hb (List.isPrefixOf_iff_prefix.mpr (by simpa using hp))
        | succ q =>
          rw [List.drop_succ_cons]
          exact h3 q (by omega)

/-- A failed search: the text does not contain the delimiter. -/
theorem findFrom_none_not_infix (d t : Text) (i : Nat) (h : findFrom d t i = none) :
    ¬ d <:+: t := by
  induction t generalizing i with
  | nil =>
    by_cases hb : d.isPrefixOf [] = true
    · simp [findFrom, hb] at h
    · intro hi
      apply hb
      have hd : d = [] := by simpa using hi
      subst hd
      rfl
  | cons c t ih =>
    by_cases hb : d.isPrefixOf (c :: t) = true
    · simp [findFrom, hb] at h
    · simp only [findFrom, hb, Bool.false_eq_true, if_false] at h
      intro hi
      rcases List.infix_cons_iff.mp hi with hp | ht
      · exact hb (List.isPrefixOf_iff_prefix.mpr hp)
      · exact ih (i + 1) h ht

/-- The part of a text before the first occurrence of a non-empty delimiter
does not contain the delimiter. -/
theorem not_infix_take (d t : Text) (m : Nat) (hd : d ≠ [])
    (h : ∀ q : Nat, q < m → ¬ d <+: t.drop q) : ¬ d <:+: t.take m := by
  rintro ⟨a, b, hab⟩
  have hdl : 0 < d.length := List.length_pos.mpr hd
  have hlen : a.length + d.length + b.length = (t.take m).length := by
    rw [← hab]; simp; omega
  have hle : (t.take m).length ≤ m := by simp
  have hdrop : (t.take m).drop a.length = d ++ b := by
    rw [← hab, List.append_assoc, List.drop_left]
  have hpre : (t.take m).drop a.length <+: t.drop a.length := by
    rw [List.drop_take]
    exact List.take_prefix _ _
  apply h a.length (by omega)
  exact (List.prefix_append d b).trans (hdrop ▸ hpre)

namespace SplitIterator

/-- With a non-empty delimiter the traversal from a position reached by the
search ends after at most as many segments as characters are left; it yields
a segment if one is left, no segment contains the delimiter, and on a rest of
the text without NUL character that does not end with the delimiter the
segments with the delimiter between them are that rest. -/
theorem split_traverse_spec (s d : Text) (hd : d ≠ []) (last : SplitIterator)
    (hl : last._currentPos = s.length) (n : Nat) :
    ∀ pos, pos ≤ s.length → s.length - pos ≤ n → ∀ fuel, n < fuel →
      ∃ segs, traverse s d last fuel { _currentPos := pos, _last := find s d pos } = some segs
        ∧ segs.length ≤ s.length - pos
        ∧ (pos < s.length → segs ≠ [])
        ∧ (∀ seg ∈ segs, ¬ d <:+: seg)
        ∧ (¬ d <:+ s.drop pos → Char.ofNat 0 ∉ s.drop pos →
            d.intercalate segs = s.drop pos) := by
  have hdl : 0 < d.length := List.length_pos.mpr hd
  induction n with
  | zero =>
    intro pos hpos hn fuel hf
    obtain ⟨f, rfl⟩ : ∃ f, fuel = f + 1 := ⟨fuel - 1, by omega⟩
    have hlen : pos = s.length := by omega
    refine ⟨[], split_traverse_at_end s d last _ (by simp [hl, hlen]) f, by simp,
      fun h => by omega, by simp, ?_⟩
    intro _ _
    rw [hlen, List.drop_length]
    rfl
  | succ n ih =>
    intro pos hpos hn fuel hf
    obtain ⟨f, rfl⟩ : ∃ f, fuel = f + 2 := ⟨fuel - 2, by omega⟩
    by_cases hend : pos = s.length
    · refine ⟨[], split_traverse_at_end s d last _ (by simp [hl, hend]) (f + 1), by simp,
        fun h => by omega, by simp, ?_⟩
      intro _ _
      rw [hend, List.drop_length]
      rfl
    · have hfd : find s d pos = findFrom d (s.drop pos) pos := by simp [find, hpos]
      cases hfind : find s d pos with
      | none =>
        have hno : ¬ d <:+: s.drop pos :=
          findFrom_none_not_infix d (s.drop pos) pos (by rw [← hfd, hfind])
        refine ⟨[cstr (s.drop pos)], ?_, by simp; omega, fun _ => by simp, ?_, ?_⟩
        · simp only [traverse, ne, hl, bne_iff_ne, ne_eq, hend, not_false_eq_true, ↓reduceIte,
            deref, hpos, incr, not_true_eq_false, Option.map_some']
        · intro seg hseg
          simp only [List.mem_singleton] at hseg
          subst hseg
          intro hi
          exact hno (hi.trans (List.takeWhile_prefix _).isInfix)
        · intro _ hnul
          rw [split_cstr_eq_self _ hnul]
          simp [List.intercalate]
      | some l =>
        have hf2 : findFrom d (s.drop pos) pos = some l := by rw [← hfd, hfind]
        obtain ⟨hb1, hpre, hfirst⟩ := findFrom_first d (s.drop pos) pos l hf2
        have hb2 : l + d.length ≤ s.length := by
          have := findFrom_bounds d (s.drop pos) pos l hf2
          simp only [List.length_drop] at this
          omega
        have hsub : subSizeT l pos = l - pos := by simp [subSizeT, hb1]
        have hsub2 : subSizeT s.length d.length = s.length - d.length := by
          have : d.length ≤ s.length := by omega
          simp [subSizeT, this]
        have hle : pos + (l - pos) ≤ s.length := by omega
        have hderef : deref s { _currentPos := pos, _last := some l }
            = some ((s.drop pos).take (l - pos)) := by
          simp only [deref, hsub, hle, ↓reduceIte]
        have hne : ne { _currentPos := pos, _last := some l } last = true := by
          simp [ne, hl, hend]
        have hseg : ¬ d <:+: (s.drop pos).take (l - pos) :=
          not_infix_take d (s.drop pos) (l - pos) hd hfirst
        have hdd : (s.drop pos).drop (l - pos) = s.drop l := by
          rw [List.drop_drop]
          congr 1
          omega
        rw [hdd] at hpre
        have hrest : s.drop l = d ++ s.drop (l + d.length) := by
          obtain ⟨r, hr⟩ := hpre
          have : s.drop (l + d.length) = r := by
            have h1 : (s.drop l).drop d.length = r := by rw [← hr, List.drop_left]
            rw [List.drop_drop] at h1
            rw [← h1]
          rw [this, hr]
        have hwhole : s.drop pos = (s.drop pos).take (l - pos) ++ (d ++ s.drop (l + d.length)) := by
          rw [← hrest, ← hdd, List.take_append_drop]
        by_cases hlast : l = s.length - d.length
        · have hincr : incr s d { _currentPos := pos, _last := some l }
              = { _currentPos := s.length, _last := none } := by
            simp only [incr, hsub2]; rw [if_pos hlast]
          refine ⟨[(s.drop pos).take (l - pos)], ?_, by simp; omega, fun _ => by simp, ?_, ?_⟩
          · rw [split_traverse_succ, hne, hderef, hincr,
              split_traverse_at_end s d last _ (by simp [hl]) f]
            rfl
          · intro seg hs
            simp only [List.mem_singleton] at hs
            subst hs
            exact hseg
          · intro hsuf _
            exfalso
            apply hsuf
            have hnil : s.drop (l + d.length) = [] := by
              apply List.drop_eq_nil_of_le
              omega
            rw [hwhole, hnil, List.append_nil]
            exact List.suffix_append _ _
        · have hincr : incr s d { _currentPos := pos, _last := some l }
              = { _currentPos := l + d.length, _last := find s d (l + d.length) } := by
            simp only [incr, hsub2]; rw [if_neg hlast]
          obtain ⟨segs, hsegs, hlen, hnonempty, hall, hjoin⟩ :=
            ih (l + d.length) (by omega) (by omega) (f + 1) (by omega)
          refine ⟨(s.drop pos).take (l - pos) :: segs, ?_, ?_, fun _ => by simp, ?_, ?_⟩
          · rw [split_traverse_succ, hne, hderef, hincr, hsegs]
            rfl
          · simp only [List.length_cons]
            omega
          · intro seg hs
            rcases List.mem_cons.mp hs with h1 | h1
            · subst h1; exact hseg
            · exact hall seg h1
          · intro hsuf hnul
            have hsuf2 : ¬ d <:+ s.drop (l + d.length) := by
              intro h
              apply hsuf
              rw [hwhole]
              exact h.trans ((List.suffix_append _ _).trans (List.suffix_append _ _))
            have hnul2 : Char.ofNat 0 ∉ s.drop (l + d.length) := by
              intro h
              apply hnul
              rw [hwhole]
              simp [h]
            have hj := hjoin hsuf2 hnul2
            have hne2 : segs ≠ [] := hnonempty (by omega)
            obtain ⟨w, r, rfl⟩ : ∃ w r, segs = w :: r := by
              cases segs with
              | nil => exact absurd rfl hne2
              | cons w r => exact ⟨w, r, rfl⟩
            have hcons : d.intercalate ((s.drop pos).take (l - pos) :: w :: r)
                = (s.drop pos).take (l - pos) ++ (d ++ d.intercalate (w :: r)) := by
              simp [List.intercalate]
            rw [hcons, hj]
            exact hwhole.symm

/-- The whole split with a non-empty delimiter. -/
theorem split_spec (s d : Text) (hd : d ≠ []) (fuel : Nat) (hf : s.length < fuel) :
    ∃ segs, split s d fuel = some segs
      ∧ segs.length ≤ s.length
      ∧ (∀ seg ∈ segs, ¬ d <:+: seg)
      ∧ (¬ d <:+ s → Char.ofNat 0 ∉ s → d.intercalate segs = s) := by
  obtain ⟨segs, h1, h2, _, h4, h5⟩ := split_traverse_spec s d hd (viewEnd s d)
    (split_viewEnd_currentPos s d) s.length 0 (Nat.zero_le _) (by omega) fuel hf
  refine ⟨segs, ?_, by simpa using h2, h4, by simpa using h5⟩
  rw [split, split_viewBegin_eq]
  exact h1

end SplitIterator

/-! ## Split: the segments and the progress of the cursor -/

namespace SplitIterator

theorem split_find_at_length (s d : Text) (hd : d ≠ []) : find s d s.length = none := by
  have hb : d.isPrefixOf [] = false := by
    cases d with
    | nil => exact absurd rfl hd
    | cons c t => rfl
  simp [find, findFrom, hb]

/-- One `++` on the cursor at a position `pos` reached by the search: the new
cursor is again at a position reached by the search, inside the text, and
behind `pos` unless `pos` is the end. -/
theorem split_incr_step (s d : Text) (hd : d ≠ []) (pos : Nat) (hpos : pos ≤ s.length) :
    ∃ pos2, incr s d { _currentPos := pos, _last := find s d pos }
        = { _currentPos := pos2, _last := find s d pos2 }
      ∧ pos2 ≤ s.length ∧ (pos ≠ s.length → pos < pos2) := by
  have hdl : 0 < d.length := List.length_pos.mpr hd
  have hfd : find s d pos = findFrom d (s.drop pos) pos := by simp [find, hpos]
  cases hfind : find s d pos with
  | none =>
    refine ⟨s.length, ?_, le_refl _, fun h => by omega⟩
    simp only [incr, split_find_at_length s d hd]
  | some l =>
    have hf2 : findFrom d (s.drop pos) pos = some l := by rw [← hfd, hfind]
    have hb := findFrom_bounds d (s.drop pos) pos l hf2
    simp only [List.length_drop] at hb
    by_cases hlast : l = subSizeT s.length d.length
    · refine ⟨s.length, ?_, le_refl _, fun h => by omega⟩
      simp only [incr, split_find_at_length s d hd]
      rw [if_pos hlast]
    · refine ⟨l + d.length, ?_, by omega, fun _ => by omega⟩
      simp only [incr]
      rw [if_neg hlast]

/-- The cursor reached from begin by `j` steps of `++`: it is at a position
reached by the search, inside the text, and at the end or at least `j`
characters into the text. -/
theorem split_iterate_incr (s d : Text) (hd : d ≠ []) (j : Nat) :
    ∃ pos, Nat.iterate (incr s d) j (viewBegin s d)
        = { _currentPos := pos, _last := find s d pos }
      ∧ pos ≤ s.length ∧ (pos = s.length ∨ j ≤ pos) := by
  induction j with
  | zero =>
    refine ⟨0, ?_, Nat.zero_le _, Or.inr (le_refl _)⟩
    simp [viewBegin, ctor]
  | succ j ih =>
    obtain ⟨pos, hc, hle, hprog⟩ := ih
    obtain ⟨pos2, hstep, hle2, hlt⟩ := split_incr_step s d hd pos hle
    refine ⟨pos2, ?_, hle2, ?_⟩
    · rw [Function.iterate_succ_apply', hc, hstep]
    · by_cases hend : pos = s.length
      · left
        have hstep2 : incr s d { _currentPos := pos, _last := find s d pos }
            = { _currentPos := s.length, _last := none } := by
          rw [hend, split_find_at_length s d hd]
          rfl
        rw [hstep2] at hstep
        have := congrArg SplitIterator._currentPos hstep
        simpa using this.symm
      · right
        have := hlt hend
        omega

end SplitIterator

/-- C33 (code evaluated at the failing input, and the claim on the other
texts). The text `a,b NUL c` does not end with the delimiter `","`; the
splitter yields `"a"` and `"b"`, which joined with the delimiter give
`"a,b"`, not the text: the segment behind the last delimiter is read up to
the first NUL character. For every non-empty text without NUL character that
does not end with the non-empty delimiter the segments joined with the
delimiter are the text. -/
theorem split_segments_rejoin :
    (¬ ",".toList <:+ ['a', ',', 'b', Char.ofNat 0, 'c']
      ∧ SplitIterator.split ['a', ',', 'b', Char.ofNat 0, 'c'] ",".toList 6
          = some [['a'], ['b']]
      ∧ List.intercalate ",".toList [['a'], ['b']] = "a,b".toList
      ∧ List.intercalate ",".toList [['a'], ['b']] ≠ ['a', ',', 'b', Char.ofNat 0, 'c'])
    ∧ (∀ s d : Text, s ≠ [] → d ≠ [] → ¬ d <:+ s → Char.ofNat 0 ∉ s →
        ∀ fuel, s.length < fuel →
          ∃ segs, SplitIterator.split s d fuel = some segs ∧ List.intercalate d segs = s)
    ∧ (SplitIterator.split "a,,b".toList ",".toList 5
          = some ["a".toList, "".toList, "b".toList]
        ∧ List.intercalate ",".toList ["a".toList, "".toList, "b".toList] = "a,,b".toList) := by
  refine ⟨⟨by decide, by decide, by decide, by decide⟩, ?_, by decide, by decide⟩
  intro s d _ hd hsuf hnul fuel hf
  obtain ⟨segs, h1, _, _, h4⟩ := SplitIterator.split_spec s d hd fuel hf
  exact ⟨segs, h1, h4 hsuf hnul⟩

/-- C34. For every text and every non-empty delimiter the traversal of the
string splitter ends, and no segment it yields contains the delimiter as a
substring. -/
theorem split_segments_without_delimiter (s d : Text) (hd : d ≠ []) :
    ∀ fuel, s.length < fuel →
      ∃ segs, SplitIterator.split s d fuel = some segs ∧ ∀ seg ∈ segs, ¬ d <:+: seg := by
  intro fuel hf
  obtain ⟨segs, h1, _, h3, _⟩ := SplitIterator.split_spec s d hd fuel hf
  exact ⟨segs, h1, h3⟩

theorem split_segments_without_delimiter_witness :
    ∃ segs, SplitIterator.split "a,b,,c".toList ",".toList 7 = some segs
      ∧ ∀ seg ∈ segs, ¬ ",".toList <:+: seg :=
  split_segments_without_delimiter "a,b,,c".toList ",".toList (by decide) 7 (by decide)

/-- C35. For a text of length `L` and a non-empty delimiter, every cursor
reached from begin by steps of `++` is at a position of at most `L`; if it is
not at the end, `++` moves it to a strictly greater position of at most `L`.
So begin equals end after at most `L` steps of `++`, and the traversal ends
with at most `L` segments. -/
theorem split_incr_progress (s d : Text) (hd : d ≠ []) :
    (∀ j : Nat,
        (Nat.iterate (SplitIterator.incr s d) j (SplitIterator.viewBegin s d))._currentPos
          ≤ s.length
        ∧ (SplitIterator.ne (Nat.iterate (SplitIterator.incr s d) j (SplitIterator.viewBegin s d))
              (SplitIterator.viewEnd s d) = true →
            (Nat.iterate (SplitIterator.incr s d) j (SplitIterator.viewBegin s d))._currentPos
              < (SplitIterator.incr s d
                  (Nat.iterate (SplitIterator.incr s d) j
                    (SplitIterator.viewBegin s d)))._currentPos
            ∧ (SplitIterator.incr s d
                (Nat.iterate (SplitIterator.incr s d) j
                  (SplitIterator.viewBegin s d)))._currentPos ≤ s.length))
    ∧ (∃ j : Nat, j ≤ s.length
        ∧ SplitIterator.eq (Nat.iterate (SplitIterator.incr s d) j (SplitIterator.viewBegin s d))
            (SplitIterator.viewEnd s d) = true)
    ∧ (∀ fuel : Nat, s.length < fuel →
        ∃ segs, SplitIterator.split s d fuel = some segs ∧ segs.length ≤ s.length) := by
  refine ⟨?_, ?_, ?_⟩
  · intro j
    obtain ⟨pos, hc, hle, _⟩ := SplitIterator.split_iterate_incr s d hd j
    obtain ⟨pos2, hstep, hle2, hlt⟩ := SplitIterator.split_incr_step s d hd pos hle
    rw [hc, hstep]
    refine ⟨hle, fun hne => ⟨hlt ?_, hle2⟩⟩
    simpa [SplitIterator.ne, SplitIterator.viewEnd, SplitIterator.ctor] using hne
  · obtain ⟨pos, hc, hle, hprog⟩ := SplitIterator.split_iterate_incr s d hd s.length
    refine ⟨s.length, le_refl _, ?_⟩
    have hpos : pos = s.length := by
      rcases hprog with h | h
      · exact h
      · omega
    rw [hc]
    simp [SplitIterator.eq, SplitIterator.ne, SplitIterator.viewEnd, SplitIterator.ctor, hpos]
  · intro fuel hf
    obtain ⟨segs, h1, h2, _, _⟩ := SplitIterator.split_spec s d hd fuel hf
    exact ⟨segs, h1, h2⟩

theorem split_incr_progress_witness :
    (∀ j : Nat,
        (Nat.iterate (SplitIterator.incr "a,b".toList ",".toList) j
            (SplitIterator.viewBegin "a,b".toList ",".toList))._currentPos
          ≤ "a,b".toList.length
        ∧ (SplitIterator.ne
              (Nat.iterate (SplitIterator.incr "a,b".toList ",".toList) j
                (SplitIterator.viewBegin "a,b".toList ",".toList))
              (SplitIterator.viewEnd "a,b".toList ",".toList) = true →
            (Nat.iterate (SplitIterator.incr "a,b".toList ",".toList) j
                (SplitIterator.viewBegin "a,b".toList ",".toList))._currentPos
              < (SplitIterator.incr "a,b".toList ",".toList
                  (Nat.iterate (SplitIterator.incr "a,b".toList ",".toList) j
                    (SplitIterator.viewBegin "a,b".toList ",".toList)))._currentPos
            ∧ (SplitIterator.incr "a,b".toList ",".toList
                (Nat.iterate (SplitIterator.incr "a,b".toList ",".toList) j
                  (SplitIterator.viewBegin "a,b".toList ",".toList)))._currentPos
              ≤ "a,b".toList.length))
    ∧ (∃ j : Nat, j ≤ "a,b".toList.length
        ∧ SplitIterator.eq
            (Nat.iterate (SplitIterator.incr "a,b".toList ",".toList) j
              (SplitIterator.viewBegin "a,b".toList ",".toList))
            (SplitIterator.viewEnd "a,b".toList ",".toList) = true)
    ∧ (∀ fuel : Nat, "a,b".toList.length < fuel →
        ∃ segs, SplitIterator.split "a,b".toList ",".toList fuel = some segs
          ∧ segs.length ≤ "a,b".toList.length) :=
  split_incr_progress "a,b".toList ",".toList (by decide)

end Lz
